import Mathlib

/-!
Verification of the sproto serialization library (Rust implementation).

This file gives a shallow embedding of the core of the library:
the wire codec (src/codec/encoder.rs, src/codec/decoder.rs), the
pack/unpack compression (src/pack.rs), the schema model
(src/types.rs, src/parser/schema_builder.rs) and the RPC host
(src/rpc/mod.rs), and proves properties of the embedded code.

Modelling conventions:
  - Bytes are natural numbers; byte sequences are lists of naturals.
    A Rust u8 is always < 256; the embedded writers only ever emit
    values < 256, and the readers treat lists positionally exactly as
    the Rust code indexes slices.
  - Rust i64 values are integers; the casts (as u64, as u32, as i32)
    are made explicit as arithmetic on the mathematical integers.
  - A Rust f64 is represented by its IEEE-754 bit pattern (a natural
    below 2^64): the codec only ever moves the bit pattern around
    (to_bits / from_bits), and the library compares doubles by bit
    pattern.
  - A Rust String is represented by its UTF-8 byte list; the
    String::from_utf8 check is modelled by an explicit UTF-8 validator.
  - HashMap is modelled by an association list with HashMap insert
    (replace or append) semantics; the codec only observes maps through
    get and insert.
  - Fallible functions return Except.  Rust runtime panics (out of
    bounds slice indexing, unreachable arms) are modelled by a
    distinguished Panic error, so that they stay observable.
  - Recursion that is not structural in Lean (the codec recursion on
    nested structs, loops over byte offsets) takes an explicit fuel
    argument; a distinguished FuelOut error marks fuel exhaustion.
    Public wrappers pass enough fuel, and theorems quantify over fuel.
-/

namespace Sproto2P

/-! ### Wire primitives (src/codec/wire.rs) -/

/-- Header size constant (field count), SIZEOF_HEADER. -/
def SIZEOF_HEADER : Nat := 2

/-- Field descriptor size, SIZEOF_FIELD. -/
def SIZEOF_FIELD : Nat := 2

/-- Length prefix size, SIZEOF_LENGTH. -/
def SIZEOF_LENGTH : Nat := 4

/-- Size of a 32-bit integer. -/
def SIZEOF_INT32 : Nat := 4

/-- Size of a 64-bit integer. -/
def SIZEOF_INT64 : Nat := 8

/-- Read a 16-bit little-endian value from the front of a byte list
(read_u16_le).  All call sites in the Rust decoder are guarded by
length checks, so the total getD model agrees with slice indexing. -/
def read_u16_le (l : List Nat) : Nat :=
  l.getD 0 0 + 256 * l.getD 1 0

/-- Read a 32-bit little-endian value (read_u32_le). -/
def read_u32_le (l : List Nat) : Nat :=
  l.getD 0 0 + 256 * l.getD 1 0 + 65536 * l.getD 2 0 + 16777216 * l.getD 3 0

/-- Write a 16-bit value little-endian (write_u16_le applied to the
low 16 bits of its argument, matching the u16 argument type). -/
def write_u16_le (v : Nat) : List Nat :=
  [v % 256, v / 256 % 256]

/-- Write a 32-bit value little-endian (write_u32_le applied to an
argument cast with as u32, which keeps the low 32 bits). -/
def write_u32_le (v : Nat) : List Nat :=
  [v % 256, v / 256 % 256, v / 65536 % 256, v / 16777216 % 256]

/-- Write a 64-bit value little-endian (write_u64_le). -/
def write_u64_le (v : Nat) : List Nat :=
  [v % 256, v / 256 % 256, v / 65536 % 256, v / 16777216 % 256,
   v / 4294967296 % 256, v / 1099511627776 % 256,
   v / 281474976710656 % 256, v / 72057594037927936 % 256]

/-- Sign-extend a 32-bit value to 64 bits (expand64).  The Rust code
computes value with the high 32 bits all set when bit 31 is set; since
the operands of the bit-or are disjoint this is an addition. -/
def expand64 (v : Nat) : Nat :=
  if 2147483648 ≤ v then v + 18446744069414584320 else v

/-- Interpretation of a u64 bit pattern as an i64 (the Rust cast
v as i64). -/
def i64_of_u64 (u : Nat) : Int :=
  if u < 9223372036854775808 then (u : Int) else (u : Int) - 18446744073709551616

/-- The Rust cast x as u64 for an i64 value x (two's complement). -/
def u64_of_i64 (x : Int) : Nat :=
  (x % 18446744073709551616).toNat

/-- The Rust cast x as i32 for an i64 value x (truncate to the low 32
bits, reinterpreted as signed). -/
def i32_of_i64 (x : Int) : Int :=
  (x + 2147483648) % 4294967296 - 2147483648

/-! ### Schema model (src/types.rs) -/

/-- The type of a field in a sproto schema (FieldType). -/
inductive FieldType where
  | Integer
  | Boolean
  | String
  | Binary
  | Double
  /-- A user-defined struct type; the index points into
  Sproto.types_list. -/
  | Struct (idx : Nat)
deriving DecidableEq, Repr, Inhabited

/-- A field definition within a sproto type (Field). -/
structure Field where
  name : String
  tag : Nat
  field_type : FieldType
  is_array : Bool
  key_tag : Int
  is_map : Bool
  decimal_precision : Nat
deriving DecidableEq, Repr, Inhabited

/-- A user-defined type in the schema (SprotoType).  fields is sorted
by tag in ascending order by the schema builder. -/
structure SprotoType where
  name : String
  fields : List Field
  base_tag : Int
  maxn : Nat
deriving DecidableEq, Repr, Inhabited

/-- A protocol definition for RPC (Protocol). -/
structure Protocol where
  name : String
  tag : Nat
  request : Option Nat
  response : Option Nat
  confirm : Bool
deriving DecidableEq, Repr, Inhabited

/-- The top-level schema container (Sproto).  The by-name lookup
tables of the Rust struct are not needed by the verified operations;
the by-tag protocol table is kept as an association list. -/
structure Sproto where
  types_list : List SprotoType
  protocols : List Protocol
  protocols_by_tag : List (Nat × Nat)
deriving DecidableEq, Repr, Inhabited

/-- Loop of SprotoType::find_field_by_tag in the non-contiguous case:
the Rust slice binary_search_by_key.  left and right bracket the
search window exactly as in the Rust standard library implementation;
the fuel argument only bounds the iteration count (the window halves
on every step, so length + 1 steps always suffice). -/
def binary_search_loop (fields : List Field) (tag : Nat) :
    Nat → Nat → Nat → Option Nat
  | 0, _, _ => none
  | fuel+1, left, right =>
    if left < right then
      let mid := left + (right - left) / 2
      let k := (fields.getD mid default).tag
      if k < tag then binary_search_loop fields tag fuel (mid + 1) right
      else if tag < k then binary_search_loop fields tag fuel left mid
      else some mid
    else none

/-- SprotoType::find_field_by_tag: direct indexing when tags are
contiguous (base_tag is nonnegative), binary search otherwise. -/
def find_field_by_tag (t : SprotoType) (tag : Nat) : Option Field :=
  if 0 ≤ t.base_tag then
    let idx : Int := (tag : Int) - t.base_tag
    if idx < 0 ∨ t.fields.length ≤ idx.toNat then none
    else some (t.fields.getD idx.toNat default)
  else
    (binary_search_loop t.fields tag (t.fields.length + 1) 0 t.fields.length).map
      (fun i => t.fields.getD i default)

/-- Loop inside compute_base_tag_and_maxn counting gap regions. -/
def maxn_loop (fields : List Field) (last : Int) (acc : Nat) : Nat :=
  match fields with
  | [] => acc
  | f :: rest =>
    maxn_loop rest (f.tag : Int) (if last + 1 < (f.tag : Int) then acc + 1 else acc)

/-- compute_base_tag_and_maxn from src/parser/schema_builder.rs:
base_tag is the first tag when the sorted tags span exactly
length-many values, otherwise -1; maxn is the field count plus the
number of gap regions (counting a region before the first field when
its tag is positive). -/
def compute_base_tag_and_maxn (fields : List Field) : Int × Nat :=
  match fields with
  | [] => (-1, 0)
  | f0 :: _ =>
    let n := fields.length
    let maxn := maxn_loop fields (-1) n
    let base : Int := (f0.tag : Int)
    let span : Int := ((fields.getLastD default).tag : Int) - base + 1
    let base_tag := if span = (n : Int) then base else -1
    (base_tag, maxn)

/-! ### Value model (src/value.rs) -/

/-- Dynamic value type (SprotoValue).  Str holds the UTF-8 bytes of
the Rust String; Double holds the IEEE-754 bit pattern (the library
compares doubles by bit pattern); Struct holds the HashMap as an
association list with distinct keys. -/
inductive SprotoValue where
  | Integer (v : Int)
  | Boolean (v : Bool)
  | Str (s : List Nat)
  | Binary (b : List Nat)
  | Double (bits : Nat)
  | Struct (m : List (String × SprotoValue))
  | Array (a : List SprotoValue)
deriving Inhabited, Repr

/-- HashMap::get on the association-list model. -/
def lookupA (m : List (String × SprotoValue)) (k : String) : Option SprotoValue :=
  match m with
  | [] => none
  | p :: rest => if p.1 = k then some p.2 else lookupA rest k

/-- HashMap::insert on the association-list model: replace the
binding when the key is present, append otherwise. -/
def insertA (m : List (String × SprotoValue)) (k : String) (v : SprotoValue) :
    List (String × SprotoValue) :=
  match m with
  | [] => [(k, v)]
  | p :: rest => if p.1 = k then (k, v) :: rest else p :: insertA rest k v

/-- SprotoValue::get composed with as_integer, as used by the RPC
dispatcher. -/
def as_integer (v : SprotoValue) : Option Int :=
  match v with
  | .Integer i => some i
  | _ => none

/-! ### Errors (src/error.rs) -/

/-- Decoder errors (DecodeError), plus two modelling constructors:
Panic models a Rust runtime panic (out-of-bounds slice index,
unreachable arm) and FuelOut marks exhaustion of modelling fuel.
InvalidUtf8 keeps the offending field name. -/
inductive DecodeError where
  | Truncated (need hv : Nat)
  | InvalidData (msg : String)
  | InvalidUtf8 (field : String)
  | Panic (msg : String)
  | FuelOut
deriving DecidableEq, Repr

/-- Encoder errors (EncodeError) with the same two modelling
constructors. -/
inductive EncodeError where
  | TypeMismatch (field expected actual : String)
  | Panic (msg : String)
  | FuelOut
deriving DecidableEq, Repr

/-- Pack/unpack errors (PackError). -/
inductive PackError where
  | InvalidData (msg : String)
deriving DecidableEq, Repr

/-! ### UTF-8 validation (String::from_utf8) -/

/-- Continuation byte test: 0x80..=0xBF. -/
def utf8_cont (b : Nat) : Bool := 128 ≤ b && b ≤ 191

/-- UTF-8 validity of a byte list, the check performed by Rust
String::from_utf8: the standard table of lead bytes with their
permitted continuation ranges (overlongs and surrogates rejected). -/
def utf8_valid : List Nat → Bool
  | [] => true
  | b :: rest =>
    if b ≤ 127 then utf8_valid rest
    else if 194 ≤ b && b ≤ 223 then
      match rest with
      | c1 :: r => utf8_cont c1 && utf8_valid r
      | [] => false
    else if b = 224 then
      match rest with
      | c1 :: c2 :: r => (160 ≤ c1 && c1 ≤ 191) && utf8_cont c2 && utf8_valid r
      | _ => false
    else if 225 ≤ b && b ≤ 236 then
      match rest with
      | c1 :: c2 :: r => utf8_cont c1 && utf8_cont c2 && utf8_valid r
      | _ => false
    else if b = 237 then
      match rest with
      | c1 :: c2 :: r => (128 ≤ c1 && c1 ≤ 159) && utf8_cont c2 && utf8_valid r
      | _ => false
    else if 238 ≤ b && b ≤ 239 then
      match rest with
      | c1 :: c2 :: r => utf8_cont c1 && utf8_cont c2 && utf8_valid r
      | _ => false
    else if b = 240 then
      match rest with
      | c1 :: c2 :: c3 :: r =>
        (144 ≤ c1 && c1 ≤ 191) && utf8_cont c2 && utf8_cont c3 && utf8_valid r
      | _ => false
    else if 241 ≤ b && b ≤ 243 then
      match rest with
      | c1 :: c2 :: c3 :: r => utf8_cont c1 && utf8_cont c2 && utf8_cont c3 && utf8_valid r
      | _ => false
    else if b = 244 then
      match rest with
      | c1 :: c2 :: c3 :: r =>
        (128 ≤ c1 && c1 ≤ 143) && utf8_cont c2 && utf8_cont c3 && utf8_valid r
      | _ => false
    else false

/-! ### Decoder (src/codec/decoder.rs) -/

/-- Shorthand for decoder results. -/
abbrev DResult (α : Type) := Except DecodeError α

/-- decode_inline_value: an inline descriptor payload is accepted for
Integer and Boolean fields only. -/
def decode_inline_value (field : Field) (value : Nat) : DResult SprotoValue :=
  match field.field_type with
  | .Integer => .ok (.Integer (value : Int))
  | .Boolean => .ok (.Boolean (value != 0))
  | _ => .error (.InvalidData "field type cannot have inline value")

/-- One element of decode_integer_array, at index i of the element
bytes.  A 4-byte element is sign-extended with expand64 (including,
as in the source, for Double fields). -/
def int_array_elem (is_double : Bool) (int_len : Nat) (values_data : List Nat)
    (i : Nat) : SprotoValue :=
  if int_len = SIZEOF_INT32 then
    let v := expand64 (read_u32_le (values_data.drop (i * SIZEOF_INT32)))
    if is_double then .Double v else .Integer (i64_of_u64 v)
  else
    let low := read_u32_le (values_data.drop (i * SIZEOF_INT64))
    let hi := read_u32_le (values_data.drop (i * SIZEOF_INT64 + SIZEOF_INT32))
    let v := low + 4294967296 * hi
    if is_double then .Double v else .Integer (i64_of_u64 v)

/-- decode_integer_array: a 1-byte element-size marker (4 or 8)
followed by the elements. -/
def decode_integer_array (field : Field) (content : List Nat) : DResult SprotoValue :=
  if content.isEmpty then .ok (.Array [])
  else
    let int_len := content.getD 0 0
    let values_data := content.drop 1
    if int_len ≠ SIZEOF_INT32 ∧ int_len ≠ SIZEOF_INT64 then
      .error (.InvalidData "integer array has invalid element size")
    else if values_data.length % int_len ≠ 0 then
      .error (.InvalidData "integer array data length not divisible by element size")
    else
      let count := values_data.length / int_len
      let is_double := field.field_type = FieldType.Double
      .ok (.Array ((List.range count).map (int_array_elem is_double int_len values_data)))

/-- decode_boolean_array: one byte per element, nonzero meaning true. -/
def decode_boolean_array (content : List Nat) : DResult SprotoValue :=
  .ok (.Array (content.map (fun b => .Boolean (b != 0))))

/-- Loop of decode_object_array.  The source reads the 4-byte element
length and then slices content with the unchecked upper bound
4 + elem_sz; the Panic branch models the out-of-bounds panic of that
slice.  Fuel bounds the iteration count (at least 4 bytes are consumed
per step, so length + 1 always suffices). -/
def decode_object_array_loop (S : Sproto)
    (recur : SprotoType → List Nat → DResult SprotoValue) (field : Field) :
    Nat → List Nat → List SprotoValue → DResult (List SprotoValue)
  | 0, _, _ => .error .FuelOut
  | fuel+1, content, acc =>
    if content.isEmpty then .ok acc
    else if content.length < SIZEOF_LENGTH then
      .error (.InvalidData "truncated object array element")
    else
      let elem_sz := read_u32_le content
      if content.length < SIZEOF_LENGTH + elem_sz then
        .error (.Panic "slice index out of range in decode_object_array")
      else
        let elem_data := (content.drop SIZEOF_LENGTH).take elem_sz
        let step : DResult SprotoValue :=
          match field.field_type with
          | .String =>
            if utf8_valid elem_data then .ok (.Str elem_data)
            else .error (.InvalidUtf8 field.name)
          | .Binary => .ok (.Binary elem_data)
          | .Struct idx =>
            match S.types_list[idx]? with
            | some sub => recur sub elem_data
            | none => .error (.Panic "type index out of range")
          | _ => .error (.Panic "entered unreachable code")
        step >>= fun v =>
          decode_object_array_loop S recur field fuel
            (content.drop (SIZEOF_LENGTH + elem_sz)) (acc ++ [v])

/-- decode_field_from_data: the data argument is the length-prefixed
region taken from the data blob by the caller (always 4 + size
bytes). -/
def decode_field_from_data (S : Sproto)
    (recur : SprotoType → List Nat → DResult SprotoValue) (field : Field)
    (data : List Nat) : DResult SprotoValue :=
  let sz := read_u32_le data
  let content := (data.drop SIZEOF_LENGTH).take sz
  match field.field_type with
  | .Integer | .Double =>
    if sz = SIZEOF_INT32 then
      let v := expand64 (read_u32_le content)
      if field.field_type = FieldType.Double then
        .error (.InvalidData "double field has 4-byte data, expected 8")
      else .ok (.Integer (i64_of_u64 v))
    else if sz = SIZEOF_INT64 then
      let low := read_u32_le content
      let hi := read_u32_le (content.drop SIZEOF_INT32)
      let v := low + 4294967296 * hi
      if field.field_type = FieldType.Double then .ok (.Double v)
      else .ok (.Integer (i64_of_u64 v))
    else .error (.InvalidData "integer or double field has invalid size")
  | .String =>
    if utf8_valid content then .ok (.Str content)
    else .error (.InvalidUtf8 field.name)
  | .Binary => .ok (.Binary content)
  | .Boolean => .error (.InvalidData "boolean field in data part")
  | .Struct idx =>
    match S.types_list[idx]? with
    | some sub => recur sub content
    | none => .error (.Panic "type index out of range")

/-- decode_array: zero outer length yields the empty array, otherwise
dispatch on the base field type. -/
def decode_array (S : Sproto)
    (recur : SprotoType → List Nat → DResult SprotoValue) (field : Field)
    (data : List Nat) : DResult SprotoValue :=
  let sz := read_u32_le data
  if sz = 0 then .ok (.Array [])
  else
    let content := (data.drop SIZEOF_LENGTH).take sz
    match field.field_type with
    | .Integer | .Double => decode_integer_array field content
    | .Boolean => decode_boolean_array content
    | .String | .Binary | .Struct _ =>
      (decode_object_array_loop S recur field (content.length + 1) content []).map
        SprotoValue.Array

/-- Descriptor loop of decode: walks the descriptor values (already
read from the field part), the running tag counter and the data blob
offset into the full byte list, exactly as the source loop indexes
data.  An odd descriptor skips tags; descriptor 0 consumes a
length-prefixed region from the data blob; an even descriptor at
least 2 is an inline value.  Unknown tags are skipped (forward
compatibility). -/
def decode_loop (S : Sproto)
    (recur : SprotoType → List Nat → DResult SprotoValue) (t : SprotoType)
    (data : List Nat) :
    List Nat → Nat → Int → List (String × SprotoValue) →
    DResult (List (String × SprotoValue))
  | [], _, _, result => .ok result
  | value :: rest, data_offset, tag0, result =>
    let tag := tag0 + 1
    if value % 2 = 1 then
      decode_loop S recur t data rest data_offset (tag + ((value / 2 : Nat) : Int)) result
    else if value = 0 then
      if data.length < data_offset + SIZEOF_LENGTH then
        .error (.Truncated (data_offset + SIZEOF_LENGTH) data.length)
      else
        let dsz := read_u32_le (data.drop data_offset)
        if data.length < data_offset + SIZEOF_LENGTH + dsz then
          .error (.Truncated (data_offset + SIZEOF_LENGTH + dsz) data.length)
        else
          let new_offset := data_offset + SIZEOF_LENGTH + dsz
          match find_field_by_tag t (tag.toNat % 65536) with
          | none => decode_loop S recur t data rest new_offset tag result
          | some field =>
            let field_data := (data.drop data_offset).take (SIZEOF_LENGTH + dsz)
            (if field.is_array then decode_array S recur field field_data
             else decode_field_from_data S recur field field_data) >>= fun v =>
              decode_loop S recur t data rest new_offset tag (insertA result field.name v)
    else
      match find_field_by_tag t (tag.toNat % 65536) with
      | none => decode_loop S recur t data rest data_offset tag result
      | some field =>
        decode_inline_value field (value / 2 - 1) >>= fun v =>
          decode_loop S recur t data rest data_offset tag (insertA result field.name v)

/-- decode with explicit fuel; the fuel only feeds the recursion into
nested struct regions, whose byte length strictly decreases, so
length + 1 fuel always suffices. -/
def decodeAux : Nat → Sproto → SprotoType → List Nat → DResult SprotoValue
  | 0, _, _, _ => .error .FuelOut
  | fuel+1, S, t, data =>
    let size := data.length
    if size < SIZEOF_HEADER then .error (.Truncated SIZEOF_HEADER size)
    else
      let fn_count := read_u16_le data
      let field_part_end := SIZEOF_HEADER + fn_count * SIZEOF_FIELD
      if size < field_part_end then .error (.Truncated field_part_end size)
      else
        let descs := (List.range fn_count).map
          (fun i => read_u16_le (data.drop (SIZEOF_HEADER + SIZEOF_FIELD * i)))
        (decode_loop S (decodeAux fuel S) t data descs field_part_end (-1) []).map
          SprotoValue.Struct

/-- Public decode: fuel length + 1 covers any nesting depth because
each struct recursion strictly shrinks the region. -/
def decode (S : Sproto) (t : SprotoType) (data : List Nat) : DResult SprotoValue :=
  decodeAux (data.length + 1) S t data

/-! ### Encoder (src/codec/encoder.rs) -/

/-- Shorthand for encoder results. -/
abbrev EResult (α : Type) := Except EncodeError α

/-- SprotoValue::type_name. -/
def type_name (v : SprotoValue) : String :=
  match v with
  | .Integer _ => "integer"
  | .Boolean _ => "boolean"
  | .Str _ => "string"
  | .Binary _ => "binary"
  | .Double _ => "double"
  | .Struct _ => "struct"
  | .Array _ => "array"

/-- Result of encoding a single non-array field (EncodedField). -/
inductive EncodedField where
  | Inline (v : Nat)
  | Data (d : List Nat)
deriving DecidableEq, Repr

/-- Stands for the Rust expression
(f64::from_bits bits * precision as f64).round() as i64 in the
decimal-precision branch of encode_field.  Floating-point arithmetic
is outside this embedding; no verified claim exercises this branch
(it only fires when a Double value is supplied for an Integer field),
so the function is left at a fixed value. -/
def double_times_precision_round (bits precision : Nat) : Int :=
  0 * (bits : Int) * (precision : Int)

/-- Stands for the Rust cast v as f64 followed by to_bits, used when
an Integer value is supplied for a Double field.  Floating-point
conversion is outside this embedding; no verified claim exercises
this branch. -/
def f64_bits_of_i64 (v : Int) : Nat :=
  0 * v.natAbs

/-- Stands for the Rust cast of an f64 to i64 (value as i64) used
when a Double value is supplied for a plain Integer array element.
Floating-point conversion is outside this embedding; no verified
claim exercises this branch. -/
def i64_of_f64_bits (bits : Nat) : Int :=
  0 * (bits : Int)

/-- encode_field: encode one non-array field to an inline descriptor
payload or a length-prefixed data region. -/
def encode_field (S : Sproto)
    (recur : SprotoType → SprotoValue → EResult (List Nat)) (field : Field)
    (value : SprotoValue) : EResult EncodedField :=
  match field.field_type with
  | .Integer | .Boolean =>
    (match value with
     | .Integer v => .ok v
     | .Boolean v => .ok (if v then (1 : Int) else 0)
     | _ => .error (.TypeMismatch field.name "integer or boolean" (type_name value))
     : EResult Int) >>= fun int_val0 =>
      let int_val : Int :=
        if 0 < field.decimal_precision then
          match value with
          | .Double bits => double_times_precision_round bits field.decimal_precision
          | _ => int_val0
        else int_val0
      let uint_val := u64_of_i64 int_val
      let u32_val := uint_val % 4294967296
      if uint_val = u32_val ∧ u32_val < 32767 then
        .ok (.Inline ((u32_val + 1) * 2 % 65536))
      else if i32_of_i64 int_val = int_val then
        .ok (.Data (write_u32_le SIZEOF_INT32 ++ write_u32_le uint_val))
      else
        .ok (.Data (write_u32_le SIZEOF_INT64 ++ write_u64_le uint_val))
  | .Double =>
    (match value with
     | .Double bits => .ok bits
     | .Integer v => .ok (f64_bits_of_i64 v)
     | _ => .error (.TypeMismatch field.name "double" (type_name value))
     : EResult Nat) >>= fun bits =>
      .ok (.Data (write_u32_le SIZEOF_INT64 ++ write_u64_le bits))
  | .String =>
    match value with
    | .Str s => .ok (.Data (write_u32_le s.length ++ s))
    | _ => .error (.TypeMismatch field.name "string" (type_name value))
  | .Binary =>
    match value with
    | .Binary b => .ok (.Data (write_u32_le b.length ++ b))
    | _ => .error (.TypeMismatch field.name "binary" (type_name value))
  | .Struct idx =>
    match S.types_list[idx]? with
    | some sub =>
      recur sub value >>= fun encoded =>
        .ok (.Data (write_u32_le encoded.length ++ encoded))
    | none => .error (.Panic "type index out of range")

/-- Value-collecting loop of encode_integer_array: accumulates the
u64 wire values in order together with the promote-to-64-bit flag. -/
def encode_integer_array_collect (field : Field) (is_double : Bool) :
    List SprotoValue → List Nat → Bool → EResult (List Nat × Bool)
  | [], acc, need => .ok (acc, need)
  | val :: rest, acc, need =>
    if is_double then
      (match val with
       | .Double bits => .ok bits
       | .Integer v => .ok (f64_bits_of_i64 v)
       | _ => .error (.TypeMismatch field.name "double" (type_name val))
       : EResult Nat) >>= fun bits =>
        encode_integer_array_collect field is_double rest (acc ++ [bits]) true
    else
      (match val with
       | .Integer v => .ok v
       | .Double bits =>
         if 0 < field.decimal_precision then
           .ok (double_times_precision_round bits field.decimal_precision)
         else .ok (i64_of_f64_bits bits)
       | _ => .error (.TypeMismatch field.name "integer" (type_name val))
       : EResult Int) >>= fun ival =>
        let uval := u64_of_i64 ival
        let need1 := if i32_of_i64 ival ≠ ival then true else need
        encode_integer_array_collect field is_double rest (acc ++ [uval]) need1

/-- encode_integer_array: scan the elements for the promoted width,
then emit the 1-byte size marker and the elements.  The two 64-bit
write branches of the source write the same value; they are collapsed
here. -/
def encode_integer_array (field : Field) (arr : List SprotoValue) : EResult (List Nat) :=
  let is_double := field.field_type = FieldType.Double
  encode_integer_array_collect field is_double arr [] is_double >>= fun r =>
    let values := r.1
    let need_64bit := r.2
    let int_size := if need_64bit then SIZEOF_INT64 else SIZEOF_INT32
    let data_len := 1 + values.length * int_size
    .ok (write_u32_le data_len ++ [int_size % 256] ++
      values.flatMap (fun v => if need_64bit then write_u64_le v else write_u32_le v))

/-- Element loop of encode_boolean_array. -/
def encode_boolean_array_collect :
    List SprotoValue → List Nat → EResult (List Nat)
  | [], acc => .ok acc
  | val :: rest, acc =>
    match val with
    | .Boolean v => encode_boolean_array_collect rest (acc ++ [if v then 1 else 0])
    | _ => .error (.TypeMismatch "array element" "boolean" (type_name val))

/-- encode_boolean_array: one byte per element. -/
def encode_boolean_array (arr : List SprotoValue) : EResult (List Nat) :=
  encode_boolean_array_collect arr [] >>= fun bytes =>
    .ok (write_u32_le arr.length ++ bytes)

/-- Element loop of encode_object_array: each element is encoded and
length-prefixed, and the results are concatenated. -/
def encode_object_array_collect (S : Sproto)
    (recur : SprotoType → SprotoValue → EResult (List Nat)) (field : Field) :
    List SprotoValue → List Nat → EResult (List Nat)
  | [], inner => .ok inner
  | val :: rest, inner =>
    (match field.field_type with
     | .String =>
       match val with
       | .Str s => .ok s
       | _ => .error (.TypeMismatch field.name "string" (type_name val))
     | .Binary =>
       match val with
       | .Binary b => .ok b
       | _ => .error (.TypeMismatch field.name "binary" (type_name val))
     | .Struct idx =>
       match S.types_list[idx]? with
       | some sub => recur sub val
       | none => .error (.Panic "type index out of range")
     | _ => .error (.Panic "entered unreachable code")
     : EResult (List Nat)) >>= fun encoded =>
      encode_object_array_collect S recur field rest
        (inner ++ write_u32_le encoded.length ++ encoded)

/-- encode_object_array: concatenated length-prefixed elements, with
an outer length prefix. -/
def encode_object_array (S : Sproto)
    (recur : SprotoType → SprotoValue → EResult (List Nat)) (field : Field)
    (arr : List SprotoValue) : EResult (List Nat) :=
  encode_object_array_collect S recur field arr [] >>= fun inner =>
    .ok (write_u32_le inner.length ++ inner)

/-- encode_array: the empty array is a zero-length region; otherwise
dispatch on the base field type. -/
def encode_array (S : Sproto)
    (recur : SprotoType → SprotoValue → EResult (List Nat)) (field : Field)
    (arr : List SprotoValue) : EResult (List Nat) :=
  if arr.isEmpty then .ok (write_u32_le 0)
  else
    match field.field_type with
    | .Integer | .Double => encode_integer_array field arr
    | .Boolean => encode_boolean_array arr
    | .String | .Binary | .Struct _ => encode_object_array S recur field arr

/-- Per-field payload computation of the encode loop: an array field
encodes through encode_array (an empty encoding would drop the field;
the encoder never produces one), a scalar field through encode_field,
yielding the inline descriptor value or the appended data region. -/
def encode_payload (S : Sproto)
    (recur : SprotoType → SprotoValue → EResult (List Nat)) (field : Field)
    (val : SprotoValue) (data : List Nat) : EResult (Option (Nat × List Nat)) :=
  if field.is_array then
    match val with
    | .Array arr =>
      (encode_array S recur field arr).map (fun encoded =>
        if encoded.isEmpty then none else some (0, data ++ encoded))
    | _ => .error (.TypeMismatch field.name "array" (type_name val))
  else
    (encode_field S recur field val).map (fun ef =>
      match ef with
      | .Inline v => some (v, data)
      | .Data d => some (0, data ++ d))

/-- Field loop of encode.  The source writes descriptors into a
pre-allocated header of header_sz bytes at consecutive offsets and
finally truncates to the written prefix; the written descriptors are
modelled as an accumulated list, and each write carries the same
bounds check the slice indexing performs (failing it is the modelled
panic).  index counts written descriptors, last is the last emitted
tag (starting at -1), data accumulates the data blob. -/
def encode_loop (S : Sproto)
    (recur : SprotoType → SprotoValue → EResult (List Nat)) (header_sz : Nat) :
    List Field → List (String × SprotoValue) → Nat → Int → List Nat → List Nat →
    EResult (Nat × List Nat × List Nat)
  | [], _, index, _, descs, data => .ok (index, descs, data)
  | field :: rest, m, index, last, descs, data =>
    match lookupA m field.name with
    | none => encode_loop S recur header_sz rest m index last descs data
    | some val =>
      encode_payload S recur field val data >>= fun payload =>
      match payload with
      | none => encode_loop S recur header_sz rest m index last descs data
      | some (inline_value, data1) =>
        let tag_gap : Int := (field.tag : Int) - last - 1
        if 0 < tag_gap then
          if header_sz < SIZEOF_HEADER + SIZEOF_FIELD * index + SIZEOF_FIELD then
            .error (.Panic "header write out of range")
          else if header_sz < SIZEOF_HEADER + SIZEOF_FIELD * (index + 1) + SIZEOF_FIELD then
            .error (.Panic "header write out of range")
          else
            let skip := ((tag_gap - 1) * 2 + 1).toNat % 65536
            encode_loop S recur header_sz rest m (index + 2) (field.tag : Int)
              (descs ++ [skip, inline_value]) data1
        else
          if header_sz < SIZEOF_HEADER + SIZEOF_FIELD * index + SIZEOF_FIELD then
            .error (.Panic "header write out of range")
          else
            encode_loop S recur header_sz rest m (index + 1) (field.tag : Int)
              (descs ++ [inline_value]) data1

/-- encode with explicit fuel feeding the recursion into nested
struct values.  The output is the field count (cast to u16 by
write_u16_le), the written descriptor prefix of the header, and the
data blob, exactly the bytes the source assembles by truncation and
concatenation. -/
def encodeAux : Nat → Sproto → SprotoType → SprotoValue → EResult (List Nat)
  | 0, _, _, _ => .error .FuelOut
  | fuel+1, S, t, value =>
    match value with
    | .Struct m =>
      let header_sz := SIZEOF_HEADER + t.maxn * SIZEOF_FIELD
      encode_loop S (encodeAux fuel S) header_sz t.fields m 0 (-1) [] [] >>= fun r =>
        .ok (write_u16_le r.1 ++ r.2.1.flatMap write_u16_le ++ r.2.2)
    | _ => .error (.TypeMismatch t.name "struct" (type_name value))

/-! ### Pack / unpack (src/pack.rs) -/

/-- Write bytes into a list at position i, replacing the existing
bytes (models copy_from_slice into a subslice; call sites stay within
the list). -/
def listWrite (l : List Nat) (i : Nat) (bytes : List Nat) : List Nat :=
  l.take i ++ bytes ++ l.drop (i + bytes.length)

/-- The k bytes of src starting at position ss, zero padded past the
end of src. -/
def chunk_bytes (src : List Nat) (ss k : Nat) : List Nat :=
  (List.range k).map (fun j => src.getD (ss + j) 0)

/-- The 8-byte chunk of src starting at i, zero padded past the end
(the copy into a zero-initialised 8-byte buffer). -/
def chunk_at (src : List Nat) (i : Nat) : List Nat :=
  (List.range 8).map (fun j => src.getD (i + j) 0)

/-- Loop of compute_tag: the bit-or tag |= 1 << i always sets a bit
above all previously set bits, so it is an addition of 2 ^ i. -/
def compute_tag_loop : List Nat → Nat → Nat → Nat → Nat × Nat
  | [], _, tag, notzero => (tag, notzero)
  | b :: rest, i, tag, notzero =>
    if b ≠ 0 then compute_tag_loop rest (i + 1) (tag + 2 ^ i) (notzero + 1)
    else compute_tag_loop rest (i + 1) tag notzero

/-- compute_tag: the tag byte (one bit per nonzero position, low bit
first) and the count of nonzero bytes of a chunk. -/
def compute_tag (chunk : List Nat) : Nat × Nat :=
  compute_tag_loop chunk 0 0 0

/-- Specification-side little-endian form of the pack tag byte: bit j
is set exactly when byte j is nonzero. -/
def tag_rec : List Nat → Nat
  | [] => 0
  | b :: r => (if b ≠ 0 then 1 else 0) + 2 * tag_rec r

/-- Specification-side count of nonzero bytes. -/
def nz_count (l : List Nat) : Nat := (l.filter (fun b => b != 0)).length

/-- write_ff_data: backpatch a pending 0xFF run.  Sets the tag byte
and the count byte at des_start, copies the available source bytes of
the run, zero-fills the remainder, and truncates the result to the
end of the run payload. -/
def write_ff_data (src : List Nat) (src_len : Nat) (result : List Nat)
    (src_start des_start n : Nat) : List Nat :=
  let total := n * 8
  let src_end := min (src_start + total) src_len
  let available := src_end - src_start
  let r1 := listWrite result des_start [255]
  let r2 := listWrite r1 (des_start + 1) [(n - 1) % 256]
  let r3 := listWrite r2 (des_start + 2) ((src.drop src_start).take available)
  let r4 := listWrite r3 (des_start + 2 + available) (List.replicate (total - available) 0)
  r4.take (des_start + 2 + total)

/-- State of the pack loop: the output buffer and the pending 0xFF
run (source start, destination start, word count). -/
structure PackState where
  result : List Nat
  ff_src_start : Nat
  ff_des_start : Nat
  ff_n : Nat
deriving Repr

/-- Main loop of pack, one 8-byte word per iteration.  A word with
6 or 7 nonzero bytes is promoted to dense only while a run is open;
8 nonzero bytes always go dense (continuing a run or opening one by
reserving 10 bytes); a run is flushed at 256 words and before any
normal segment.  The fuel only bounds the iteration count (i grows
by 8 each step, so src length fuel suffices for a nonempty source). -/
def pack_loop (src : List Nat) (srcsz : Nat) :
    Nat → Nat → PackState → PackState
  | 0, _, st => st
  | fuel+1, i, st =>
    if i < srcsz then
      let chunk := chunk_at src i
      let tn := compute_tag chunk
      let notzero := if (tn.2 = 6 ∨ tn.2 = 7) ∧ 0 < st.ff_n then 8 else tn.2
      if notzero = 8 then
        if 0 < st.ff_n then
          let ff_n1 := st.ff_n + 1
          let result1 := st.result ++ List.replicate 8 0
          if ff_n1 = 256 then
            pack_loop src srcsz fuel (i + 8)
              { result := write_ff_data src srcsz result1 st.ff_src_start st.ff_des_start ff_n1
                ff_src_start := st.ff_src_start, ff_des_start := st.ff_des_start, ff_n := 0 }
          else
            pack_loop src srcsz fuel (i + 8) { st with result := result1, ff_n := ff_n1 }
        else
          pack_loop src srcsz fuel (i + 8)
            { result := st.result ++ List.replicate 10 0
              ff_src_start := i, ff_des_start := st.result.length, ff_n := 1 }
      else
        let result1 :=
          if 0 < st.ff_n then
            write_ff_data src srcsz st.result st.ff_src_start st.ff_des_start st.ff_n
          else st.result
        pack_loop src srcsz fuel (i + 8)
          { st with result := result1 ++ [tn.1] ++ chunk.filter (fun b => b != 0), ff_n := 0 }
    else st

/-- Final flush after the pack loop: backpatch a pending 0xFF run if
one is open. -/
def pack_flush (src : List Nat) (srcsz : Nat) (st : PackState) : List Nat :=
  if 0 < st.ff_n then
    write_ff_data src srcsz st.result st.ff_src_start st.ff_des_start st.ff_n
  else st.result

/-- pack: empty input packs to empty output; otherwise run the word
loop and flush any pending 0xFF run. -/
def pack (src : List Nat) : List Nat :=
  let srcsz := src.length
  if srcsz = 0 then []
  else
    pack_flush src srcsz (pack_loop src srcsz srcsz 0
      { result := [], ff_src_start := 0, ff_des_start := 0, ff_n := 0 })

/-- Specification-side description of the byte segments the pack
loop emits from word position i onward when a dense run of k words
(started at i - 8k) is open: used to characterize pack; not part of
the library. -/
def seg_spec (src : List Nat) : Nat → Nat → Nat → List Nat
  | 0, i, k =>
    if 0 < k then [255, k - 1] ++ chunk_bytes src (i - 8 * k) (8 * k) else []
  | fuel+1, i, k =>
    if i < src.length then
      let tn := compute_tag (chunk_at src i)
      let notzero := if (tn.2 = 6 ∨ tn.2 = 7) ∧ 0 < k then 8 else tn.2
      if notzero = 8 then
        if 0 < k then
          if k + 1 = 256 then
            [255, 255] ++ chunk_bytes src (i - 8 * k) (8 * 256) ++
              seg_spec src fuel (i + 8) 0
          else seg_spec src fuel (i + 8) (k + 1)
        else seg_spec src fuel (i + 8) 1
      else
        (if 0 < k then [255, k - 1] ++ chunk_bytes src (i - 8 * k) (8 * k) else []) ++
          [tn.1] ++ (chunk_at src i).filter (fun b => b != 0) ++
          seg_spec src fuel (i + 8) 0
    else
      if 0 < k then [255, k - 1] ++ chunk_bytes src (i - 8 * k) (8 * k) else []

/-- The length of a byte sequence padded with zeros to the next
multiple of 8. -/
def padded_len (n : Nat) : Nat := 8 * ((n + 7) / 8)

/-- Inner loop of unpack for a normal segment: one pass over the bits
of the tag byte (low bit first), taking a payload byte for each set
bit and reconstructing a zero for each clear bit.  Returns the new
read position and the reconstructed bytes. -/
def unpack_norm (src : List Nat) (header : Nat) :
    List Nat → Nat → List Nat → Except PackError (Nat × List Nat)
  | [], i, out => .ok (i, out)
  | bit :: bits, i, out =>
    if header.testBit bit then
      if src.length ≤ i then
        .error (.InvalidData "truncated packed data in normal segment")
      else unpack_norm src header bits (i + 1) (out ++ [src.getD i 0])
    else unpack_norm src header bits i (out ++ [0])

/-- Main loop of unpack, one segment per iteration.  Fuel bounds the
iteration count; each iteration consumes at least one byte, so
length + 1 fuel always suffices. -/
def unpack_loop (src : List Nat) : Nat → Nat → List Nat → Except PackError (List Nat)
  | 0, _, _ => .error (.InvalidData "fuel exhausted")
  | fuel+1, i, result =>
    if i < src.length then
      let header := src.getD i 0
      let i1 := i + 1
      if header = 255 then
        if src.length ≤ i1 then
          .error (.InvalidData "0xFF tag at end of data without count byte")
        else
          let n := (src.getD i1 0 + 1) * 8
          let i2 := i1 + 1
          if src.length < i2 + n then
            .error (.InvalidData "0xFF run needs more bytes than available")
          else unpack_loop src fuel (i2 + n) (result ++ (src.drop i2).take n)
      else
        unpack_norm src header (List.range 8) i1 [] >>= fun r =>
          unpack_loop src fuel r.1 (result ++ r.2)
    else .ok result

/-- unpack. -/
def unpack (src : List Nat) : Except PackError (List Nat) :=
  unpack_loop src (src.length + 1) 0 []

/-! ### RPC host (src/rpc/mod.rs) -/

/-- RPC errors (RpcError). -/
inductive RpcError where
  | UnknownProtocol (name : String)
  | UnknownSession (session : Nat)
  | PackageTypeNotFound (name : String)
  | Encode (e : EncodeError)
  | Decode (e : DecodeError)
  | Pack (e : PackError)
deriving DecidableEq, Repr

/-- RPC dispatch result (DispatchResult).  The Responder box is
modelled by the data it captures that the claims observe: its
response type index and its session. -/
inductive DispatchResult where
  | Request (name : String) (message : SprotoValue)
      (responder : Option (Option Nat × Nat)) (ud : Option Int)
  | Response (session : Nat) (message : Option SprotoValue) (ud : Option Int)
deriving Inhabited, Repr

/-- RPC host (Host): schema, package type index and the pending
session table (HashMap modelled as an association list with distinct
keys). -/
structure Host where
  sproto : Sproto
  package_type_idx : Nat
  sessions : List (Nat × Option Nat)

/-- HashMap::get on the session table. -/
def lookupS (m : List (Nat × Option Nat)) (k : Nat) : Option (Option Nat) :=
  match m with
  | [] => none
  | p :: rest => if p.1 = k then some p.2 else lookupS rest k

/-- HashMap::remove on the session table (distinct keys, so removal
is a filter); removing an absent key leaves the table unchanged. -/
def removeS (m : List (Nat × Option Nat)) (k : Nat) : List (Nat × Option Nat) :=
  m.filter (fun p => p.1 != k)

/-- HashMap::insert on the session table. -/
def insertS (m : List (Nat × Option Nat)) (k : Nat) (v : Option Nat) :
    List (Nat × Option Nat) :=
  match m with
  | [] => [(k, v)]
  | p :: rest => if p.1 = k then (k, v) :: rest else p :: insertS rest k v

/-- Sproto::get_protocol_by_tag via the by-tag index. -/
def get_protocol_by_tag (S : Sproto) (tag : Nat) : Option Protocol :=
  (S.protocols_by_tag.lookup tag).map (fun idx => S.protocols.getD idx default)

/-- Host::register_session. -/
def register_session (h : Host) (session : Nat) (response_type_idx : Option Nat) : Host :=
  { h with sessions := insertS h.sessions session response_type_idx }

/-- Content decoding of the request branch of Host::dispatch: decode
the content as the request type when one exists and content is
nonempty, else the empty struct. -/
def decode_request_content (S : Sproto) (req : Option Nat) (content : List Nat) :
    Except RpcError SprotoValue :=
  match req with
  | some req_idx =>
    if content.isEmpty then .ok (.Struct [])
    else
      match S.types_list[req_idx]? with
      | some req_type =>
        match decode S req_type content with
        | .ok v => .ok v
        | .error e => .error (.Decode e)
      | none => .error (.Decode (.Panic "type index out of range"))
  | none => .ok (.Struct [])

/-- Content decoding of the response branch of Host::dispatch: decode
the content as the registered response type when one exists and
content is nonempty, else no message. -/
def decode_response_content (S : Sproto) (rt : Option Nat) (content : List Nat) :
    Except RpcError (Option SprotoValue) :=
  match rt with
  | some resp_idx =>
    if content.isEmpty then .ok none
    else
      match S.types_list[resp_idx]? with
      | some resp_type =>
        match decode S resp_type content with
        | .ok v => .ok (some v)
        | .error e => .error (.Decode e)
      | none => .error (.Decode (.Panic "type index out of range"))
  | none => .ok none

/-- Host::dispatch.  Returns the result together with the host state
after the call, since dispatch mutates the session table through
&mut self even on error paths.  The header re-encoding (used to find
the content offset) gets fuel beyond the unpacked length, which
covers any value the decoder can have produced from those bytes. -/
def dispatch (h : Host) (packed_data : List Nat) :
    Except RpcError DispatchResult × Host :=
  match unpack packed_data with
  | .error e => (.error (.Pack e), h)
  | .ok unpacked =>
    match h.sproto.types_list[h.package_type_idx]? with
    | none => (.error (.Decode (.Panic "type index out of range")), h)
    | some package_type =>
      match decode h.sproto package_type unpacked with
      | .error e => (.error (.Decode e), h)
      | .ok header =>
        match header with
        | .Struct header_map =>
          let proto_type := (lookupA header_map "type").bind as_integer
          let session := (lookupA header_map "session").bind as_integer
          let ud := (lookupA header_map "ud").bind as_integer
          match encodeAux (unpacked.length + 2) h.sproto package_type header with
          | .error e => (.error (.Encode e), h)
          | .ok header_bin =>
            if unpacked.length < header_bin.length then
              (.error (.Decode (.Panic "slice start out of range")), h)
            else
              let content := unpacked.drop header_bin.length
              match proto_type with
              | some proto_tag =>
                match get_protocol_by_tag h.sproto ((proto_tag % 65536).toNat) with
                | none => (.error (.UnknownProtocol "tag"), h)
                | some proto =>
                  match decode_request_content h.sproto proto.request content with
                  | .error e => (.error e, h)
                  | .ok message =>
                    let responder := session.map (fun s => (proto.response, u64_of_i64 s))
                    (.ok (.Request proto.name message responder ud), h)
              | none =>
                match session with
                | none => (.error (.Decode (.InvalidData "response without session")), h)
                | some sInt =>
                  let session_id := u64_of_i64 sInt
                  match lookupS h.sessions session_id with
                  | none => (.error (.UnknownSession session_id), h)
                  | some response_type_idx =>
                    let h1 : Host := { h with sessions := removeS h.sessions session_id }
                    match decode_response_content h.sproto response_type_idx content with
                    | .error e => (.error e, h1)
                    | .ok message => (.ok (.Response session_id message ud), h1)
        | _ => (.error (.Decode (.InvalidData "package header is not a struct")), h)

/-! ### Specification-side definitions

The following definitions are not translations of library code; they
state, on the embedded data model, the properties the specification
claims (the shape-validity of a value for a type, the restriction of
a value to the fields of a type, wellformedness of built schemas, and
the u32 size bounds on encoded regions). -/

/-- Strictly ascending field tags (the schema builder sorts fields by
tag and rejects duplicate tags). -/
def sorted_by_tag : List Field → Bool
  | [] => true
  | [_] => true
  | f1 :: f2 :: rest => f1.tag < f2.tag && sorted_by_tag (f2 :: rest)

/-- Distinct field names (the schema builder rejects duplicates). -/
def names_unique : List Field → Bool
  | [] => true
  | f :: rest => rest.all (fun g => g.name != f.name) && names_unique rest

/-- Wellformedness of a built type: fields sorted with distinct tags
and names, tags in u16 range, struct references in range, and
base_tag / maxn equal to the values the schema builder computes. -/
def wf_type (S : Sproto) (t : SprotoType) : Bool :=
  sorted_by_tag t.fields && names_unique t.fields &&
  t.base_tag = (compute_base_tag_and_maxn t.fields).1 &&
  t.maxn = (compute_base_tag_and_maxn t.fields).2 &&
  t.fields.all (fun f =>
    f.tag < 65536 &&
    match f.field_type with
    | .Struct idx => idx < S.types_list.length
    | _ => true)

/-- Wellformedness of a built schema. -/
def wf_schema (S : Sproto) : Bool :=
  S.types_list.all (wf_type S)

/-- All field tags below 0x8000, so that every skip descriptor the
encoder can need fits in its u16. -/
def tags_in_skip_range (S : Sproto) : Bool :=
  S.types_list.all (fun t => t.fields.all (fun f => f.tag < 32768))

/-- Shape validity of one field value, as the claim states it: the
value has exactly the declared shape of the field (a list of that
shape for array fields), with integers in i64 range, doubles a 64-bit
pattern, strings valid UTF-8 and binaries bytes. -/
def valid_shape (recurV : SprotoType → SprotoValue → Bool) (S : Sproto)
    (f : Field) (x : SprotoValue) : Bool :=
  let scalar : SprotoValue → Bool := fun e =>
    match f.field_type with
    | .Integer =>
      match e with
      | .Integer n => decide (-9223372036854775808 ≤ n ∧ n < 9223372036854775808)
      | _ => false
    | .Boolean =>
      match e with
      | .Boolean _ => true
      | _ => false
    | .Double =>
      match e with
      | .Double bits => decide (bits < 18446744073709551616)
      | _ => false
    | .String =>
      match e with
      | .Str s => utf8_valid s
      | _ => false
    | .Binary =>
      match e with
      | .Binary b => b.all (fun c => c < 256)
      | _ => false
    | .Struct idx =>
      match S.types_list[idx]? with
      | some sub => recurV sub e
      | none => false
  if f.is_array then
    match x with
    | .Array elems => elems.all scalar
    | _ => false
  else scalar x

/-- Validity of a value for a type (fuel bounds the struct nesting
depth; a valid value is valid at every sufficient fuel). -/
def validAux : Nat → Sproto → SprotoType → SprotoValue → Bool
  | 0, _, _, _ => false
  | fuel+1, S, t, v =>
    match v with
    | .Struct m =>
      t.fields.all (fun f =>
        match lookupA m f.name with
        | none => true
        | some x => valid_shape (validAux fuel S) S f x)
    | _ => false

/-- The wire length of the payload of one object-array element (used
by the size-bound predicate): the string or binary bytes, or the
encoding of a struct element. -/
def object_payload_len (enc : SprotoType → SprotoValue → EResult (List Nat))
    (S : Sproto) (f : Field) (e : SprotoValue) : Nat :=
  match f.field_type, e with
  | .String, .Str s => s.length
  | .Binary, .Binary b => b.length
  | .Struct idx, _ =>
    match S.types_list[idx]? with
    | some sub =>
      match enc sub e with
      | .ok bs => bs.length
      | .error _ => 0
    | none => 0
  | _, _ => 0

/-- Size bounds for one field value: every 4-byte length prefix the
encoder writes for this field must hold its exact value (be below
2 ^ 32). -/
def fits_shape (recurF : SprotoType → SprotoValue → Bool)
    (enc : SprotoType → SprotoValue → EResult (List Nat)) (S : Sproto)
    (f : Field) (x : SprotoValue) : Bool :=
  if f.is_array then
    match x with
    | .Array elems =>
      match f.field_type with
      | .Integer =>
        let need64 := elems.any (fun e =>
          match e with
          | .Integer n => decide (i32_of_i64 n ≠ n)
          | _ => false)
        let int_size := if need64 then SIZEOF_INT64 else SIZEOF_INT32
        decide (1 + elems.length * int_size < 4294967296)
      | .Double => decide (1 + elems.length * SIZEOF_INT64 < 4294967296)
      | .Boolean => decide (elems.length < 4294967296)
      | _ =>
        elems.all (fun e =>
          (decide (object_payload_len enc S f e < 4294967296)) &&
          (match f.field_type with
           | .Struct idx =>
             match S.types_list[idx]? with
             | some sub => recurF sub e
             | none => false
           | _ => true)) &&
        decide ((elems.map (fun e => SIZEOF_LENGTH + object_payload_len enc S f e)).sum
          < 4294967296)
    | _ => false
  else
    match f.field_type with
    | .String =>
      match x with
      | .Str s => decide (s.length < 4294967296)
      | _ => false
    | .Binary =>
      match x with
      | .Binary b => decide (b.length < 4294967296)
      | _ => false
    | .Struct idx =>
      match S.types_list[idx]? with
      | some sub =>
        recurF sub x &&
        (match enc sub x with
         | .ok bs => decide (bs.length < 4294967296)
         | .error _ => true)
      | none => false
    | _ => true

/-- Size-bound predicate for a whole value (fuel as in validAux). -/
def size_fitsAux : Nat → Sproto → SprotoType → SprotoValue → Bool
  | 0, _, _, _ => false
  | fuel+1, S, t, v =>
    match v with
    | .Struct m =>
      t.fields.all (fun f =>
        match lookupA m f.name with
        | none => true
        | some x =>
          fits_shape
            (fun sub e => size_fitsAux fuel S sub e)
            (encodeAux fuel S) S f x)
    | _ => false

/-- Restriction of one field value: scalars unchanged, struct values
restricted to their subtype, arrays elementwise. -/
def restrict_one (recur : SprotoType → SprotoValue → SprotoValue) (S : Sproto)
    (f : Field) (x : SprotoValue) : SprotoValue :=
  if f.is_array then
    match x with
    | .Array elems =>
      match f.field_type with
      | .Struct idx => .Array (elems.map (fun e => recur (S.types_list.getD idx default) e))
      | _ => .Array elems
    | other => other
  else
    match f.field_type with
    | .Struct idx => recur (S.types_list.getD idx default) x
    | _ => x

/-- Restriction of a struct map to a field list, in field (tag)
order. -/
def restrict_fields (recur : SprotoType → SprotoValue → SprotoValue) (S : Sproto) :
    List Field → List (String × SprotoValue) → List (String × SprotoValue)
  | [], _ => []
  | f :: rest, m =>
    match lookupA m f.name with
    | none => restrict_fields recur S rest m
    | some x => (f.name, restrict_one recur S f x) :: restrict_fields recur S rest m

/-- The claim's notion of v restricted to the fields of T present in
v: keep exactly the bindings of field names of T (in tag order),
restricting nested struct values recursively.  Fields absent from v
stay absent, and non-field keys are dropped. -/
def restrictAux : Nat → Sproto → SprotoType → SprotoValue → SprotoValue
  | 0, _, _, v => v
  | fuel+1, S, t, v =>
    match v with
    | .Struct m => .Struct (restrict_fields (restrictAux fuel S) S t.fields m)
    | _ => v


/-- Number of header descriptors the encoder emits for the present
fields of a field list, starting from last written tag last: two
(skip plus payload) when there is a tag gap, one otherwise
(specification-side, for the header-capacity argument). -/
def countDesc (m : List (String × SprotoValue)) : List Field → Int → Nat
  | [], _ => 0
  | f :: rest, last =>
    match lookupA m f.name with
    | none => countDesc m rest last
    | some _ =>
      (if last + 1 < (f.tag : Int) then 2 else 1) + countDesc m rest (f.tag : Int)

/-- Number of tag gaps of a field list after a last tag
(specification-side form of the maxn loop with accumulator 0). -/
def gap_count (fields : List Field) (last : Int) : Nat :=
  maxn_loop fields last 0

/-! ### Concrete examples used in counterexamples and witnesses -/

/-- A scalar field record with given name, tag and type. -/
def mkField (name : String) (tag : Nat) (ft : FieldType) : Field :=
  { name := name, tag := tag, field_type := ft, is_array := false,
    key_tag := -1, is_map := false, decimal_precision := 0 }

/-- An array field record with given name, tag and element type. -/
def mkArrayField (name : String) (tag : Nat) (ft : FieldType) : Field :=
  { name := name, tag := tag, field_type := ft, is_array := true,
    key_tag := -1, is_map := false, decimal_precision := 0 }

/-- A type as the schema builder would build it from the given
fields (base_tag and maxn computed). -/
def mkType (name : String) (fields : List Field) : SprotoType :=
  { name := name, fields := fields,
    base_tag := (compute_base_tag_and_maxn fields).1,
    maxn := (compute_base_tag_and_maxn fields).2 }

/-- Example Person type from the specification. -/
def exPersonT : SprotoType :=
  mkType "Person" [mkField "name" 0 .String, mkField "age" 1 .Integer,
    mkField "marital" 2 .Boolean]

/-- Schema holding only the Person type. -/
def exPersonS : Sproto :=
  { types_list := [exPersonT], protocols := [], protocols_by_tag := [] }

/-- The Person value of the specification scenario (name Alice,
age 13, marital false). -/
def exAliceV : SprotoValue :=
  .Struct [("name", .Str [65, 108, 105, 99, 101]), ("age", .Integer 13),
    ("marital", .Boolean false)]

/-- A type whose only field has tag 0x8001, above the skip-descriptor
range. -/
def exBigTagT : SprotoType := mkType "Big" [mkField "f" 32769 .Integer]

/-- Schema holding only the big-tag type. -/
def exBigTagS : Sproto :=
  { types_list := [exBigTagT], protocols := [], protocols_by_tag := [] }


/-- A value for the big-tag type: its field f holding 5. -/
def exBigV : SprotoValue := .Struct [("f", .Integer 5)]

/-- A type with a single boolean field at tag 0. -/
def exBoolT : SprotoType := mkType "B" [mkField "b" 0 .Boolean]

/-- Schema holding only the boolean-field type. -/
def exBoolS : Sproto :=
  { types_list := [exBoolT], protocols := [], protocols_by_tag := [] }

/-- A type with a single string-array field at tag 0. -/
def exStrArrT : SprotoType := mkType "SA" [mkArrayField "a" 0 .String]

/-- Schema holding only the string-array type. -/
def exStrArrS : Sproto :=
  { types_list := [exStrArrT], protocols := [], protocols_by_tag := [] }

/-- A crafted message for the string-array type: one external field
whose array region announces a 0xFFFFFF-byte element in a 4-byte
region. -/
def exOobBytes : List Nat := [1, 0, 0, 0, 4, 0, 0, 0, 255, 255, 255, 0]

/-- RPC package type with integer fields type (tag 0) and session
(tag 1). -/
def exPkgT : SprotoType :=
  mkType "package" [mkField "type" 0 .Integer, mkField "session" 1 .Integer]

/-- Schema holding only the package type. -/
def exPkgS : Sproto :=
  { types_list := [exPkgT], protocols := [], protocols_by_tag := [] }

/-- A host over the package schema with an empty session table. -/
def exHost : Host :=
  { sproto := exPkgS, package_type_idx := 0, sessions := [] }

/-- A packed response packet with session 1 and no content: the pack
of the encoded header with session 1. -/
def exRespPacket : List Nat := [21, 2, 1, 4]

/-- A packed response packet with session 1 whose content bytes fail
to decode (field count 5 in a 2-byte content). -/
def exBadContentPacket : List Nat := [85, 2, 1, 4, 5]

/-- Fields with contiguous tags 3, 4, 5 (for the base-tag lookup
witness). -/
def exContigFields : List Field :=
  [mkField "a" 3 .Integer, mkField "b" 4 .Boolean, mkField "c" 5 .String]

/-- Fields with non-contiguous tags 0, 2, 7 (binary-search lookup
witness). -/
def exGapFields : List Field :=
  [mkField "a" 0 .Integer, mkField "b" 2 .Boolean, mkField "c" 7 .String]

/-! ### Arithmetic helper lemmas -/

theorem u64_of_i64_nonneg (x : Int) (h0 : 0 ≤ x) (hhi : x < 9223372036854775808) :
    u64_of_i64 x = x.toNat := by
  unfold u64_of_i64
  omega

theorem u64_of_i64_neg (x : Int) (hlo : -9223372036854775808 ≤ x) (h0 : x < 0) :
    u64_of_i64 x = (18446744073709551616 + x).toNat := by
  unfold u64_of_i64
  omega

/-- Characterization of the inline test of encode_field on an i64
value: the u64 cast equals its low 32 bits and those are below 0x7FFF
exactly when the value is in the inline range. -/
theorem inline_test_iff (x : Int) (hlo : -9223372036854775808 ≤ x)
    (hhi : x < 9223372036854775808) :
    (u64_of_i64 x = u64_of_i64 x % 4294967296 ∧ u64_of_i64 x % 4294967296 < 32767) ↔
      (0 ≤ x ∧ x < 32767) := by
  unfold u64_of_i64
  omega

/-! ### Claim C4: inline eligibility of integers -/

/-- Claim C4: for a non-array Integer field with decimal_precision 0
supplied an integer value x in i64 range, encode_field emits x inline
in the descriptor, as (x+1)*2, if and only if 0 <= x < 0x7FFF
(strict); otherwise the value goes to a length-prefixed data region. -/
theorem claim_C4 (S : Sproto) (recur : SprotoType → SprotoValue → EResult (List Nat))
    (f : Field) (x : Int)
    (hft : f.field_type = FieldType.Integer) (hdp : f.decimal_precision = 0)
    (hlo : -9223372036854775808 ≤ x) (hhi : x < 9223372036854775808) :
    ((∃ v, encode_field S recur f (.Integer x) = .ok (.Inline v)) ↔ (0 ≤ x ∧ x < 32767)) ∧
    ((0 ≤ x ∧ x < 32767) →
      encode_field S recur f (.Integer x) = .ok (.Inline ((x.toNat + 1) * 2))) ∧
    (¬(0 ≤ x ∧ x < 32767) →
      ∃ d, encode_field S recur f (.Integer x) = .ok (.Data d)) := by
  have hiff := inline_test_iff x hlo hhi
  simp only [encode_field, hft, hdp]
  simp only [lt_irrefl, if_false, bind, Except.bind]
  by_cases hc : (0 ≤ x ∧ x < 32767)
  · have ht : u64_of_i64 x = u64_of_i64 x % 4294967296 ∧ u64_of_i64 x % 4294967296 < 32767 :=
      hiff.mpr hc
    rw [if_pos ht]
    have hval : u64_of_i64 x % 4294967296 = x.toNat := by
      unfold u64_of_i64
      omega
    have hmod : (x.toNat + 1) * 2 % 65536 = (x.toNat + 1) * 2 := by omega
    refine ⟨?_, fun _ => by rw [hval, hmod], fun hn => absurd hc hn⟩
    constructor
    · intro _; exact hc
    · intro _; exact ⟨(x.toNat + 1) * 2, by rw [hval, hmod]⟩
  · have ht : ¬(u64_of_i64 x = u64_of_i64 x % 4294967296 ∧ u64_of_i64 x % 4294967296 < 32767) :=
      fun h => hc (hiff.mp h)
    rw [if_neg ht]
    constructor
    · constructor
      · intro hex
        rcases hex with ⟨v, hv⟩
        by_cases h32 : i32_of_i64 x = x
        · rw [if_pos h32] at hv; exact (Except.ok.inj hv |> fun h => by cases h)
        · rw [if_neg h32] at hv; exact (Except.ok.inj hv |> fun h => by cases h)
      · intro h; exact absurd h hc
    · refine ⟨fun h => absurd h hc, fun _ => ?_⟩
      by_cases h32 : i32_of_i64 x = x
      · rw [if_pos h32]; exact ⟨_, rfl⟩
      · rw [if_neg h32]; exact ⟨_, rfl⟩

/-- Witness for claim C4 at the boundary inputs 0x7FFE (inline),
0x7FFF (external) and -1 (external). -/
theorem claim_C4_witness :
    encode_field exPkgS (fun _ _ => .error .FuelOut) (mkField "f" 0 .Integer)
        (.Integer 32766) = .ok (.Inline 65534) ∧
    (∃ d, encode_field exPkgS (fun _ _ => .error .FuelOut) (mkField "f" 0 .Integer)
        (.Integer 32767) = .ok (.Data d)) ∧
    (∃ d, encode_field exPkgS (fun _ _ => .error .FuelOut) (mkField "f" 0 .Integer)
        (.Integer (-1)) = .ok (.Data d)) := by
  refine ⟨?_, ?_, ?_⟩
  · have h := (claim_C4 exPkgS (fun _ _ => .error .FuelOut) (mkField "f" 0 .Integer) 32766
      rfl rfl (by decide) (by decide)).2.1 (by decide)
    exact h
  · exact (claim_C4 exPkgS (fun _ _ => .error .FuelOut) (mkField "f" 0 .Integer) 32767
      rfl rfl (by decide) (by decide)).2.2 (by decide)
  · exact (claim_C4 exPkgS (fun _ _ => .error .FuelOut) (mkField "f" 0 .Integer) (-1)
      rfl rfl (by decide) (by decide)).2.2 (by decide)

/-! ### Claim C10: inline values and field types during decode -/

/-- Claim C10: an inline descriptor payload yields InvalidData for
fields of type Double, String, Binary or Struct; it is accepted only
for Integer fields (yielding the payload) and Boolean fields
(yielding false for payload 0 and true for any nonzero payload). -/
theorem claim_C10 (f : Field) (v : Nat) :
    ((f.field_type = .Double ∨ f.field_type = .String ∨ f.field_type = .Binary ∨
        (∃ i, f.field_type = .Struct i)) →
      decode_inline_value f v = .error (.InvalidData "field type cannot have inline value")) ∧
    (f.field_type = .Integer → decode_inline_value f v = .ok (.Integer (v : Int))) ∧
    (f.field_type = .Boolean →
      decode_inline_value f v = .ok (.Boolean (v != 0)) ∧
      (v = 0 → decode_inline_value f v = .ok (.Boolean false)) ∧
      (v ≠ 0 → decode_inline_value f v = .ok (.Boolean true))) := by
  refine ⟨?_, ?_, ?_⟩
  · rintro (h | h | h | ⟨i, h⟩) <;> simp [decode_inline_value, h]
  · intro h; simp [decode_inline_value, h]
  · intro h
    refine ⟨by simp [decode_inline_value, h], ?_, ?_⟩
    · intro h0; simp [decode_inline_value, h, h0]
    · intro h0; simp [decode_inline_value, h, h0]

/-- Witness for claim C10 on a Double field, an Integer field, and a
Boolean field with payloads 0 and 2. -/
theorem claim_C10_witness :
    decode_inline_value (mkField "d" 0 .Double) 5 =
      .error (.InvalidData "field type cannot have inline value") ∧
    decode_inline_value (mkField "i" 0 .Integer) 5 = .ok (.Integer 5) ∧
    decode_inline_value (mkField "b" 0 .Boolean) 0 = .ok (.Boolean false) ∧
    decode_inline_value (mkField "b" 0 .Boolean) 2 = .ok (.Boolean true) := by
  refine ⟨(claim_C10 (mkField "d" 0 .Double) 5).1 (Or.inl rfl),
    (claim_C10 (mkField "i" 0 .Integer) 5).2.1 rfl,
    ((claim_C10 (mkField "b" 0 .Boolean) 0).2.2 rfl).2.1 rfl,
    ((claim_C10 (mkField "b" 0 .Boolean) 2).2.2 rfl).2.2 (by decide)⟩

/-! ### Claim C5: decoder totality on adversarial input -/

/-- Claim C5 failing input: on the string-array type, the crafted
message exOobBytes drives decode_object_array to slice with an
element size read from the data that exceeds the remaining content,
the modelled out-of-bounds panic; decode does not return one of the
declared decoder errors. -/
theorem claim_C5_panic :
    decode exStrArrS exStrArrT exOobBytes =
      .error (.Panic "slice index out of range in decode_object_array") := by
  rfl

/-! ### Claim C8: dense-run word classification in pack -/

/-- Claim C8: at each 8-byte word of the pack loop, a word with all 8
bytes nonzero is handled by the 0xFF dense-run machinery
unconditionally (continuing an open run, or opening one); a word with
6 or 7 nonzero bytes is absorbed into a dense run exactly when a run
is already open from the preceding words, and with no open run it is
emitted as a normal segment, the tag byte followed by only the
nonzero bytes. -/
theorem claim_C8 (src : List Nat) (srcsz fuel i tag nz : Nat) (st : PackState)
    (hi : i < srcsz) (hct : compute_tag (chunk_at src i) = (tag, nz)) :
    (nz = 8 → 0 < st.ff_n → st.ff_n + 1 ≠ 256 →
      pack_loop src srcsz (fuel+1) i st =
        pack_loop src srcsz fuel (i + 8)
          { st with result := st.result ++ List.replicate 8 0, ff_n := st.ff_n + 1 }) ∧
    (nz = 8 → st.ff_n = 0 →
      pack_loop src srcsz (fuel+1) i st =
        pack_loop src srcsz fuel (i + 8)
          { result := st.result ++ List.replicate 10 0, ff_src_start := i,
            ff_des_start := st.result.length, ff_n := 1 }) ∧
    ((nz = 6 ∨ nz = 7) → 0 < st.ff_n → st.ff_n + 1 ≠ 256 →
      pack_loop src srcsz (fuel+1) i st =
        pack_loop src srcsz fuel (i + 8)
          { st with result := st.result ++ List.replicate 8 0, ff_n := st.ff_n + 1 }) ∧
    ((nz = 6 ∨ nz = 7) → st.ff_n = 0 →
      pack_loop src srcsz (fuel+1) i st =
        pack_loop src srcsz fuel (i + 8)
          { st with
            result := st.result ++ [tag] ++ (chunk_at src i).filter (fun b => b != 0),
            ff_n := 0 }) := by
  refine ⟨?_, ?_, ?_, ?_⟩
  · intro h8 hff hne
    simp only [pack_loop, if_pos hi, hct, h8]
    have : ¬((8 = 6 ∨ 8 = 7) ∧ 0 < st.ff_n) := by omega
    rw [if_neg this, if_pos rfl, if_pos hff, if_neg hne]
  · intro h8 hff
    simp only [pack_loop, if_pos hi, hct, h8]
    have : ¬((8 = 6 ∨ 8 = 7) ∧ 0 < st.ff_n) := by omega
    rw [if_neg this, if_pos rfl, if_neg (by omega : ¬ 0 < st.ff_n)]
  · intro h67 hff hne
    simp only [pack_loop, if_pos hi, hct]
    have hcond : (nz = 6 ∨ nz = 7) ∧ 0 < st.ff_n := ⟨h67, hff⟩
    rw [if_pos hcond, if_pos rfl, if_pos hff, if_neg hne]
  · intro h67 hff
    simp only [pack_loop, if_pos hi, hct]
    have hcond : ¬((nz = 6 ∨ nz = 7) ∧ 0 < st.ff_n) := by omega
    rw [if_neg hcond, if_neg (by omega : ¬ nz = 8), if_neg (by omega : ¬ 0 < st.ff_n)]

/-- Witness for claim C8: an isolated 6-nonzero word emits a normal
segment; after an 8-nonzero word opens a run, a following 6-nonzero
word is absorbed into it. -/
theorem claim_C8_witness :
    (pack_loop [1, 2, 3, 4, 5, 6, 0, 0] 8 1 0
        { result := [], ff_src_start := 0, ff_des_start := 0, ff_n := 0 } =
      pack_loop [1, 2, 3, 4, 5, 6, 0, 0] 8 0 8
        { result := [63, 1, 2, 3, 4, 5, 6], ff_src_start := 0, ff_des_start := 0,
          ff_n := 0 }) ∧
    (pack_loop [1, 2, 3, 4, 5, 6, 7, 8, 1, 2, 3, 4, 5, 6, 0, 0] 16 1 8
        { result := List.replicate 10 0, ff_src_start := 0, ff_des_start := 0,
          ff_n := 1 } =
      pack_loop [1, 2, 3, 4, 5, 6, 7, 8, 1, 2, 3, 4, 5, 6, 0, 0] 16 0 16
        { result := List.replicate 10 0 ++ List.replicate 8 0, ff_src_start := 0,
          ff_des_start := 0, ff_n := 2 }) := by
  constructor
  · have h := (claim_C8 [1, 2, 3, 4, 5, 6, 0, 0] 8 0 0 63 6
      { result := [], ff_src_start := 0, ff_des_start := 0, ff_n := 0 }
      (by decide) (by decide)).2.2.2 (Or.inl rfl) rfl
    simpa using h
  · have h := (claim_C8 [1, 2, 3, 4, 5, 6, 7, 8, 1, 2, 3, 4, 5, 6, 0, 0] 16 0 8 63 6
      { result := List.replicate 10 0, ff_src_start := 0, ff_des_start := 0, ff_n := 1 }
      (by decide) (by decide)).2.2.1 (Or.inl rfl) (by decide) (by decide)
    simpa using h

/-! ### Sorted-field lemmas -/

theorem sorted_by_tag_chain (fields : List Field) :
    sorted_by_tag fields = true ↔
      List.Chain' (fun a b : Field => a.tag < b.tag) fields := by
  induction fields with
  | nil => simp [sorted_by_tag]
  | cons f rest ih =>
    cases rest with
    | nil => simp [sorted_by_tag]
    | cons g r =>
      rw [List.chain'_cons, ← ih]
      simp [sorted_by_tag]

theorem sorted_by_tag_pairwise (fields : List Field) :
    sorted_by_tag fields = true ↔
      List.Pairwise (fun a b : Field => a.tag < b.tag) fields := by
  haveI : IsTrans Field (fun a b : Field => a.tag < b.tag) :=
    ⟨fun _ _ _ h1 h2 => Nat.lt_trans h1 h2⟩
  rw [sorted_by_tag_chain, List.chain'_iff_pairwise]

theorem getLastD_eq_getD_of_ne {α : Type} (l : List α) (d : α) (h : l ≠ []) :
    l.getLastD d = l.getD (l.length - 1) d := by
  induction l generalizing d with
  | nil => simp at h
  | cons a r ih =>
    cases r with
    | nil => rfl
    | cons b s =>
      have h2 : (b :: s) ≠ [] := by simp
      calc (a :: b :: s).getLastD d = (b :: s).getLastD a := by
            simp [List.getLastD]
        _ = (b :: s).getD ((b :: s).length - 1) a := ih a h2
        _ = (a :: b :: s).getD ((a :: b :: s).length - 1) d := by
            have hlen : (b :: s).length - 1 < (b :: s).length := by simp
            rw [List.getD_eq_getElem _ a hlen,
              List.getD_eq_getElem _ d (by simp : (a :: b :: s).length - 1 < (a :: b :: s).length)]
            have : (a :: b :: s).length - 1 = ((b :: s).length - 1) + 1 := by simp
            simp only [this, List.getElem_cons_succ]

theorem getD_map_tag (l : List Field) (i : Nat) :
    (l.map (fun f => f.tag)).getD i 0 = (l.getD i { (default : Field) with tag := 0 }).tag := by
  induction l generalizing i with
  | nil => simp [List.getD]
  | cons a r ih =>
    cases i with
    | zero => rfl
    | succ i => simpa using ih i

theorem getD_tag_default_irrel (l : List Field) (i : Nat) (hi : i < l.length)
    (d1 d2 : Field) : (l.getD i d1).tag = (l.getD i d2).tag := by
  rw [List.getD_eq_getElem l d1 hi, List.getD_eq_getElem l d2 hi]

theorem pairwise_tag_gap (l : List Field)
    (hp : List.Pairwise (fun a b : Field => a.tag < b.tag) l) :
    ∀ i j, i ≤ j → ∀ hj : j < l.length,
      (l.getD i default).tag + (j - i) ≤ (l.getD j default).tag := by
  intro i j
  induction j with
  | zero =>
    intro hij hj
    have : i = 0 := Nat.le_zero.mp hij
    simp [this]
  | succ j ih =>
    intro hij hj
    rcases Nat.eq_or_lt_of_le hij with he | hlt
    · simp [he]
    · have hij2 : i ≤ j := Nat.lt_succ_iff.mp hlt
      have hj2 : j < l.length := Nat.lt_of_succ_lt hj
      have h1 := ih hij2 hj2
      have h2 : (l.getD j default).tag < (l.getD (j+1) default).tag := by
        have := (List.pairwise_iff_getElem).mp hp j (j+1) hj2 hj (Nat.lt_succ_self j)
        rwa [List.getD_eq_getElem l default hj2, List.getD_eq_getElem l default hj]
      omega

theorem tags_contig_of_span (l : List Field)
    (hp : List.Pairwise (fun a b : Field => a.tag < b.tag) l)
    (hne : l ≠ [])
    (hspan : (l.getLastD default).tag + 1 = (l.headD default).tag + l.length) :
    l.map (fun f => f.tag) =
      List.range' (l.headD default).tag l.length := by
  have hlen : 0 < l.length := List.length_pos.mpr hne
  apply List.ext_getElem
  · simp
  · intro i hi1 hi2
    simp only [List.getElem_map, List.getElem_range']
    have hgetlast := getLastD_eq_getD_of_ne l default hne
    have hhead : l.headD default = l.getD 0 default := by
      cases l with
      | nil => simp at hne
      | cons a r => rfl
    have hi : i < l.length := by simpa using hi1
    have hlow := pairwise_tag_gap l hp 0 i (Nat.zero_le i) hi
    have hhigh := pairwise_tag_gap l hp i (l.length - 1) (by omega) (by omega)
    rw [hgetlast, hhead] at hspan
    rw [hhead]
    rw [List.getD_eq_getElem l default hi] at hlow hhigh
    rw [List.getD_eq_getElem l default (by omega : 0 < l.length)] at hlow hspan ⊢
    rw [List.getD_eq_getElem l default (by omega : l.length - 1 < l.length)] at hhigh hspan
    omega

theorem span_of_tags_contig (l : List Field) (b : Nat)
    (hne : l ≠ [])
    (hc : l.map (fun f => f.tag) = List.range' b l.length) :
    (l.headD default).tag = b ∧
      (l.getLastD default).tag + 1 = b + l.length := by
  have hlen : 0 < l.length := List.length_pos.mpr hne
  have helem : ∀ i, i < l.length → (l.getD i default).tag = b + i := by
    intro i hi
    have h1 : (l.map (fun f => f.tag)).getD i 0 = (List.range' b l.length).getD i 0 := by
      rw [hc]
    rw [getD_map_tag] at h1
    rw [List.getD_eq_getElem _ 0 (by simpa using hi)] at h1
    rw [List.getElem_range'] at h1
    rw [getD_tag_default_irrel l i hi default { (default : Field) with tag := 0 }]
    omega
  have hhead : l.headD default = l.getD 0 default := by
    cases l with
    | nil => simp at hne
    | cons a r => rfl
  have hgetlast := getLastD_eq_getD_of_ne l default hne
  refine ⟨?_, ?_⟩
  · rw [hhead, helem 0 hlen]
    omega
  · rw [hgetlast, helem (l.length - 1) (by omega)]
    omega

/-- On a strictly tag-sorted field list, find? of a tag returns the
entry at any index carrying that tag. -/
theorem find?_tag_at (l : List Field)
    (hp : List.Pairwise (fun a b : Field => a.tag < b.tag) l) (i : Nat)
    (hi : i < l.length) (tag : Nat) (ht : (l.getD i default).tag = tag) :
    l.find? (fun f => f.tag == tag) = some (l.getD i default) := by
  induction l generalizing i with
  | nil => simp at hi
  | cons a r ih =>
    cases i with
    | zero =>
      simp only [List.getD] at ht ⊢
      simp only [List.find?_cons]
      simp_all
    | succ i =>
      have hpr := List.Pairwise.of_cons hp
      have hir : i < r.length := by simpa using hi
      have ha : a.tag < (r.getD i default).tag := by
        refine List.rel_of_pairwise_cons hp ?_
        rw [List.getD_eq_getElem r default hir]
        exact List.getElem_mem hir
      have hta : a.tag ≠ tag := by
        have h1 : (r.getD i default).tag = tag := ht
        omega
      have hfalse : (a.tag == tag) = false := by simpa using hta
      rw [List.find?_cons, hfalse]
      exact ih hpr i hir ht

/-- On a field list containing no entry with the given tag, find?
returns none. -/
theorem find?_tag_none (l : List Field) (tag : Nat)
    (h : ∀ f ∈ l, f.tag ≠ tag) :
    l.find? (fun f => f.tag == tag) = none := by
  rw [List.find?_eq_none]
  intro f hf
  simpa using h f hf

/-- Elementwise description of a contiguous sorted field list: when
the last tag spans exactly the length, every tag is head + index. -/
theorem contig_getD (l : List Field)
    (hp : List.Pairwise (fun a b : Field => a.tag < b.tag) l) (hne : l ≠ [])
    (hspan : (l.getLastD default).tag + 1 = (l.headD default).tag + l.length) :
    ∀ i, i < l.length → (l.getD i default).tag = (l.headD default).tag + i := by
  intro i hi
  have hlen : 0 < l.length := List.length_pos.mpr hne
  have hgetlast := getLastD_eq_getD_of_ne l default hne
  have hhead : l.headD default = l.getD 0 default := by
    cases l with
    | nil => simp at hne
    | cons a r => rfl
  have hlow := pairwise_tag_gap l hp 0 i (Nat.zero_le i) hi
  have hhigh := pairwise_tag_gap l hp i (l.length - 1) (by omega) (by omega)
  rw [hgetlast, hhead] at hspan
  rw [hhead]
  omega

/-- Correctness of the binary search loop on a sorted field list:
with a valid window and enough fuel, it finds an index holding the
tag, or correctly reports that no index holds it. -/
theorem binary_search_loop_correct (l : List Field) (tag : Nat)
    (hp : List.Pairwise (fun a b : Field => a.tag < b.tag) l) :
    ∀ fuel left right, right ≤ l.length → right - left < fuel →
      (∀ j, j < left → j < l.length → (l.getD j default).tag < tag) →
      (∀ j, right ≤ j → j < l.length → tag < (l.getD j default).tag) →
      ((∃ i, binary_search_loop l tag fuel left right = some i ∧ i < l.length ∧
          (l.getD i default).tag = tag) ∨
        (binary_search_loop l tag fuel left right = none ∧
          ∀ j, j < l.length → (l.getD j default).tag ≠ tag)) := by
  intro fuel
  induction fuel with
  | zero => intro left right _ hf _ _; omega
  | succ fuel ih =>
    intro left right hr hf hlo hhi
    by_cases hlr : left < right
    · have hmid : left + (right - left) / 2 < right := by omega
      have hmidl : left ≤ left + (right - left) / 2 := by omega
      set mid := left + (right - left) / 2 with hmiddef
      have hmlen : mid < l.length := by omega
      by_cases hk1 : (l.getD mid default).tag < tag
      · have step : binary_search_loop l tag (fuel+1) left right =
            binary_search_loop l tag fuel (mid + 1) right := by
          simp only [binary_search_loop, if_pos hlr, ← hmiddef, if_pos hk1]
        rw [step]
        refine ih (mid + 1) right hr (by omega) ?_ hhi
        intro j hj hjl
        rcases Nat.lt_or_ge j left with hc | hc
        · exact hlo j hc hjl
        · have := pairwise_tag_gap l hp j mid (by omega) hmlen
          omega
      · by_cases hk2 : tag < (l.getD mid default).tag
        · have step : binary_search_loop l tag (fuel+1) left right =
              binary_search_loop l tag fuel left mid := by
            simp only [binary_search_loop, if_pos hlr, ← hmiddef, if_neg hk1, if_pos hk2]
          rw [step]
          refine ih left mid (by omega) (by omega) hlo ?_
          intro j hj hjl
          rcases Nat.lt_or_ge j right with hc | hc
          · have := pairwise_tag_gap l hp mid j hj hjl
            omega
          · exact hhi j hc hjl
        · have hk : (l.getD mid default).tag = tag := by omega
          have step : binary_search_loop l tag (fuel+1) left right = some mid := by
            simp only [binary_search_loop, if_pos hlr, ← hmiddef, if_neg hk1, if_neg hk2]
          exact Or.inl ⟨mid, step, hmlen, hk⟩
    · have step : binary_search_loop l tag (fuel+1) left right = none := by
        simp only [binary_search_loop, if_neg hlr]
      refine Or.inr ⟨step, ?_⟩
      intro j hj
      rcases Nat.lt_or_ge j left with hc | hc
      · exact Nat.ne_of_lt (hlo j hc hj)
      · exact Nat.ne_of_gt (hhi j (by omega) hj)

/-- Specification of find_field_by_tag on a type as the schema
builder produces it: the lookup agrees with a linear search for the
tag, in both the direct-offset and the binary-search case. -/
theorem find_field_by_tag_spec (t : SprotoType)
    (hs : sorted_by_tag t.fields = true)
    (hb : t.base_tag = (compute_base_tag_and_maxn t.fields).1) (tag : Nat) :
    find_field_by_tag t tag = t.fields.find? (fun f => f.tag == tag) := by
  have hp := (sorted_by_tag_pairwise t.fields).mp hs
  cases hl : t.fields with
  | nil =>
    have hbv : t.base_tag = -1 := by rw [hb, hl]; rfl
    simp [find_field_by_tag, hbv, hl, binary_search_loop]
  | cons f0 rest =>
    rw [← hl]
    have hne : t.fields ≠ [] := by rw [hl]; simp
    have hlen : 0 < t.fields.length := List.length_pos.mpr hne
    have hhead : t.fields.headD default = f0 := by rw [hl]; rfl
    have hcompute : (compute_base_tag_and_maxn t.fields).1 =
        (if ((t.fields.getLastD default).tag : Int) -
              ((t.fields.headD default).tag : Int) + 1 = (t.fields.length : Int)
          then ((t.fields.headD default).tag : Int) else -1) := by
      rw [hl]; rfl
    rw [hhead] at hcompute
    by_cases hcontig : ((t.fields.getLastD default).tag : Int) - (f0.tag : Int) + 1 =
        (t.fields.length : Int)
    · have hbv : t.base_tag = (f0.tag : Int) := by
        rw [hb, hcompute, if_pos hcontig]
      have hspan : (t.fields.getLastD default).tag + 1 = f0.tag + t.fields.length := by
        have hlast := pairwise_tag_gap t.fields hp 0 (t.fields.length - 1)
          (by omega) (by omega)
        have hgetlast := getLastD_eq_getD_of_ne t.fields default hne
        have hh0 : t.fields.getD 0 default = f0 := by rw [hl]; rfl
        rw [hh0] at hlast
        rw [hgetlast] at hcontig ⊢
        omega
      have helem := contig_getD t.fields hp hne (by rw [hhead]; exact hspan)
      rw [hhead] at helem
      simp only [find_field_by_tag, hbv]
      rw [if_pos (by positivity)]
      by_cases hlt : (tag : Int) - (f0.tag : Int) < 0
      · rw [if_pos (Or.inl hlt)]
        have : ∀ f ∈ t.fields, f.tag ≠ tag := by
          intro f hf
          rcases List.mem_iff_getElem.mp hf with ⟨i, hi, hfi⟩
          have := helem i hi
          rw [List.getD_eq_getElem t.fields default hi, hfi] at this
          omega
        rw [find?_tag_none t.fields tag this]
      · by_cases hge : t.fields.length ≤ ((tag : Int) - (f0.tag : Int)).toNat
        · rw [if_pos (Or.inr hge)]
          have : ∀ f ∈ t.fields, f.tag ≠ tag := by
            intro f hf
            rcases List.mem_iff_getElem.mp hf with ⟨i, hi, hfi⟩
            have := helem i hi
            rw [List.getD_eq_getElem t.fields default hi, hfi] at this
            omega
          rw [find?_tag_none t.fields tag this]
        · rw [if_neg (by omega : ¬((tag : Int) - (f0.tag : Int) < 0 ∨
            t.fields.length ≤ ((tag : Int) - (f0.tag : Int)).toNat))]
          have hidx : ((tag : Int) - (f0.tag : Int)).toNat < t.fields.length := by omega
          have htag : (t.fields.getD ((tag : Int) - (f0.tag : Int)).toNat default).tag = tag := by
            rw [helem _ hidx]
            omega
          rw [find?_tag_at t.fields hp _ hidx tag htag]
    · have hbv : t.base_tag = -1 := by
        rw [hb, hcompute, if_neg hcontig]
      simp only [find_field_by_tag, hbv]
      rw [if_neg (by omega : ¬(0:Int) ≤ -1)]
      rcases binary_search_loop_correct t.fields tag hp (t.fields.length + 1) 0
          t.fields.length (le_refl _) (by omega) (by omega) (by omega) with
        ⟨i, hsome, hi, hti⟩ | ⟨hnone, hall⟩
      · rw [hsome]
        simp only [Option.map]
        rw [find?_tag_at t.fields hp i hi tag hti]
      · rw [hnone]
        simp only [Option.map]
        have : ∀ f ∈ t.fields, f.tag ≠ tag := by
          intro f hf
          rcases List.mem_iff_getElem.mp hf with ⟨i, hi, hfi⟩
          have := hall i hi
          rw [List.getD_eq_getElem t.fields default hi, hfi] at this
          exact this
        rw [find?_tag_none t.fields tag this]

/-- The base_tag component of compute_base_tag_and_maxn on a
nonempty field list, written with headD and getLastD. -/
theorem compute_base_tag_eq (fields : List Field) (hne : fields ≠ []) :
    (compute_base_tag_and_maxn fields).1 =
      (if ((fields.getLastD default).tag : Int) -
            ((fields.headD default).tag : Int) + 1 = (fields.length : Int)
        then ((fields.headD default).tag : Int) else -1) := by
  cases fields with
  | nil => simp at hne
  | cons f r => rfl

/-! ### Claim C6: base_tag and tag lookup -/

/-- Claim C6: for a type built by the schema builder over fields
sorted ascending by unique tags, base_tag equals b when the n tags
are exactly the contiguous range b, b+1, ..., b+n-1, and -1
otherwise; find_field_by_tag then returns the field carrying the
queried tag when one exists and none otherwise, in both the
contiguous (direct offset) and non-contiguous (binary search)
cases. -/
theorem claim_C6 (name : String) (fields : List Field)
    (hs : sorted_by_tag fields = true) :
    (∀ b : Nat, fields ≠ [] →
      fields.map (fun f => f.tag) = List.range' b fields.length →
      (compute_base_tag_and_maxn fields).1 = (b : Int)) ∧
    ((¬ ∃ b : Nat, fields.map (fun f => f.tag) = List.range' b fields.length) →
      (compute_base_tag_and_maxn fields).1 = -1) ∧
    (∀ tag : Nat, find_field_by_tag (mkType name fields) tag =
      fields.find? (fun f => f.tag == tag)) := by
  have hp := (sorted_by_tag_pairwise fields).mp hs
  refine ⟨?_, ?_, ?_⟩
  · intro b hne hc
    have hsp := span_of_tags_contig fields b hne hc
    rw [compute_base_tag_eq fields hne, if_pos (by omega), hsp.1]
  · intro hno
    cases hln : fields with
    | nil => exact absurd ⟨0, by rw [hln]; rfl⟩ hno
    | cons f r =>
      rw [← hln]
      have hne : fields ≠ [] := by rw [hln]; simp
      rw [compute_base_tag_eq fields hne]
      by_cases hcond : ((fields.getLastD default).tag : Int) -
          ((fields.headD default).tag : Int) + 1 = (fields.length : Int)
      · exfalso
        have hlen : 0 < fields.length := List.length_pos.mpr hne
        have hfirst : fields.getD 0 default = fields.headD default := by
          cases fields with
          | nil => simp at hne
          | cons a s => rfl
        have hord := pairwise_tag_gap fields hp 0 (fields.length - 1) (by omega) (by omega)
        rw [hfirst, ← getLastD_eq_getD_of_ne fields default hne] at hord
        have hspan : (fields.getLastD default).tag + 1 =
            (fields.headD default).tag + fields.length := by omega
        exact hno ⟨(fields.headD default).tag,
          tags_contig_of_span fields hp hne hspan⟩
      · rw [if_neg hcond]
  · intro tag
    exact find_field_by_tag_spec (mkType name fields) hs rfl tag

/-- Witness for claim C6: contiguous tags 3,4,5 give base_tag 3 with
direct-offset hits and misses; gapped tags 0,2,7 give base_tag -1
with binary-search hits and misses. -/
theorem claim_C6_witness :
    (compute_base_tag_and_maxn exContigFields).1 = 3 ∧
    (compute_base_tag_and_maxn exGapFields).1 = -1 ∧
    find_field_by_tag (mkType "T" exContigFields) 4 = some (mkField "b" 4 .Boolean) ∧
    find_field_by_tag (mkType "T" exContigFields) 6 = none ∧
    find_field_by_tag (mkType "T" exGapFields) 7 = some (mkField "c" 7 .String) ∧
    find_field_by_tag (mkType "T" exGapFields) 3 = none := by
  have hc := claim_C6 "T" exContigFields (by decide)
  have hg := claim_C6 "T" exGapFields (by decide)
  have hno : ¬ ∃ b : Nat, exGapFields.map (fun f => f.tag) =
      List.range' b exGapFields.length := by
    rintro ⟨b, hb⟩
    have : ([0, 2, 7] : List Nat) = [b, b + 1, b + 2] := by
      simpa [exGapFields, mkField, List.range'] using hb
    simp at this
    omega
  refine ⟨hc.1 3 (by decide) (by decide), hg.2.1 hno,
    (hc.2.2 4).trans (by decide), (hc.2.2 6).trans (by decide),
    (hg.2.2 7).trans (by decide), (hg.2.2 3).trans (by decide)⟩

/-! ### RPC session lemmas -/

theorem lookupS_removeS (m : List (Nat × Option Nat)) (k : Nat) :
    lookupS (removeS m k) k = none := by
  induction m with
  | nil => rfl
  | cons p rest ih =>
    by_cases hp : p.1 = k
    · simp only [removeS, List.filter]
      rw [show (p.1 != k) = false by simpa using hp]
      exact ih
    · simp only [removeS, List.filter]
      rw [show (p.1 != k) = true by simpa using hp]
      simp only [lookupS, if_neg hp]
      exact ih

/-- Characterization of the response branch of Host::dispatch: once
the packet unpacks, the header decodes with no type field and a
session, and re-encoding locates the content, dispatch resolves the
session against the pending table, removing the entry when found. -/
theorem dispatch_response_char (h : Host) (p u : List Nat) (pkg : SprotoType)
    (m : List (String × SprotoValue)) (hb : List Nat) (sInt : Int)
    (hu : unpack p = .ok u)
    (hpkg : h.sproto.types_list[h.package_type_idx]? = some pkg)
    (hdec : decode h.sproto pkg u = .ok (.Struct m))
    (htype : (lookupA m "type").bind as_integer = none)
    (hsess : (lookupA m "session").bind as_integer = some sInt)
    (henc : encodeAux (u.length + 2) h.sproto pkg (.Struct m) = .ok hb)
    (hlen : hb.length ≤ u.length) :
    (lookupS h.sessions (u64_of_i64 sInt) = none →
      dispatch h p = (.error (.UnknownSession (u64_of_i64 sInt)), h)) ∧
    (∀ rt, lookupS h.sessions (u64_of_i64 sInt) = some rt →
      dispatch h p =
        (match decode_response_content h.sproto rt (u.drop hb.length) with
         | .ok msg => (.ok (.Response (u64_of_i64 sInt) msg
             ((lookupA m "ud").bind as_integer)),
             { h with sessions := removeS h.sessions (u64_of_i64 sInt) })
         | .error e => (.error e,
             { h with sessions := removeS h.sessions (u64_of_i64 sInt) }))) := by
  have hnotlt : ¬ u.length < hb.length := by omega
  constructor
  · intro hnone
    simp only [dispatch, hu, hpkg, hdec, htype, hsess, henc, if_neg hnotlt, hnone]
  · intro rt hsome
    simp only [dispatch, hu, hpkg, hdec, htype, hsess, henc, if_neg hnotlt, hsome]
    cases hdc : decode_response_content h.sproto rt (List.drop hb.length u) <;> rfl

/-! ### Claim C7: session resolution in dispatch -/

/-- Claim C7: for a host and a well-formed response packet carrying
session s (the packet unpacks, its header decodes to a struct with no
type field and with session s, the header re-encodes within the
unpacked bytes, and the content decodes for the registered response
type), dispatch returns UnknownSession s and leaves the host
unchanged when s is not in the pending table; when s is registered,
dispatch returns the Response and removes s from the table, so
dispatching the same packet a second time returns UnknownSession s. -/
theorem claim_C7 (h : Host) (p u : List Nat) (pkg : SprotoType)
    (m : List (String × SprotoValue)) (hb : List Nat) (sInt : Int)
    (hu : unpack p = .ok u)
    (hpkg : h.sproto.types_list[h.package_type_idx]? = some pkg)
    (hdec : decode h.sproto pkg u = .ok (.Struct m))
    (htype : (lookupA m "type").bind as_integer = none)
    (hsess : (lookupA m "session").bind as_integer = some sInt)
    (henc : encodeAux (u.length + 2) h.sproto pkg (.Struct m) = .ok hb)
    (hlen : hb.length ≤ u.length) :
    (lookupS h.sessions (u64_of_i64 sInt) = none →
      dispatch h p = (.error (.UnknownSession (u64_of_i64 sInt)), h)) ∧
    (∀ rt msg, lookupS h.sessions (u64_of_i64 sInt) = some rt →
      decode_response_content h.sproto rt (u.drop hb.length) = .ok msg →
      dispatch h p = (.ok (.Response (u64_of_i64 sInt) msg
          ((lookupA m "ud").bind as_integer)),
          { h with sessions := removeS h.sessions (u64_of_i64 sInt) }) ∧
      (dispatch { h with sessions := removeS h.sessions (u64_of_i64 sInt) } p).1 =
        .error (.UnknownSession (u64_of_i64 sInt))) := by
  have hchar := dispatch_response_char h p u pkg m hb sInt hu hpkg hdec htype hsess henc hlen
  refine ⟨hchar.1, ?_⟩
  intro rt msg hsome hcontent
  constructor
  · rw [hchar.2 rt hsome, hcontent]
  · set h1 : Host := { h with sessions := removeS h.sessions (u64_of_i64 sInt) } with hh1
    have hchar1 := dispatch_response_char h1 p u pkg m hb sInt hu hpkg hdec htype hsess henc hlen
    rw [hchar1.1 (lookupS_removeS h.sessions (u64_of_i64 sInt))]

/-- Witness for claim C7: over the package schema, the packed
response packet with session 1 dispatched against an empty table
yields UnknownSession 1; with session 1 registered it yields the
Response, removes the entry, and a second dispatch yields
UnknownSession 1. -/
theorem claim_C7_witness :
    dispatch exHost exRespPacket = (.error (.UnknownSession 1), exHost) ∧
    dispatch (register_session exHost 1 none) exRespPacket =
      (.ok (.Response 1 none none), exHost) ∧
    (dispatch exHost exRespPacket).1 = .error (.UnknownSession 1) := by
  have h0 := claim_C7 exHost exRespPacket [2, 0, 1, 0, 4, 0, 0, 0] exPkgT
    [("session", .Integer 1)] [2, 0, 1, 0, 4, 0] 1
    rfl rfl rfl rfl rfl rfl (by decide)
  have h1 := claim_C7 (register_session exHost 1 none) exRespPacket
    [2, 0, 1, 0, 4, 0, 0, 0] exPkgT
    [("session", .Integer 1)] [2, 0, 1, 0, 4, 0] 1
    rfl rfl rfl rfl rfl rfl (by decide)
  have hreg := (h1.2 none none rfl rfl).1
  refine ⟨h0.1 rfl, ?_, (h0.1 rfl) ▸ rfl⟩
  exact hreg

/-! ### Claim C9: session removal precedes content decoding -/

/-- Claim C9: dispatch removes a registered session from the pending
table before decoding the response content: when the content bytes
fail to decode, dispatch returns the decode error but the session
entry has nonetheless been removed, so re-dispatching the same packet
afterwards yields UnknownSession. -/
theorem claim_C9 (h : Host) (p u : List Nat) (pkg : SprotoType)
    (m : List (String × SprotoValue)) (hb : List Nat) (sInt : Int)
    (hu : unpack p = .ok u)
    (hpkg : h.sproto.types_list[h.package_type_idx]? = some pkg)
    (hdec : decode h.sproto pkg u = .ok (.Struct m))
    (htype : (lookupA m "type").bind as_integer = none)
    (hsess : (lookupA m "session").bind as_integer = some sInt)
    (henc : encodeAux (u.length + 2) h.sproto pkg (.Struct m) = .ok hb)
    (hlen : hb.length ≤ u.length) :
    ∀ rt e, lookupS h.sessions (u64_of_i64 sInt) = some rt →
      decode_response_content h.sproto rt (u.drop hb.length) = .error e →
      dispatch h p = (.error e,
        { h with sessions := removeS h.sessions (u64_of_i64 sInt) }) ∧
      lookupS (removeS h.sessions (u64_of_i64 sInt)) (u64_of_i64 sInt) = none ∧
      (dispatch { h with sessions := removeS h.sessions (u64_of_i64 sInt) } p).1 =
        .error (.UnknownSession (u64_of_i64 sInt)) := by
  intro rt e hsome hcontent
  have hchar := dispatch_response_char h p u pkg m hb sInt hu hpkg hdec htype hsess henc hlen
  refine ⟨?_, lookupS_removeS h.sessions (u64_of_i64 sInt), ?_⟩
  · rw [hchar.2 rt hsome, hcontent]
  · set h1 : Host := { h with sessions := removeS h.sessions (u64_of_i64 sInt) } with hh1
    have hchar1 := dispatch_response_char h1 p u pkg m hb sInt hu hpkg hdec htype hsess henc hlen
    rw [hchar1.1 (lookupS_removeS h.sessions (u64_of_i64 sInt))]

/-- Witness for claim C9: the bad-content packet (header session 1,
content bytes claiming field count 5 in 2 bytes) against a host with
session 1 registered to the package type returns the Truncated
decode error, leaves the table without session 1, and a re-dispatch
yields UnknownSession 1. -/
theorem claim_C9_witness :
    dispatch { exHost with sessions := [(1, some 0)] } exBadContentPacket =
      (.error (.Decode (.Truncated 12 2)), exHost) ∧
    (dispatch exHost exBadContentPacket).1 = .error (.UnknownSession 1) := by
  have h0 := claim_C9 { exHost with sessions := [(1, some 0)] } exBadContentPacket
    [2, 0, 1, 0, 4, 0, 5, 0] exPkgT
    [("session", .Integer 1)] [2, 0, 1, 0, 4, 0] 1
    rfl rfl rfl rfl rfl rfl (by decide)
  have h1 := h0 (some 0) (.Decode (.Truncated 12 2)) rfl rfl
  exact ⟨h1.1, h1.2.2⟩

/-! ### List positional lemmas for the pack proofs -/

theorem getD_append_at {α : Type} (a b : List α) (d : α) (k : Nat) :
    (a ++ b).getD (a.length + k) d = b.getD k d := by
  induction a with
  | nil => simp
  | cons x r ih =>
    have hidx : (x :: r).length + k = (r.length + k) + 1 := by
      simp [Nat.add_right_comm]
    rw [List.cons_append, hidx, List.getD_cons_succ]
    exact ih

theorem drop_append_plus {α : Type} (a b : List α) (k : Nat) :
    (a ++ b).drop (a.length + k) = b.drop k := by
  induction a with
  | nil => simp
  | cons x r ih =>
    have hidx : (x :: r).length + k = (r.length + k) + 1 := by
      simp [Nat.add_right_comm]
    rw [List.cons_append, hidx, List.drop_succ_cons]
    exact ih

theorem listWrite_at (done rest bytes : List Nat) (p : Nat) (hp : p = done.length) :
    listWrite (done ++ rest) p bytes =
      done ++ bytes ++ rest.drop bytes.length := by
  subst hp
  unfold listWrite
  rw [List.take_left, drop_append_plus]

theorem drop_replicate {α : Type} (n k : Nat) (a : α) :
    (List.replicate n a).drop k = List.replicate (n - k) a := by
  induction n generalizing k with
  | zero => simp
  | succ n ih =>
    cases k with
    | zero => simp
    | succ k => simpa [List.replicate_succ] using ih k

theorem chunk_bytes_length (src : List Nat) (ss k : Nat) :
    (chunk_bytes src ss k).length = k := by
  simp [chunk_bytes]

theorem chunk_bytes_append (src : List Nat) (ss a b : Nat) :
    chunk_bytes src ss (a + b) =
      chunk_bytes src ss a ++ chunk_bytes src (ss + a) b := by
  unfold chunk_bytes
  rw [List.range_add, List.map_append, List.map_map]
  congr 1
  apply List.map_congr_left
  intro j _
  simp only [Function.comp]
  congr 1
  omega

theorem chunk_at_eq (src : List Nat) (i : Nat) :
    chunk_at src i = chunk_bytes src i 8 := rfl

theorem chunk_bytes_as_slice (src : List Nat) (ss k : Nat) :
    chunk_bytes src ss k =
      (src.drop ss).take k ++ List.replicate (k - (src.length - ss)) 0 := by
  apply List.ext_getElem
  · simp [chunk_bytes_length]
    omega
  · intro j hj1 hj2
    have hj : j < k := by simpa [chunk_bytes_length] using hj1
    simp only [chunk_bytes, List.getElem_map, List.getElem_range]
    by_cases hin : j < src.length - ss
    · have hlen : ((src.drop ss).take k).length = min k (src.length - ss) := by simp
      rw [List.getElem_append_left (by rw [hlen]; omega)]
      rw [List.getElem_take, List.getElem_drop]
      rw [List.getD_eq_getElem src 0 (by omega)]
    · have hlen : ((src.drop ss).take k).length = min k (src.length - ss) := by simp
      have hge : ((src.drop ss).take k).length ≤ j := by rw [hlen]; omega
      rw [List.getElem_append_right hge]
      rw [List.getElem_replicate]
      rw [List.getD_eq_default src 0 (by omega)]

theorem chunk_bytes_full (src : List Nat) (k : Nat) (h : src.length ≤ k) :
    chunk_bytes src 0 k = src ++ List.replicate (k - src.length) 0 := by
  rw [chunk_bytes_as_slice]
  simp [List.take_of_length_le h]

theorem write_ff_data_eq (src done : List Nat) (ss n : Nat) (hn : 0 < n) :
    write_ff_data src src.length (done ++ List.replicate (2 + 8 * n) 0)
        ss done.length n =
      done ++ [255, (n - 1) % 256] ++ chunk_bytes src ss (8 * n) := by
  simp only [write_ff_data]
  set T := n * 8 with hT
  set available := min (ss + T) src.length - ss with havdef
  have havail : available ≤ T := by omega
  set slice := (src.drop ss).take available with hsldef
  have hslice_len : slice.length = available := by
    rw [hsldef]
    simp
    omega
  have h1 : listWrite (done ++ List.replicate (2 + 8 * n) 0) done.length [255] =
      done ++ [255] ++ List.replicate (1 + 8 * n) 0 := by
    rw [listWrite_at done _ _ _ rfl, drop_replicate]
    simp only [List.length_cons, List.length_nil]
    rw [show 2 + 8 * n - 1 = 1 + 8 * n by omega]
  rw [h1]
  have h2 : listWrite (done ++ [255] ++ List.replicate (1 + 8 * n) 0)
      (done.length + 1) [(n - 1) % 256] =
      done ++ [255] ++ [(n - 1) % 256] ++ List.replicate (8 * n) 0 := by
    rw [listWrite_at (done ++ [255]) _ _ _ (by simp), drop_replicate]
    simp only [List.length_cons, List.length_nil]
    rw [show 1 + 8 * n - 1 = 8 * n by omega]
  rw [h2]
  have h3 : listWrite (done ++ [255] ++ [(n - 1) % 256] ++ List.replicate (8 * n) 0)
      (done.length + 2) slice =
      done ++ [255] ++ [(n - 1) % 256] ++ slice ++
        List.replicate (8 * n - available) 0 := by
    rw [listWrite_at (done ++ [255] ++ [(n - 1) % 256]) _ _ _ (by simp),
      drop_replicate, hslice_len]
  rw [h3]
  have h4 : listWrite (done ++ [255] ++ [(n - 1) % 256] ++ slice ++
      List.replicate (8 * n - available) 0)
      (done.length + 2 + available) (List.replicate (T - available) 0) =
      done ++ [255] ++ [(n - 1) % 256] ++ slice ++
        List.replicate (T - available) 0 ++
        (List.replicate (8 * n - available) (0 : Nat)).drop
          (List.replicate (T - available) (0 : Nat)).length := by
    rw [listWrite_at (done ++ [255] ++ [(n - 1) % 256] ++ slice) _ _ _
      (by simp [hslice_len]; omega)]
  rw [h4, drop_replicate]
  rw [List.length_replicate]
  rw [show 8 * n - available - (T - available) = 0 by omega]
  have hfin : (done ++ [255] ++ [(n - 1) % 256] ++ slice ++
      List.replicate (T - available) 0 ++ List.replicate 0 (0 : Nat)).length =
      done.length + 2 + T := by
    simp [hslice_len]
    omega
  rw [← hfin, List.take_length]
  have hsl2 : slice = (src.drop ss).take (8 * n) := by
    rw [hsldef]
    rw [List.take_eq_take]
    simp
    omega
  rw [chunk_bytes_as_slice, ← hsl2]
  have hrep : T - available = 8 * n - (src.length - ss) := by omega
  rw [← hrep]
  simp [List.append_assoc]

/-- Characterization of the pack loop followed by the final flush:
starting at word position i with a pending run of k words (whose
reserved bytes sit after done in the output buffer), the flushed
output is done followed by the segments seg_spec describes. -/
theorem pack_loop_segs (src : List Nat) :
    ∀ fuel i done ss ds k res,
      (k = 0 → res = done) →
      (0 < k → res = done ++ List.replicate (2 + 8 * k) 0 ∧
        ss = i - 8 * k ∧ 8 * k ≤ i ∧ ds = done.length) →
      k ≤ 255 →
      pack_flush src src.length (pack_loop src src.length fuel i
        { result := res, ff_src_start := ss, ff_des_start := ds, ff_n := k }) =
      done ++ seg_spec src fuel i k := by
  intro fuel
  induction fuel with
  | zero =>
    intro i done ss ds k res h0 hpos hk
    simp only [pack_loop, seg_spec]
    by_cases hkp : 0 < k
    · rcases hpos hkp with ⟨hres, hss, hle, hds⟩
      subst hres
      simp only [pack_flush, if_pos hkp, hds]
      rw [write_ff_data_eq src done ss k hkp]
      rw [hss, show (k - 1) % 256 = k - 1 by omega]
      simp [List.append_assoc]
    · have hk0 : k = 0 := by omega
      subst hk0
      rw [h0 rfl]
      simp [pack_flush]
  | succ fuel ih =>
    intro i done ss ds k res h0 hpos hk
    by_cases hi : i < src.length
    · rcases hct : compute_tag (chunk_at src i) with ⟨tag, nz⟩
      simp only [pack_loop, if_pos hi, hct]
      simp only [seg_spec, if_pos hi, hct]
      by_cases hprom : (nz = 6 ∨ nz = 7) ∧ 0 < k
      · rcases hpos hprom.2 with ⟨hres, hss, hle, hds⟩
        by_cases h256 : k + 1 = 256
        · have hres1 : res ++ List.replicate 8 0 =
              done ++ List.replicate (2 + 8 * 256) 0 := by
            rw [hres, List.append_assoc, ← List.replicate_add]
            rw [show 2 + 8 * k + 8 = 2 + 8 * 256 by omega]
          rw [if_pos hprom, if_pos rfl, if_pos hprom.2, if_pos h256, hres1, hds, h256]
          rw [write_ff_data_eq src done ss 256 (by omega)]
          rw [ih (i + 8) (done ++ [255, (256 - 1) % 256] ++ chunk_bytes src ss (8 * 256))
            ss done.length 0 _ (fun _ => rfl) (fun h => absurd h (by omega)) (by omega)]
          simp [hprom.1, hprom.2, hss, h256, List.append_assoc]
        · have hres1 : res ++ List.replicate 8 0 =
              done ++ List.replicate (2 + 8 * (k + 1)) 0 := by
            rw [hres, List.append_assoc, ← List.replicate_add]
            rw [show 2 + 8 * k + 8 = 2 + 8 * (k + 1) by omega]
          rw [if_pos hprom, if_pos rfl, if_pos hprom.2, if_neg h256, hres1]
          rw [ih (i + 8) done ss ds (k + 1) _ (fun h => absurd h (by omega))
            (fun _ => ⟨rfl, by omega, by omega, hds⟩) (by omega)]
          simp [hprom.1, hprom.2, h256]
      · rw [if_neg hprom]
        by_cases h8 : nz = 8
        · by_cases hkp : 0 < k
          · rcases hpos hkp with ⟨hres, hss, hle, hds⟩
            by_cases h256 : k + 1 = 256
            · have hres1 : res ++ List.replicate 8 0 =
                  done ++ List.replicate (2 + 8 * 256) 0 := by
                rw [hres, List.append_assoc, ← List.replicate_add]
                rw [show 2 + 8 * k + 8 = 2 + 8 * 256 by omega]
              rw [if_pos h8, if_pos hkp, if_pos h256, hres1, hds, h256]
              rw [write_ff_data_eq src done ss 256 (by omega)]
              rw [ih (i + 8)
                (done ++ [255, (256 - 1) % 256] ++ chunk_bytes src ss (8 * 256))
                ss done.length 0 _ (fun _ => rfl) (fun h => absurd h (by omega))
                (by omega)]
              simp [hprom, h8, hkp, hss, h256, List.append_assoc]
            · have hres1 : res ++ List.replicate 8 0 =
                  done ++ List.replicate (2 + 8 * (k + 1)) 0 := by
                rw [hres, List.append_assoc, ← List.replicate_add]
                rw [show 2 + 8 * k + 8 = 2 + 8 * (k + 1) by omega]
              rw [if_pos h8, if_pos hkp, if_neg h256, hres1]
              rw [ih (i + 8) done ss ds (k + 1) _ (fun h => absurd h (by omega))
                (fun _ => ⟨rfl, by omega, by omega, hds⟩) (by omega)]
              simp [hprom, h8, hkp, h256]
          · have hk0 : k = 0 := by omega
            subst hk0
            rw [if_pos h8, if_neg hkp, h0 rfl]
            rw [show done ++ List.replicate 10 0 =
              done ++ List.replicate (2 + 8 * 1) 0 from rfl]
            rw [ih (i + 8) done i done.length 1 _ (fun h => absurd h (by omega))
              (fun _ => ⟨rfl, by omega, by omega, rfl⟩) (by omega)]
            simp [hprom, h8, hkp]
        · by_cases hkp : 0 < k
          · rcases hpos hkp with ⟨hres, hss, hle, hds⟩
            rw [if_neg h8, if_pos hkp, hres, hds]
            rw [write_ff_data_eq src done ss k hkp]
            rw [ih (i + 8) (done ++ [255, (k - 1) % 256] ++ chunk_bytes src ss (8 * k) ++
                [tag] ++ (chunk_at src i).filter (fun b => b != 0))
              ss done.length 0 _ (fun _ => rfl)
              (fun h => absurd h (by omega)) (by omega)]
            rw [hss, show (k - 1) % 256 = k - 1 by omega]
            simp [hprom, h8, hkp, List.append_assoc]
          · have hk0 : k = 0 := by omega
            subst hk0
            rw [if_neg h8, if_neg hkp, h0 rfl]
            rw [ih (i + 8) (done ++ [tag] ++ (chunk_at src i).filter (fun b => b != 0))
              ss ds 0 _ (fun _ => by simp [List.append_assoc])
              (fun h => absurd h (by omega)) (by omega)]
            simp [hprom, h8, hkp, List.append_assoc]
    · simp only [pack_loop, if_neg hi, seg_spec, if_neg hi]
      by_cases hkp : 0 < k
      · rcases hpos hkp with ⟨hres, hss, hle, hds⟩
        subst hres
        simp only [pack_flush, if_pos hkp, hds]
        rw [write_ff_data_eq src done ss k hkp]
        rw [hss, show (k - 1) % 256 = k - 1 by omega]
        simp [hkp, List.append_assoc]
      · have hk0 : k = 0 := by omega
        subst hk0
        rw [h0 rfl]
        simp [pack_flush]


theorem compute_tag_loop_eq :
    ∀ (l : List Nat) (i tag nz : Nat),
      compute_tag_loop l i tag nz = (tag + 2 ^ i * tag_rec l, nz + nz_count l) := by
  intro l
  induction l with
  | nil => intro i tag nz; simp [compute_tag_loop, tag_rec, nz_count]
  | cons b r ih =>
    intro i tag nz
    by_cases hb : b ≠ 0
    · simp only [compute_tag_loop, if_pos hb, ih, tag_rec, if_pos hb]
      rw [Prod.mk.injEq]
      refine ⟨by ring_nf, ?_⟩
      simp [nz_count, List.filter_cons, show (b != 0) = true by simpa using hb]
      omega
    · simp only [compute_tag_loop, if_neg hb, ih, tag_rec, if_neg hb]
      rw [Prod.mk.injEq]
      refine ⟨by ring_nf, ?_⟩
      simp [nz_count, List.filter_cons, show (b != 0) = false by simpa using hb]

theorem compute_tag_eq (chunk : List Nat) :
    compute_tag chunk = (tag_rec chunk, nz_count chunk) := by
  rw [compute_tag, compute_tag_loop_eq]
  simp

theorem tag_rec_testBit :
    ∀ (l : List Nat) (j : Nat),
      (tag_rec l).testBit j = (decide (j < l.length) && decide (l.getD j 0 ≠ 0)) := by
  intro l
  induction l with
  | nil => intro j; simp [tag_rec]
  | cons b r ih =>
    intro j
    cases j with
    | zero =>
      simp only [tag_rec, Nat.testBit_zero]
      by_cases hb : b ≠ 0
      · rw [if_pos hb]
        simp only [List.length_cons, List.getD_cons_zero]
        rw [show (1 + 2 * tag_rec r) % 2 = 1 by omega]
        simp [hb]
      · rw [if_neg hb]
        simp only [List.length_cons, List.getD_cons_zero]
        rw [show (0 + 2 * tag_rec r) % 2 = 0 by omega]
        simp [show b = 0 by omega]
    | succ j =>
      rw [show tag_rec (b :: r) = (if b ≠ 0 then 1 else 0) + 2 * tag_rec r from rfl]
      have hdiv : ((if b ≠ 0 then 1 else 0) + 2 * tag_rec r) / 2 = tag_rec r := by
        by_cases hb : b ≠ 0 <;> simp [hb] <;> omega
      rw [Nat.testBit_succ, hdiv, ih j]
      simp [List.getD]

theorem tag_rec_lt (l : List Nat) : tag_rec l < 2 ^ l.length := by
  induction l with
  | nil => simp [tag_rec]
  | cons b r ih =>
    by_cases hb : b ≠ 0 <;> simp [tag_rec, hb, List.length_cons, pow_succ] <;> omega

theorem nz_count_lt_of_ne (l : List Nat) (h : nz_count l ≠ l.length) :
    ∃ j, j < l.length ∧ l.getD j 0 = 0 := by
  induction l with
  | nil => simp [nz_count] at h
  | cons b r ih =>
    by_cases hb : b = 0
    · exact ⟨0, by simp, by simp [List.getD, hb]⟩
    · have hcount : nz_count (b :: r) = nz_count r + 1 := by
        simp [nz_count, List.filter_cons, hb]
      have hr : nz_count r ≠ r.length := by
        intro he
        apply h
        rw [hcount, he]
        simp
      rcases ih hr with ⟨j, hj, hz⟩
      exact ⟨j + 1, by simpa using hj, by simpa [List.getD] using hz⟩

theorem tag_rec_ne_255 (l : List Nat) (hlen : l.length = 8) (h : nz_count l ≠ 8) :
    tag_rec l ≠ 255 := by
  rcases nz_count_lt_of_ne l (by rw [hlen]; exact h) with ⟨j, hj, hz⟩
  intro habs
  have h1 : (tag_rec l).testBit j = true := by
    rw [habs]
    have : j < 8 := by omega
    interval_cases j <;> decide
  rw [tag_rec_testBit] at h1
  simp only [Bool.and_eq_true, decide_eq_true_eq] at h1
  exact h1.2 hz

theorem unpack_norm_steps (P : List Nat) (tag : Nat) :
    ∀ (js cs : List Nat) (pre2 rest out : List Nat),
      List.Forall₂ (fun j c => tag.testBit j = true ↔ c ≠ 0) js cs →
      P = pre2 ++ cs.filter (fun b => b != 0) ++ rest →
      unpack_norm P tag js pre2.length out =
        .ok (pre2.length + (cs.filter (fun b => b != 0)).length, out ++ cs) := by
  intro js
  induction js with
  | nil =>
    intro cs pre2 rest out hf hP
    have hcs : cs = [] := by cases hf; rfl
    subst hcs
    simp [unpack_norm]
  | cons j js ih =>
    intro cs pre2 rest out hf hP
    cases hf with
    | cons hjc hf2 =>
      rename_i c cs2
      by_cases hc : c ≠ 0
      · have hbit : tag.testBit j = true := hjc.mpr hc
        have hfil : (c :: cs2).filter (fun b => b != 0) =
            c :: cs2.filter (fun b => b != 0) := by
          simp [List.filter_cons]
          intro hc0
          exact absurd hc0 hc
        rw [hfil] at hP
        have hplen : pre2.length < P.length := by
          rw [hP]
          simp
        simp only [unpack_norm, hbit, eq_self_iff_true, if_true]
        rw [if_neg (by omega : ¬ P.length ≤ pre2.length)]
        have hget : P.getD pre2.length 0 = c := by
          rw [hP]
          have := getD_append_at pre2 (c :: cs2.filter (fun b => b != 0) ++ rest) 0 0
          simpa [List.append_assoc] using this
        rw [hget]
        have hstep := ih cs2 (pre2 ++ [c]) rest (out ++ [c]) hf2
          (by rw [hP]; simp [List.append_assoc])
        have hlen1 : (pre2 ++ [c]).length = pre2.length + 1 := by simp
        rw [hlen1] at hstep
        rw [hstep, hfil]
        rw [Except.ok.injEq, Prod.mk.injEq]
        refine ⟨by simp; omega, by simp⟩
      · have hc0 : c = 0 := by omega
        subst hc0
        have hbit : tag.testBit j = false := by
          cases hb : tag.testBit j
          · rfl
          · exact absurd (hjc.mp hb) (by simp)
        have hfil : ((0 : Nat) :: cs2).filter (fun b => b != 0) =
            cs2.filter (fun b => b != 0) := by simp
        rw [hfil] at hP
        simp only [unpack_norm, hbit, Bool.false_eq_true, if_false]
        rw [ih cs2 pre2 rest (out ++ [0]) hf2 hP, hfil]
        rw [Except.ok.injEq, Prod.mk.injEq]
        refine ⟨rfl, by simp⟩


theorem tag_forall2 :
    ∀ (cs : List Nat) (b tag : Nat),
      (∀ idx, idx < cs.length → (tag.testBit (b + idx) = true ↔ cs.getD idx 0 ≠ 0)) →
      List.Forall₂ (fun j c => tag.testBit j = true ↔ c ≠ 0) (List.range' b cs.length) cs := by
  intro cs
  induction cs with
  | nil => intro b tag _; exact List.Forall₂.nil
  | cons c cs2 ih =>
    intro b tag h
    rw [List.length_cons, List.range'_succ]
    refine List.Forall₂.cons ?_ (ih (b + 1) tag ?_)
    · simpa [List.getD] using h 0 (by simp)
    · intro idx hidx
      have := h (idx + 1) (by simpa using hidx)
      simpa [List.getD, Nat.add_assoc, Nat.add_comm 1 idx, Nat.add_left_comm] using this

theorem unpack_ff_step (P pfx chunkb rest acc : List Nat) (cnt f1 : Nat)
    (hP : P = pfx ++ [255, cnt] ++ chunkb ++ rest)
    (hcnt : cnt ≤ 255)
    (hlen : chunkb.length = 8 * (cnt + 1)) :
    unpack_loop P (f1 + 1) pfx.length acc =
      unpack_loop P f1 (pfx.length + 2 + 8 * (cnt + 1)) (acc ++ chunkb) := by
  have hPlen : P.length = pfx.length + 2 + 8 * (cnt + 1) + rest.length := by
    rw [hP]; simp [hlen]; omega
  simp only [unpack_loop]
  rw [if_pos (by omega : pfx.length < P.length)]
  have hget0 : P.getD pfx.length 0 = 255 := by
    rw [hP]
    have := getD_append_at pfx ([255, cnt] ++ chunkb ++ rest) 0 0
    simpa [List.append_assoc] using this
  rw [hget0, if_pos rfl]
  rw [if_neg (by omega : ¬ P.length ≤ pfx.length + 1)]
  have hget1 : P.getD (pfx.length + 1) 0 = cnt := by
    rw [hP]
    have := getD_append_at pfx ([255, cnt] ++ chunkb ++ rest) 0 1
    simpa [List.append_assoc] using this
  rw [hget1]
  rw [if_neg (by omega : ¬ P.length < pfx.length + 1 + 1 + (cnt + 1) * 8)]
  have hdrop : (P.drop (pfx.length + 1 + 1)).take ((cnt + 1) * 8) = chunkb := by
    rw [hP]
    rw [show pfx.length + 1 + 1 = (pfx ++ [255, cnt]).length + 0 by simp]
    rw [show pfx ++ [255, cnt] ++ chunkb ++ rest =
      (pfx ++ [255, cnt]) ++ (chunkb ++ rest) by simp [List.append_assoc]]
    rw [drop_append_plus]
    simp only [List.drop_zero]
    rw [List.take_append_of_le_length (by omega), List.take_of_length_le (by omega)]
  rw [hdrop]
  congr 1
  omega

theorem unpack_norm_step (P pfx rest acc chunk : List Nat) (f1 : Nat)
    (hP : P = pfx ++ [tag_rec chunk] ++ chunk.filter (fun b => b != 0) ++ rest)
    (hlen : chunk.length = 8) (hne : nz_count chunk ≠ 8) :
    unpack_loop P (f1 + 1) pfx.length acc =
      unpack_loop P f1 (pfx.length + 1 + (chunk.filter (fun b => b != 0)).length)
        (acc ++ chunk) := by
  have hPlen : P.length =
      pfx.length + 1 + (chunk.filter (fun b => b != 0)).length + rest.length := by
    rw [hP]; simp; omega
  simp only [unpack_loop]
  rw [if_pos (by omega : pfx.length < P.length)]
  have hget0 : P.getD pfx.length 0 = tag_rec chunk := by
    rw [hP]
    have := getD_append_at pfx
      ([tag_rec chunk] ++ chunk.filter (fun b => b != 0) ++ rest) 0 0
    simpa [List.append_assoc] using this
  rw [hget0]
  rw [if_neg (tag_rec_ne_255 chunk hlen hne)]
  have hforall : List.Forall₂ (fun j c => (tag_rec chunk).testBit j = true ↔ c ≠ 0)
      (List.range 8) chunk := by
    rw [List.range_eq_range', show (8 : Nat) = chunk.length from hlen.symm]
    apply tag_forall2
    intro idx hidx
    rw [tag_rec_testBit]
    simp [hidx]
  have hsteps := unpack_norm_steps P (tag_rec chunk) (List.range 8) chunk
    (pfx ++ [tag_rec chunk]) rest []
    hforall (by rw [hP])
  have hlen1 : (pfx ++ [tag_rec chunk]).length = pfx.length + 1 := by simp
  rw [hlen1] at hsteps
  rw [hsteps]
  simp only [List.nil_append, bind, Except.bind]



theorem unpack_final_flush (src P : List Nat) (k i : Nat) (pfx acc : List Nat)
    (fuelU : Nat)
    (hki : 8 * k ≤ i) (hk : k ≤ 255) (hi8 : i % 8 = 0)
    (hipad : i ≤ padded_len src.length) (hlen : src.length ≤ i)
    (hP : P = pfx ++
      (if 0 < k then [255, k - 1] ++ chunk_bytes src (i - 8 * k) (8 * k) else []))
    (hfu : (if 0 < k then [255, k - 1] ++ chunk_bytes src (i - 8 * k) (8 * k)
      else []).length + 1 ≤ fuelU) :
    unpack_loop P fuelU pfx.length acc =
      .ok (acc ++ chunk_bytes src (i - 8 * k) (padded_len src.length - (i - 8 * k))) := by
  have hpad : padded_len src.length = 8 * ((src.length + 7) / 8) := rfl
  have hip : i = padded_len src.length := by omega
  by_cases hkp : 0 < k
  · rw [if_pos hkp] at hP hfu
    have hclen : (chunk_bytes src (i - 8 * k) (8 * k)).length = 8 * k :=
      chunk_bytes_length src (i - 8 * k) (8 * k)
    obtain ⟨f1, rfl⟩ : ∃ f1, fuelU = f1 + 1 := ⟨fuelU - 1, by simp at hfu; omega⟩
    have hstep := unpack_ff_step P pfx (chunk_bytes src (i - 8 * k) (8 * k)) [] acc
      (k - 1) f1 (by rw [hP]; simp [List.append_assoc]) (by omega)
      (by rw [hclen]; omega)
    rw [hstep]
    have hPlen : P.length = pfx.length + 2 + 8 * k := by
      rw [hP]; simp [hclen]; omega
    obtain ⟨f2, rfl⟩ : ∃ f2, f1 = f2 + 1 := ⟨f1 - 1, by simp [hclen] at hfu; omega⟩
    simp only [unpack_loop]
    rw [if_neg (by omega : ¬ pfx.length + 2 + 8 * (k - 1 + 1) < P.length)]
    rw [show padded_len src.length - (i - 8 * k) = 8 * k by omega]
  · have hk0 : k = 0 := by omega
    subst hk0
    rw [if_neg hkp] at hP hfu
    rw [List.append_nil] at hP
    obtain ⟨f1, rfl⟩ : ∃ f1, fuelU = f1 + 1 := ⟨fuelU - 1, by simp at hfu; omega⟩
    simp only [unpack_loop]
    rw [if_neg (by rw [hP]; omega : ¬ pfx.length < P.length)]
    rw [show padded_len src.length - (i - 8 * 0) = 0 by omega]
    simp [chunk_bytes]



theorem unpack_segs (src : List Nat) :
    ∀ fuel i k (pfx acc P : List Nat) (fuelU : Nat),
      src.length ≤ i + 8 * fuel →
      8 * k ≤ i → k ≤ 255 → i % 8 = 0 → i ≤ padded_len src.length →
      P = pfx ++ seg_spec src fuel i k →
      (seg_spec src fuel i k).length + 1 ≤ fuelU →
      unpack_loop P fuelU pfx.length acc =
        .ok (acc ++ chunk_bytes src (i - 8 * k)
          (padded_len src.length - (i - 8 * k))) := by
  intro fuel
  induction fuel with
  | zero =>
    intro i k pfx acc P fuelU hsrc hki hk hi8 hipad hP hfu
    simp only [seg_spec] at hP hfu
    exact unpack_final_flush src P k i pfx acc fuelU hki hk hi8 hipad (by omega) hP hfu
  | succ fuel ih =>
    intro i k pfx acc P fuelU hsrc hki hk hi8 hipad hP hfu
    have hpad : padded_len src.length = 8 * ((src.length + 7) / 8) := rfl
    by_cases hi : i < src.length
    · have hi8pad : i + 8 ≤ padded_len src.length := by omega
      rcases hct : compute_tag (chunk_at src i) with ⟨tag, nz⟩
      simp only [seg_spec, if_pos hi, hct] at hP hfu
      by_cases hdense : (if (nz = 6 ∨ nz = 7) ∧ 0 < k then 8 else nz) = 8
      · rw [if_pos hdense] at hP hfu
        by_cases hkp : 0 < k
        · rw [if_pos hkp] at hP hfu
          by_cases h256 : k + 1 = 256
          · rw [if_pos h256] at hP hfu
            simp only [List.length_append, List.length_cons, List.length_nil,
              chunk_bytes_length] at hfu
            obtain ⟨f1, rfl⟩ : ∃ f1, fuelU = f1 + 1 := ⟨fuelU - 1, by omega⟩
            rw [unpack_ff_step P pfx (chunk_bytes src (i - 8 * k) (8 * 256))
              (seg_spec src fuel (i + 8) 0) acc 255 f1
              (by rw [hP]; simp [List.append_assoc]) (by omega)
              (by rw [chunk_bytes_length])]
            rw [show pfx.length + 2 + 8 * (255 + 1) =
              (pfx ++ [255, 255] ++ chunk_bytes src (i - 8 * k) (8 * 256)).length from by
                simp [chunk_bytes_length]]
            rw [ih (i + 8) 0
              (pfx ++ [255, 255] ++ chunk_bytes src (i - 8 * k) (8 * 256))
              (acc ++ chunk_bytes src (i - 8 * k) (8 * 256)) P f1
              (by omega) (by omega) (by omega) (by omega) hi8pad
              (by rw [hP]; simp [List.append_assoc]) (by omega)]
            rw [show i + 8 - 8 * 0 = i - 8 * k + 8 * 256 from by omega]
            rw [show padded_len src.length - (i - 8 * k) =
              8 * 256 + (padded_len src.length - (i - 8 * k + 8 * 256)) from by omega]
            rw [chunk_bytes_append]
            simp [List.append_assoc]
          · rw [if_neg h256] at hP hfu
            rw [show i - 8 * k = i + 8 - 8 * (k + 1) from by omega]
            exact ih (i + 8) (k + 1) pfx acc P fuelU (by omega) (by omega)
              (by omega) (by omega) hi8pad hP hfu
        · rw [if_neg hkp] at hP hfu
          have hk0 : k = 0 := by omega
          subst hk0
          rw [show i - 8 * 0 = i + 8 - 8 * 1 from by omega]
          exact ih (i + 8) 1 pfx acc P fuelU (by omega) (by omega)
            (by omega) (by omega) hi8pad hP hfu
      · rw [if_neg hdense] at hP hfu
        have hnz8 : nz ≠ 8 := by
          by_cases hc : (nz = 6 ∨ nz = 7) ∧ 0 < k
          · rw [if_pos hc] at hdense; exact absurd rfl hdense
          · rwa [if_neg hc] at hdense
        have hpair : (tag_rec (chunk_at src i), nz_count (chunk_at src i)) = (tag, nz) :=
          (compute_tag_eq (chunk_at src i)).symm.trans hct
        rw [Prod.mk.injEq] at hpair
        obtain ⟨htag, hnzeq⟩ := hpair
        subst htag
        subst hnzeq
        have hclen : (chunk_at src i).length = 8 := by simp [chunk_at]
        by_cases hkp : 0 < k
        · rw [if_pos hkp] at hP hfu
          simp only [List.length_append, List.length_cons, List.length_nil,
            chunk_bytes_length] at hfu
          obtain ⟨f1, rfl⟩ : ∃ f1, fuelU = f1 + 1 := ⟨fuelU - 1, by omega⟩
          rw [unpack_ff_step P pfx (chunk_bytes src (i - 8 * k) (8 * k))
            ([tag_rec (chunk_at src i)] ++
              (chunk_at src i).filter (fun b => b != 0) ++
              seg_spec src fuel (i + 8) 0) acc (k - 1) f1
            (by rw [hP]; simp [List.append_assoc]) (by omega)
            (by rw [chunk_bytes_length]; omega)]
          obtain ⟨f2, rfl⟩ : ∃ f2, f1 = f2 + 1 := ⟨f1 - 1, by omega⟩
          rw [show pfx.length + 2 + 8 * (k - 1 + 1) =
            (pfx ++ [255, k - 1] ++ chunk_bytes src (i - 8 * k) (8 * k)).length from by
              simp [chunk_bytes_length]; omega]
          rw [unpack_norm_step P
            (pfx ++ [255, k - 1] ++ chunk_bytes src (i - 8 * k) (8 * k))
            (seg_spec src fuel (i + 8) 0)
            (acc ++ chunk_bytes src (i - 8 * k) (8 * k)) (chunk_at src i) f2
            (by rw [hP]; simp [List.append_assoc]) hclen hnz8]
          rw [show (pfx ++ [255, k - 1] ++
              chunk_bytes src (i - 8 * k) (8 * k)).length + 1 +
              ((chunk_at src i).filter (fun b => b != 0)).length =
            (pfx ++ [255, k - 1] ++ chunk_bytes src (i - 8 * k) (8 * k) ++
              [tag_rec (chunk_at src i)] ++
              (chunk_at src i).filter (fun b => b != 0)).length from by
              simp [chunk_bytes_length]; omega]
          rw [ih (i + 8) 0
            (pfx ++ [255, k - 1] ++ chunk_bytes src (i - 8 * k) (8 * k) ++
              [tag_rec (chunk_at src i)] ++
              (chunk_at src i).filter (fun b => b != 0))
            (acc ++ chunk_bytes src (i - 8 * k) (8 * k) ++ chunk_at src i) P f2
            (by omega) (by omega) (by omega) (by omega) hi8pad
            (by rw [hP]; simp [List.append_assoc]) (by omega)]
          rw [show i + 8 - 8 * 0 = i + 8 from by omega, chunk_at_eq]
          rw [show padded_len src.length - (i - 8 * k) =
            8 * k + (8 + (padded_len src.length - (i + 8))) from by omega]
          rw [chunk_bytes_append]
          rw [show i - 8 * k + 8 * k = i from by omega]
          rw [chunk_bytes_append]
          simp [List.append_assoc]
        · rw [if_neg hkp] at hP hfu
          have hk0 : k = 0 := by omega
          subst hk0
          simp only [List.length_append, List.length_cons, List.length_nil,
            List.nil_append] at hfu
          obtain ⟨f1, rfl⟩ : ∃ f1, fuelU = f1 + 1 := ⟨fuelU - 1, by omega⟩
          rw [unpack_norm_step P pfx (seg_spec src fuel (i + 8) 0) acc
            (chunk_at src i) f1
            (by rw [hP]; simp [List.append_assoc]) hclen hnz8]
          rw [show pfx.length + 1 +
              ((chunk_at src i).filter (fun b => b != 0)).length =
            (pfx ++ [tag_rec (chunk_at src i)] ++
              (chunk_at src i).filter (fun b => b != 0)).length from by
              simp; omega]
          rw [ih (i + 8) 0
            (pfx ++ [tag_rec (chunk_at src i)] ++
              (chunk_at src i).filter (fun b => b != 0))
            (acc ++ chunk_at src i) P f1
            (by omega) (by omega) (by omega) (by omega) hi8pad
            (by rw [hP]; simp [List.append_assoc]) (by omega)]
          rw [show i + 8 - 8 * 0 = i + 8 from by omega,
            show i - 8 * 0 = i from by omega, chunk_at_eq]
          rw [show padded_len src.length - i =
            8 + (padded_len src.length - (i + 8)) from by omega]
          rw [chunk_bytes_append]
          simp [List.append_assoc]
    · rw [show seg_spec src (fuel + 1) i k =
        (if 0 < k then [255, k - 1] ++ chunk_bytes src (i - 8 * k) (8 * k)
          else []) from by rw [seg_spec, if_neg hi]] at hP hfu
      exact unpack_final_flush src P k i pfx acc fuelU hki hk hi8 hipad
        (by omega) hP hfu



/-- C2: for every byte sequence b, unpack (pack b) succeeds and
returns b extended with zero bytes to the next multiple of 8: the
result has length b.length + (8 - b.length % 8) % 8 (the smallest
multiple of 8 that is at least b.length, so it is a multiple of 8,
at least b.length and less than b.length + 8), its first b.length
bytes are exactly b, and for empty b the result is empty. -/
theorem claim_C2 (b : List Nat) :
    unpack (pack b) = .ok (b ++ List.replicate ((8 - b.length % 8) % 8) 0) ∧
    (b ++ List.replicate ((8 - b.length % 8) % 8) 0).length % 8 = 0 ∧
    b.length ≤ (b ++ List.replicate ((8 - b.length % 8) % 8) 0).length ∧
    (b ++ List.replicate ((8 - b.length % 8) % 8) 0).length < b.length + 8 ∧
    (b ++ List.replicate ((8 - b.length % 8) % 8) 0).take b.length = b ∧
    (b = [] → unpack (pack b) = .ok []) := by
  have hpad : padded_len b.length = 8 * ((b.length + 7) / 8) := rfl
  by_cases hb : b.length = 0
  · have hbnil : b = [] := List.length_eq_zero.mp hb
    subst hbnil
    exact ⟨rfl, rfl, by simp, by simp, by simp, fun _ => rfl⟩
  · have hmain : unpack (pack b) =
        .ok (b ++ List.replicate ((8 - b.length % 8) % 8) 0) := by
      have hpack : pack b = seg_spec b b.length 0 0 := by
        rw [pack]
        rw [if_neg hb]
        have := pack_loop_segs b b.length 0 [] 0 0 0 []
          (fun _ => rfl) (fun h => absurd h (by omega)) (by omega)
        rw [this]
        rfl
      rw [unpack, hpack]
      have h := unpack_segs b b.length 0 0 [] []
        (seg_spec b b.length 0 0)
        ((seg_spec b b.length 0 0).length + 1)
        (by omega) (by omega) (by omega) (by omega) (by omega)
        (by simp) (by omega)
      simp only [List.length_nil, List.nil_append] at h
      rw [h]
      rw [show (0 : Nat) - 8 * 0 = 0 from by omega, Nat.sub_zero]
      rw [chunk_bytes_full b (padded_len b.length) (by omega)]
      rw [show padded_len b.length - b.length = (8 - b.length % 8) % 8 from by omega]
    refine ⟨hmain, by simp; omega, by simp, by simp; omega, by simp, ?_⟩
    intro hnil
    rw [hnil] at hb
    exact absurd rfl hb



theorem write_u16_le_length (v : Nat) : (write_u16_le v).length = 2 := rfl

theorem write_u32_le_length (v : Nat) : (write_u32_le v).length = 4 := rfl

theorem write_u64_le_length (v : Nat) : (write_u64_le v).length = 8 := rfl

theorem read_u16_le_write (v : Nat) (rest : List Nat) :
    read_u16_le (write_u16_le v ++ rest) = v % 65536 := by
  show v % 256 + 256 * (v / 256 % 256) = v % 65536
  omega

theorem read_u32_le_write (v : Nat) (rest : List Nat) :
    read_u32_le (write_u32_le v ++ rest) = v % 4294967296 := by
  show v % 256 + 256 * (v / 256 % 256) + 65536 * (v / 65536 % 256) +
    16777216 * (v / 16777216 % 256) = v % 4294967296
  omega

theorem read_u32_le_write64_low (v : Nat) (rest : List Nat) :
    read_u32_le (write_u64_le v ++ rest) = v % 4294967296 := by
  show v % 256 + 256 * (v / 256 % 256) + 65536 * (v / 65536 % 256) +
    16777216 * (v / 16777216 % 256) = v % 4294967296
  omega

theorem read_u32_le_write64_high (v : Nat) (rest : List Nat) :
    read_u32_le ((write_u64_le v ++ rest).drop 4) = v / 4294967296 % 4294967296 := by
  show v / 4294967296 % 256 + 256 * (v / 1099511627776 % 256) +
    65536 * (v / 281474976710656 % 256) +
    16777216 * (v / 72057594037927936 % 256) = v / 4294967296 % 4294967296
  omega

theorem u64_of_i64_lt (x : Int) : u64_of_i64 x < 18446744073709551616 := by
  unfold u64_of_i64
  omega

theorem i64_u64_roundtrip (x : Int) (hlo : -9223372036854775808 ≤ x)
    (hhi : x < 9223372036854775808) : i64_of_u64 (u64_of_i64 x) = x := by
  unfold i64_of_u64 u64_of_i64
  split <;> omega

theorem i64_expand_roundtrip32 (x : Int) (h32 : i32_of_i64 x = x) :
    i64_of_u64 (expand64 (u64_of_i64 x % 4294967296)) = x := by
  unfold i32_of_i64 at h32
  unfold i64_of_u64 expand64 u64_of_i64
  split <;> split <;> omega

theorem u64_split_recombine (u : Nat) (h : u < 18446744073709551616) :
    u % 4294967296 + 4294967296 * (u / 4294967296 % 4294967296) = u := by
  omega

theorem read_u16_flatMap (ds : List Nat) :
    ∀ (i : Nat) (pre blob : List Nat), i < ds.length → (∀ x ∈ ds, x < 65536) →
      read_u16_le ((pre ++ ds.flatMap write_u16_le ++ blob).drop (pre.length + 2 * i)) =
        ds.getD i 0 := by
  induction ds with
  | nil => intro i pre blob hi; simp at hi
  | cons d rest ih =>
    intro i pre blob hi hlt
    cases i with
    | zero =>
      have h1 : pre.length + 2 * 0 = pre.length := by omega
      rw [h1]
      have h2 : pre ++ (d :: rest).flatMap write_u16_le ++ blob =
          pre ++ (write_u16_le d ++ (rest.flatMap write_u16_le ++ blob)) := by
        simp [List.flatMap_cons, List.append_assoc]
      rw [h2, List.drop_left, read_u16_le_write]
      have hd : d < 65536 := hlt d (by simp)
      simp [List.getD]
      omega
    | succ i =>
      have h2 : pre ++ (d :: rest).flatMap write_u16_le ++ blob =
          (pre ++ write_u16_le d) ++ rest.flatMap write_u16_le ++ blob := by
        simp [List.flatMap_cons, List.append_assoc]
      have h3 : pre.length + 2 * (i + 1) = (pre ++ write_u16_le d).length + 2 * i := by
        simp [write_u16_le_length]
        omega
      rw [h2, h3, ih i (pre ++ write_u16_le d) blob (by simpa using hi)
        (fun x hx => hlt x (by simp [hx]))]
      rfl

theorem flatMap_const_length {α : Type} (f : α → List Nat) (k : Nat)
    (hf : ∀ a, (f a).length = k) :
    ∀ l : List α, (l.flatMap f).length = k * l.length := by
  intro l
  induction l with
  | nil => simp
  | cons a rest ih =>
    simp [List.flatMap_cons, ih, hf a]
    ring

theorem flatMap_drop_elem {α : Type} (f : α → List Nat) (k : Nat) (d : α)
    (hf : ∀ a, (f a).length = k) :
    ∀ (l : List α) (i : Nat), i < l.length →
      (l.flatMap f).drop (k * i) = f (l.getD i d) ++ (l.drop (i + 1)).flatMap f := by
  intro l
  induction l with
  | nil => intro i hi; simp at hi
  | cons a rest ih =>
    intro i hi
    cases i with
    | zero => simp [List.flatMap_cons]
    | succ i =>
      have h1 : (a :: rest).flatMap f = f a ++ rest.flatMap f := by
        simp [List.flatMap_cons]
      rw [h1]
      have h2 : k * (i + 1) = (f a).length + k * i := by rw [hf a]; ring
      rw [h2, drop_append_plus, ih i (by simpa using hi)]
      rfl



theorem maxn_loop_acc (fields : List Field) :
    ∀ (last : Int) (acc : Nat),
      maxn_loop fields last acc = acc + maxn_loop fields last 0 := by
  induction fields with
  | nil => intro last acc; simp [maxn_loop]
  | cons f rest ih =>
    intro last acc
    simp only [maxn_loop]
    rw [ih ((f.tag : Int)) (if last + 1 < (f.tag : Int) then acc + 1 else acc),
        ih ((f.tag : Int)) (if last + 1 < (f.tag : Int) then 0 + 1 else 0)]
    by_cases hg : last + 1 < (f.tag : Int) <;> simp [hg] <;> omega

theorem gap_count_cons (f : Field) (rest : List Field) (last : Int) :
    gap_count (f :: rest) last =
      (if last + 1 < (f.tag : Int) then 1 else 0) + gap_count rest (f.tag : Int) := by
  simp only [gap_count, maxn_loop]
  rw [maxn_loop_acc]

theorem gap_count_first (rest : List Field) (l1 l2 : Int) :
    gap_count rest l1 ≤ gap_count rest l2 + 1 := by
  cases rest with
  | nil => simp [gap_count, maxn_loop]
  | cons g r =>
    rw [gap_count_cons, gap_count_cons]
    by_cases h1 : l1 + 1 < (g.tag : Int) <;> by_cases h2 : l2 + 1 < (g.tag : Int) <;>
      simp [h1, h2] <;> omega

theorem countDesc_le (m : List (String × SprotoValue)) :
    ∀ (fs : List Field) (last : Int),
      countDesc m fs last ≤ fs.length + gap_count fs last := by
  intro fs
  induction fs with
  | nil => intro last; simp [countDesc, gap_count, maxn_loop]
  | cons f rest ih =>
    intro last
    rw [gap_count_cons]
    cases hlk : lookupA m f.name with
    | none =>
      simp only [countDesc, hlk]
      have h1 := ih last
      have h2 := gap_count_first rest last (f.tag : Int)
      by_cases hg : last + 1 < (f.tag : Int) <;> simp [hg] <;> omega
    | some x =>
      simp only [countDesc, hlk]
      have h1 := ih ((f.tag : Int))
      by_cases hg : last + 1 < (f.tag : Int) <;> simp [hg] <;> omega

theorem maxn_eq (fields : List Field) :
    (compute_base_tag_and_maxn fields).2 = fields.length + gap_count fields (-1) := by
  cases fields with
  | nil => simp [compute_base_tag_and_maxn, gap_count, maxn_loop]
  | cons f rest =>
    simp only [compute_base_tag_and_maxn]
    rw [maxn_loop_acc]
    rfl

theorem len_gap_le (fs : List Field) :
    ∀ (last : Int), sorted_by_tag fs = true → last < 32768 →
      (∀ f ∈ fs, last < (f.tag : Int) ∧ f.tag < 32768) →
      (fs.length : Int) + gap_count fs last ≤ 32768 - (last + 1) := by
  induction fs with
  | nil => intro last _ hl _; simp [gap_count, maxn_loop]; omega
  | cons f rest ih =>
    intro last hs hl hf
    have hp := (sorted_by_tag_pairwise (f :: rest)).mp hs
    have hsr : sorted_by_tag rest = true :=
      (sorted_by_tag_pairwise rest).mpr (List.Pairwise.of_cons hp)
    have hft := hf f (by simp)
    have hrest : ∀ g ∈ rest, (f.tag : Int) < (g.tag : Int) ∧ g.tag < 32768 := by
      intro g hg
      have h1 := List.rel_of_pairwise_cons hp hg
      have h2 := hf g (by simp [hg])
      exact ⟨by exact_mod_cast h1, h2.2⟩
    have hihr := ih ((f.tag : Int)) hsr (by exact_mod_cast hft.2) hrest
    rw [gap_count_cons]
    by_cases hg : last + 1 < (f.tag : Int) <;> simp [hg] <;> push_cast <;> omega

theorem insertA_append (result : List (String × SprotoValue)) (k : String)
    (v : SprotoValue) (h : ∀ p ∈ result, p.1 ≠ k) :
    insertA result k v = result ++ [(k, v)] := by
  induction result with
  | nil => rfl
  | cons p rest ih =>
    simp only [insertA]
    rw [if_neg (h p (by simp))]
    rw [ih (fun q hq => h q (by simp [hq]))]
    rfl

theorem wf_type_of_mem (S : Sproto) (t : SprotoType) (hwf : wf_schema S = true)
    (ht : t ∈ S.types_list) : wf_type S t = true := by
  simp only [wf_schema, List.all_eq_true] at hwf
  exact hwf t ht

theorem tags_lt_of_mem (S : Sproto) (t : SprotoType)
    (hsk : tags_in_skip_range S = true) (ht : t ∈ S.types_list) :
    ∀ f ∈ t.fields, f.tag < 32768 := by
  simp only [tags_in_skip_range, List.all_eq_true] at hsk
  intro f hf
  have := hsk t ht f hf
  simpa using this

theorem wf_type_parts (S : Sproto) (t : SprotoType) (h : wf_type S t = true) :
    sorted_by_tag t.fields = true ∧ names_unique t.fields = true ∧
    t.base_tag = (compute_base_tag_and_maxn t.fields).1 ∧
    t.maxn = (compute_base_tag_and_maxn t.fields).2 ∧
    ∀ f ∈ t.fields, f.tag < 65536 ∧
      (∀ idx, f.field_type = .Struct idx → idx < S.types_list.length) := by
  simp only [wf_type, Bool.and_eq_true, List.all_eq_true] at h
  obtain ⟨⟨⟨⟨h1, h2⟩, h3⟩, h4⟩, h5⟩ := h
  refine ⟨h1, h2, of_decide_eq_true h3, of_decide_eq_true h4, ?_⟩
  intro f hf
  have h6 := h5 f hf
  refine ⟨by simpa using h6.1, ?_⟩
  intro idx hidx
  have h7 := h6.2
  rw [hidx] at h7
  simpa using h7

theorem find?_of_mem_sorted (l : List Field)
    (hp : List.Pairwise (fun a b : Field => a.tag < b.tag) l)
    (f : Field) (hf : f ∈ l) :
    l.find? (fun g => g.tag == f.tag) = some f := by
  rcases List.mem_iff_getElem.mp hf with ⟨i, hi, hfi⟩
  have h1 := find?_tag_at l hp i hi f.tag
    (by rw [List.getD_eq_getElem l default hi, hfi])
  rw [List.getD_eq_getElem l default hi, hfi] at h1
  exact h1



theorem exists_preimage_list {β : Type} (g : β → SprotoValue) (P : β → Prop)
    (elems : List SprotoValue)
    (h : ∀ e ∈ elems, ∃ b : β, e = g b ∧ P b) :
    ∃ bs : List β, elems = bs.map g ∧ ∀ b ∈ bs, P b := by
  induction elems with
  | nil => exact ⟨[], rfl, by simp⟩
  | cons e rest ih =>
    obtain ⟨b, he, hb⟩ := h e (by simp)
    obtain ⟨bs, hrest, hall⟩ := ih (fun x hx => h x (by simp [hx]))
    refine ⟨b :: bs, by simp [he, hrest], ?_⟩
    intro c hc
    rcases List.mem_cons.mp hc with h1 | h2
    · subst h1; exact hb
    · exact hall c h2

theorem encode_int_collect_spec (f : Field) :
    ∀ (ns : List Int) (acc : List Nat) (need : Bool),
      encode_integer_array_collect f false (ns.map SprotoValue.Integer) acc need =
        .ok (acc ++ ns.map u64_of_i64,
          need || ns.any (fun n => decide (i32_of_i64 n ≠ n))) := by
  intro ns
  induction ns with
  | nil => intro acc need; simp [encode_integer_array_collect]
  | cons n rest ih =>
    intro acc need
    simp only [List.map_cons, encode_integer_array_collect]
    simp only [Bool.false_eq_true, if_false, bind, Except.bind]
    rw [ih]
    simp only [List.any_cons]
    by_cases hn : i32_of_i64 n ≠ n
    · simp [hn, List.append_assoc]
    · simp [hn, List.append_assoc]

theorem encode_double_collect_spec (f : Field) :
    ∀ (bs : List Nat) (acc : List Nat),
      encode_integer_array_collect f true (bs.map SprotoValue.Double) acc true =
        .ok (acc ++ bs, true) := by
  intro bs
  induction bs with
  | nil => intro acc; simp [encode_integer_array_collect]
  | cons b rest ih =>
    intro acc
    simp only [List.map_cons, encode_integer_array_collect]
    simp only [if_true, bind, Except.bind]
    rw [ih]
    simp [List.append_assoc]

theorem encode_bool_collect_spec :
    ∀ (bs : List Bool) (acc : List Nat),
      encode_boolean_array_collect (bs.map SprotoValue.Boolean) acc =
        .ok (acc ++ bs.map (fun b => if b then 1 else 0)) := by
  intro bs
  induction bs with
  | nil => intro acc; simp [encode_boolean_array_collect]
  | cons b rest ih =>
    intro acc
    simp only [List.map_cons, encode_boolean_array_collect]
    rw [ih]
    simp [List.append_assoc]

theorem region_read_sz (content rest : List Nat)
    (h : content.length < 4294967296) :
    read_u32_le ((write_u32_le content.length ++ content) ++ rest) =
      content.length := by
  rw [List.append_assoc, read_u32_le_write]
  omega

theorem region_take_content (content : List Nat) :
    ((write_u32_le content.length ++ content).drop SIZEOF_LENGTH).take
      content.length = content := by
  rw [show SIZEOF_LENGTH = (write_u32_le content.length).length from rfl,
    List.drop_left, List.take_length]



theorem read_u32_le_write_nil (v : Nat) :
    read_u32_le (write_u32_le v) = v % 4294967296 := by
  show v % 256 + 256 * (v / 256 % 256) + 65536 * (v / 65536 % 256) +
    16777216 * (v / 16777216 % 256) = v % 4294967296
  omega

theorem read_u32_le_write64_low_nil (v : Nat) :
    read_u32_le (write_u64_le v) = v % 4294967296 := by
  show v % 256 + 256 * (v / 256 % 256) + 65536 * (v / 65536 % 256) +
    16777216 * (v / 16777216 % 256) = v % 4294967296
  omega

theorem read_u32_le_write64_high_nil (v : Nat) :
    read_u32_le ((write_u64_le v).drop 4) = v / 4294967296 % 4294967296 := by
  show v / 4294967296 % 256 + 256 * (v / 1099511627776 % 256) +
    65536 * (v / 281474976710656 % 256) +
    16777216 * (v / 72057594037927936 % 256) = v / 4294967296 % 4294967296
  omega

theorem region_read (L : Nat) (c : List Nat) (hL : L < 4294967296) :
    read_u32_le (write_u32_le L ++ c) = L := by
  rw [read_u32_le_write]
  omega

theorem region_slice (L : Nat) (c rest : List Nat) (hc : c.length = L) :
    ((write_u32_le L ++ (c ++ rest)).drop SIZEOF_LENGTH).take L = c := by
  rw [show SIZEOF_LENGTH = (write_u32_le L).length from rfl, List.drop_left, ← hc,
    List.take_left]

theorem region_slice_nil (L : Nat) (c : List Nat) (hc : c.length = L) :
    ((write_u32_le L ++ c).drop SIZEOF_LENGTH).take L = c := by
  rw [show SIZEOF_LENGTH = (write_u32_le L).length from rfl, List.drop_left, ← hc,
    List.take_length]



theorem encode_field_ok (S : Sproto) (fuel : Nat) (f : Field) (x : SprotoValue)
    (IH : ∀ sub v2, sub ∈ S.types_list → validAux fuel S sub v2 = true →
      size_fitsAux fuel S sub v2 = true →
      ∃ bs, encodeAux fuel S sub v2 = .ok bs ∧
        ∀ df, bs.length + 1 ≤ df →
          decodeAux df S sub bs = .ok (restrictAux fuel S sub v2))
    (harr : f.is_array = false)
    (hvalid : valid_shape (validAux fuel S) S f x = true)
    (hfits : fits_shape (size_fitsAux fuel S) (encodeAux fuel S) S f x = true) :
    (∃ iv, encode_field S (encodeAux fuel S) f x = .ok (.Inline iv) ∧
      2 ≤ iv ∧ iv < 65536 ∧ iv % 2 = 0 ∧
      decode_inline_value f (iv / 2 - 1) =
        .ok (restrict_one (restrictAux fuel S) S f x)) ∨
    (∃ L content, encode_field S (encodeAux fuel S) f x =
        .ok (.Data (write_u32_le L ++ content)) ∧
      content.length = L ∧ L < 4294967296 ∧
      ∀ df2, L + 1 ≤ df2 →
        decode_field_from_data S (decodeAux df2 S) f (write_u32_le L ++ content) =
          .ok (restrict_one (restrictAux fuel S) S f x)) := by
  simp only [valid_shape, harr, Bool.false_eq_true, if_false] at hvalid
  simp only [fits_shape, harr, Bool.false_eq_true, if_false] at hfits
  have hrest : restrict_one (restrictAux fuel S) S f x =
      (match f.field_type with
        | .Struct idx => restrictAux fuel S (S.types_list.getD idx default) x
        | _ => x) := by
    simp only [restrict_one, harr, Bool.false_eq_true, if_false]
  cases hft : f.field_type with
  | Integer =>
    rw [hft] at hvalid
    rw [hft] at hrest
    cases x with
    | Integer n =>
      simp only [decide_eq_true_eq] at hvalid
      obtain ⟨hlo, hhi⟩ := hvalid
      simp only [encode_field, hft, bind, Except.bind, ite_self]
      by_cases hinl : u64_of_i64 n = u64_of_i64 n % 4294967296 ∧
          u64_of_i64 n % 4294967296 < 32767
      · rw [if_pos hinl]
        left
        have hn0 : 0 ≤ n ∧ n < 32767 := by
          unfold u64_of_i64 at hinl
          constructor <;> omega
        have huv : u64_of_i64 n = n.toNat := by unfold u64_of_i64; omega
        have hiv : (u64_of_i64 n % 4294967296 + 1) * 2 % 65536 =
            (n.toNat + 1) * 2 := by rw [huv]; omega
        refine ⟨(u64_of_i64 n % 4294967296 + 1) * 2 % 65536, rfl,
          by rw [hiv]; omega, by rw [hiv]; omega, by rw [hiv]; omega, ?_⟩
        simp only [decode_inline_value, hft, hrest]
        rw [show (u64_of_i64 n % 4294967296 + 1) * 2 % 65536 / 2 - 1 = n.toNat from by
          rw [hiv]; omega]
        rw [Int.toNat_of_nonneg hn0.1]
      · rw [if_neg hinl]
        by_cases h32 : i32_of_i64 n = n
        · rw [if_pos h32]
          right
          refine ⟨SIZEOF_INT32, write_u32_le (u64_of_i64 n), rfl, rfl, by
            simp [SIZEOF_INT32], ?_⟩
          intro df2 hdf2
          simp only [decode_field_from_data, hft, hrest]
          rw [region_read SIZEOF_INT32 _ (by simp [SIZEOF_INT32])]
          rw [if_pos rfl]
          rw [region_slice_nil SIZEOF_INT32 (write_u32_le (u64_of_i64 n)) rfl]
          rw [if_neg (by simp : ¬ FieldType.Integer = FieldType.Double)]
          rw [show read_u32_le (write_u32_le (u64_of_i64 n)) =
            u64_of_i64 n % 4294967296 from read_u32_le_write_nil _]
          rw [i64_expand_roundtrip32 n h32]
        · rw [if_neg h32]
          right
          refine ⟨SIZEOF_INT64, write_u64_le (u64_of_i64 n), rfl, rfl, by
            simp [SIZEOF_INT64], ?_⟩
          intro df2 hdf2
          simp only [decode_field_from_data, hft, hrest]
          rw [region_read SIZEOF_INT64 _ (by simp [SIZEOF_INT64])]
          rw [if_neg (by simp [SIZEOF_INT64, SIZEOF_INT32] :
            ¬ SIZEOF_INT64 = SIZEOF_INT32)]
          rw [if_pos rfl]
          rw [region_slice_nil SIZEOF_INT64 (write_u64_le (u64_of_i64 n)) rfl]
          rw [if_neg (by simp : ¬ FieldType.Integer = FieldType.Double)]
          rw [show SIZEOF_INT32 = 4 from rfl]
          rw [read_u32_le_write64_low_nil, read_u32_le_write64_high_nil]
          rw [u64_split_recombine (u64_of_i64 n) (u64_of_i64_lt n)]
          rw [i64_u64_roundtrip n hlo hhi]
    | Boolean b => simp at hvalid
    | Str sv => simp at hvalid
    | Binary bv => simp at hvalid
    | Double dv => simp at hvalid
    | Struct mv => simp at hvalid
    | Array av => simp at hvalid
  | Boolean =>
    rw [hft] at hvalid
    rw [hft] at hrest
    cases x with
    | Boolean b =>
      simp only [encode_field, hft, bind, Except.bind, ite_self]
      left
      cases b
      · rw [if_pos (by decide : u64_of_i64 (if false = true then 1 else 0) =
          u64_of_i64 (if false = true then 1 else 0) % 4294967296 ∧
          u64_of_i64 (if false = true then 1 else 0) % 4294967296 < 32767)]
        refine ⟨_, rfl, by decide, by decide, by decide, ?_⟩
        simp only [decode_inline_value, hft, hrest]
        rfl
      · rw [if_pos (by decide : u64_of_i64 (if true = true then 1 else 0) =
          u64_of_i64 (if true = true then 1 else 0) % 4294967296 ∧
          u64_of_i64 (if true = true then 1 else 0) % 4294967296 < 32767)]
        refine ⟨_, rfl, by decide, by decide, by decide, ?_⟩
        simp only [decode_inline_value, hft, hrest]
        rfl
    | Integer n => simp at hvalid
    | Str sv => simp at hvalid
    | Binary bv => simp at hvalid
    | Double dv => simp at hvalid
    | Struct mv => simp at hvalid
    | Array av => simp at hvalid
  | Double =>
    rw [hft] at hvalid
    rw [hft] at hrest
    cases x with
    | Double bits =>
      simp only [decide_eq_true_eq] at hvalid
      simp only [encode_field, hft, bind, Except.bind]
      right
      refine ⟨SIZEOF_INT64, write_u64_le bits, rfl, rfl, by simp [SIZEOF_INT64], ?_⟩
      intro df2 hdf2
      simp only [decode_field_from_data, hft, hrest]
      rw [region_read SIZEOF_INT64 _ (by simp [SIZEOF_INT64])]
      rw [if_neg (by simp [SIZEOF_INT64, SIZEOF_INT32] : ¬ SIZEOF_INT64 = SIZEOF_INT32)]
      rw [if_pos rfl]
      rw [region_slice_nil SIZEOF_INT64 (write_u64_le bits) rfl]
      rw [if_pos trivial]
      rw [show SIZEOF_INT32 = 4 from rfl]
      rw [read_u32_le_write64_low_nil, read_u32_le_write64_high_nil]
      rw [u64_split_recombine bits hvalid]
    | Integer n => simp at hvalid
    | Boolean b => simp at hvalid
    | Str sv => simp at hvalid
    | Binary bv => simp at hvalid
    | Struct mv => simp at hvalid
    | Array av => simp at hvalid
  | String =>
    rw [hft] at hvalid
    rw [hft] at hrest
    rw [hft] at hfits
    cases x with
    | Str sv =>
      simp only [decide_eq_true_eq] at hfits
      simp only [encode_field, hft]
      right
      refine ⟨sv.length, sv, rfl, rfl, hfits, ?_⟩
      intro df2 hdf2
      simp only [decode_field_from_data, hft, hrest]
      rw [region_read sv.length _ hfits]
      rw [region_slice_nil sv.length _ rfl]
      rw [if_pos hvalid]
    | Integer n => simp at hvalid
    | Boolean b => simp at hvalid
    | Binary bv => simp at hvalid
    | Double dv => simp at hvalid
    | Struct mv => simp at hvalid
    | Array av => simp at hvalid
  | Binary =>
    rw [hft] at hvalid
    rw [hft] at hrest
    rw [hft] at hfits
    cases x with
    | Binary bv =>
      simp only [decide_eq_true_eq] at hfits
      simp only [encode_field, hft]
      right
      refine ⟨bv.length, bv, rfl, rfl, hfits, ?_⟩
      intro df2 hdf2
      simp only [decode_field_from_data, hft, hrest]
      rw [region_read bv.length _ hfits]
      rw [region_slice_nil bv.length _ rfl]
    | Integer n => simp at hvalid
    | Boolean b => simp at hvalid
    | Str sv => simp at hvalid
    | Double dv => simp at hvalid
    | Struct mv => simp at hvalid
    | Array av => simp at hvalid
  | Struct idx =>
    rw [hft] at hrest
    cases hidx : S.types_list[idx]? with
    | none =>
      simp only [hft, hidx] at hvalid
      simp at hvalid
    | some sub =>
      simp only [hft, hidx] at hvalid hfits
      have hmem : sub ∈ S.types_list := by
        have hlt : idx < S.types_list.length := by
          by_contra hge
          rw [List.getElem?_eq_none (by omega)] at hidx
          exact Option.noConfusion hidx
        rw [List.getElem?_eq_getElem hlt] at hidx
        have hsub : S.types_list[idx] = sub := Option.some.injEq _ _ |>.mp hidx
        rw [← hsub]
        exact List.getElem_mem hlt
      rw [Bool.and_eq_true] at hfits
      obtain ⟨bs, henc, hdec⟩ := IH sub x hmem hvalid hfits.1
      have hbnd : bs.length < 4294967296 := by
        have h2 := hfits.2
        rw [henc] at h2
        simpa using h2
      right
      refine ⟨bs.length, bs, ?_, rfl, hbnd, ?_⟩
      · simp only [encode_field, hft, hidx, bind, Except.bind, henc]
      · intro df2 hdf2
        simp only [decode_field_from_data, hft, hidx, hrest]
        rw [region_read bs.length _ hbnd]
        rw [region_slice_nil bs.length _ rfl]
        rw [hdec df2 hdf2]
        have hgetd : S.types_list.getD idx default = sub := by
          simp [List.getD, hidx]
        rw [hgetd]


theorem int_elem8 (us : List Nat) (hus : ∀ u ∈ us, u < 18446744073709551616)
    (i : Nat) (hi : i < us.length) :
    int_array_elem false SIZEOF_INT64 (us.flatMap write_u64_le) i =
      .Integer (i64_of_u64 (us.getD i 0)) := by
  simp only [int_array_elem, Bool.false_eq_true, if_false]
  rw [if_neg (by simp [SIZEOF_INT64, SIZEOF_INT32] : ¬ SIZEOF_INT64 = SIZEOF_INT32)]
  have hdrop := flatMap_drop_elem write_u64_le 8 0 write_u64_le_length us i hi
  have hdrop2 : (us.flatMap write_u64_le).drop (4 + 8 * i) =
      (write_u64_le (us.getD i 0) ++ (us.drop (i + 1)).flatMap write_u64_le).drop 4 := by
    rw [← hdrop, List.drop_drop]
    congr 1
    omega
  rw [show i * SIZEOF_INT64 = 8 * i from by simp [SIZEOF_INT64]; ring]
  rw [show 8 * i + SIZEOF_INT32 = 4 + 8 * i from by simp [SIZEOF_INT32]; omega]
  rw [hdrop, hdrop2]
  rw [read_u32_le_write64_low, read_u32_le_write64_high]
  rw [u64_split_recombine (us.getD i 0) (hus _ (by
    rw [List.getD_eq_getElem us 0 hi]
    exact List.getElem_mem hi))]

theorem int_elem4 (us : List Nat) (i : Nat) (hi : i < us.length) :
    int_array_elem false SIZEOF_INT32 (us.flatMap write_u32_le) i =
      .Integer (i64_of_u64 (expand64 (us.getD i 0 % 4294967296))) := by
  simp only [int_array_elem, Bool.false_eq_true, if_false]
  rw [if_pos trivial]
  have hdrop := flatMap_drop_elem write_u32_le 4 0 write_u32_le_length us i hi
  rw [show i * SIZEOF_INT32 = 4 * i from by simp [SIZEOF_INT32]; ring]
  rw [hdrop]
  rw [read_u32_le_write]

theorem double_elem8 (us : List Nat) (hus : ∀ u ∈ us, u < 18446744073709551616)
    (i : Nat) (hi : i < us.length) :
    int_array_elem true SIZEOF_INT64 (us.flatMap write_u64_le) i =
      .Double (us.getD i 0) := by
  simp only [int_array_elem, if_true]
  rw [if_neg (by simp [SIZEOF_INT64, SIZEOF_INT32] : ¬ SIZEOF_INT64 = SIZEOF_INT32)]
  have hdrop := flatMap_drop_elem write_u64_le 8 0 write_u64_le_length us i hi
  have hdrop2 : (us.flatMap write_u64_le).drop (4 + 8 * i) =
      (write_u64_le (us.getD i 0) ++ (us.drop (i + 1)).flatMap write_u64_le).drop 4 := by
    rw [← hdrop, List.drop_drop]
    congr 1
    omega
  rw [show i * SIZEOF_INT64 = 8 * i from by simp [SIZEOF_INT64]; ring]
  rw [show 8 * i + SIZEOF_INT32 = 4 + 8 * i from by simp [SIZEOF_INT32]; omega]
  rw [hdrop, hdrop2]
  rw [read_u32_le_write64_low, read_u32_le_write64_high]
  rw [u64_split_recombine (us.getD i 0) (hus _ (by
    rw [List.getD_eq_getElem us 0 hi]
    exact List.getElem_mem hi))]


theorem int_array_roundtrip (S : Sproto)
    (recur : SprotoType → List Nat → DResult SprotoValue) (f : Field)
    (hft : f.field_type = .Integer) (ns : List Int) (hne : ns ≠ [])
    (hrange : ∀ n ∈ ns, -9223372036854775808 ≤ n ∧ n < 9223372036854775808)
    (hfit : 1 + ns.length *
      (if ns.any (fun n => decide (i32_of_i64 n ≠ n)) then SIZEOF_INT64
       else SIZEOF_INT32) < 4294967296) :
    ∃ L content,
      encode_integer_array f (ns.map SprotoValue.Integer) =
        .ok (write_u32_le L ++ content) ∧
      content.length = L ∧ L < 4294967296 ∧ 0 < L ∧
      decode_array S recur f (write_u32_le L ++ content) =
        .ok (.Array (ns.map SprotoValue.Integer)) := by
  have hdeq : (decide (f.field_type = FieldType.Double)) = false := by
    rw [hft]; rfl
  by_cases hneed : ns.any (fun n => decide (i32_of_i64 n ≠ n)) = true
  · rw [if_pos hneed] at hfit
    refine ⟨1 + ns.length * SIZEOF_INT64,
      8 :: (ns.map u64_of_i64).flatMap write_u64_le, ?_, ?_, ?_, ?_, ?_⟩
    · simp only [encode_integer_array, hdeq, Bool.false_eq_true, if_false]
      rw [encode_int_collect_spec]
      simp only [bind, Except.bind, List.nil_append, Bool.false_or, hneed,
        if_true, List.length_map]
      simp [SIZEOF_INT64, List.append_assoc]
    · simp only [List.length_cons,
        flatMap_const_length write_u64_le 8 write_u64_le_length,
        List.length_map, SIZEOF_INT64]
      omega
    · exact hfit
    · omega
    · have hclen : (8 :: (ns.map u64_of_i64).flatMap write_u64_le).length =
          1 + ns.length * SIZEOF_INT64 := by
        simp only [List.length_cons,
          flatMap_const_length write_u64_le 8 write_u64_le_length,
          List.length_map, SIZEOF_INT64]
        omega
      simp only [decode_array, hft]
      rw [region_read _ _ hfit]
      rw [if_neg (by omega : ¬ 1 + ns.length * SIZEOF_INT64 = 0)]
      rw [region_slice_nil _ _ hclen]
      simp only [decode_integer_array, List.isEmpty_cons, Bool.false_eq_true,
        if_false, List.getD_cons_zero, List.drop_one, List.tail_cons]
      rw [if_neg (by decide : ¬ ((8:Nat) ≠ SIZEOF_INT32 ∧ (8:Nat) ≠ SIZEOF_INT64))]
      have hbody : ((ns.map u64_of_i64).flatMap write_u64_le).length = 8 * ns.length := by
        rw [flatMap_const_length write_u64_le 8 write_u64_le_length, List.length_map]
      rw [if_neg (by rw [hbody]; omega : ¬ ((ns.map u64_of_i64).flatMap write_u64_le).length % 8 ≠ 0)]
      rw [hbody, show 8 * ns.length / 8 = ns.length from by omega, hdeq]
      rw [Except.ok.injEq]
      rw [show SprotoValue.Array (ns.map SprotoValue.Integer) =
        SprotoValue.Array (ns.map SprotoValue.Integer) from rfl]
      congr 1
      apply List.ext_getElem
      · simp
      · intro i hi1 hi2
        have hi : i < ns.length := by simpa using hi1
        simp only [List.getElem_map, List.getElem_range]
        have hus : ∀ u ∈ ns.map u64_of_i64, u < 18446744073709551616 := by
          intro u hu
          rcases List.mem_map.mp hu with ⟨n, hn, rfl⟩
          exact u64_of_i64_lt n
        have he : int_array_elem false 8 ((ns.map u64_of_i64).flatMap write_u64_le) i =
            .Integer (i64_of_u64 ((ns.map u64_of_i64).getD i 0)) :=
          int_elem8 (ns.map u64_of_i64) hus i (by simpa using hi)
        rw [he]
        rw [List.getD_eq_getElem _ 0 (by simpa using hi), List.getElem_map]
        rw [i64_u64_roundtrip (ns[i]) (hrange _ (List.getElem_mem hi)).1
          (hrange _ (List.getElem_mem hi)).2]
  · rw [if_neg hneed] at hfit
    have h32 : ∀ n ∈ ns, i32_of_i64 n = n := by
      intro n hn
      by_contra hc
      apply hneed
      rw [List.any_eq_true]
      exact ⟨n, hn, by simpa using hc⟩
    refine ⟨1 + ns.length * SIZEOF_INT32,
      4 :: (ns.map u64_of_i64).flatMap write_u32_le, ?_, ?_, ?_, ?_, ?_⟩
    · simp only [encode_integer_array, hdeq, Bool.false_eq_true, if_false]
      rw [encode_int_collect_spec]
      simp only [bind, Except.bind, List.nil_append, Bool.false_or,
        Bool.not_eq_true] at *
      rw [hneed]
      simp only [Bool.false_eq_true, if_false, List.length_map]
      simp [SIZEOF_INT32, List.append_assoc]
    · simp only [List.length_cons,
        flatMap_const_length write_u32_le 4 write_u32_le_length,
        List.length_map, SIZEOF_INT32]
      omega
    · exact hfit
    · omega
    · have hclen : (4 :: (ns.map u64_of_i64).flatMap write_u32_le).length =
          1 + ns.length * SIZEOF_INT32 := by
        simp only [List.length_cons,
          flatMap_const_length write_u32_le 4 write_u32_le_length,
          List.length_map, SIZEOF_INT32]
        omega
      simp only [decode_array, hft]
      rw [region_read _ _ hfit]
      rw [if_neg (by omega : ¬ 1 + ns.length * SIZEOF_INT32 = 0)]
      rw [region_slice_nil _ _ hclen]
      simp only [decode_integer_array, List.isEmpty_cons, Bool.false_eq_true,
        if_false, List.getD_cons_zero, List.drop_one, List.tail_cons]
      rw [if_neg (by decide : ¬ ((4:Nat) ≠ SIZEOF_INT32 ∧ (4:Nat) ≠ SIZEOF_INT64))]
      have hbody : ((ns.map u64_of_i64).flatMap write_u32_le).length = 4 * ns.length := by
        rw [flatMap_const_length write_u32_le 4 write_u32_le_length, List.length_map]
      rw [if_neg (by rw [hbody]; omega : ¬ ((ns.map u64_of_i64).flatMap write_u32_le).length % 4 ≠ 0)]
      rw [hbody, show 4 * ns.length / 4 = ns.length from by omega, hdeq]
      rw [Except.ok.injEq]
      congr 1
      apply List.ext_getElem
      · simp
      · intro i hi1 hi2
        have hi : i < ns.length := by simpa using hi1
        simp only [List.getElem_map, List.getElem_range]
        have he : int_array_elem false 4 ((ns.map u64_of_i64).flatMap write_u32_le) i =
            .Integer (i64_of_u64 (expand64 ((ns.map u64_of_i64).getD i 0 % 4294967296))) :=
          int_elem4 (ns.map u64_of_i64) i (by simpa using hi)
        rw [he]
        rw [List.getD_eq_getElem _ 0 (by simpa using hi), List.getElem_map]
        rw [i64_expand_roundtrip32 (ns[i]) (h32 _ (List.getElem_mem hi))]


theorem double_array_roundtrip (S : Sproto)
    (recur : SprotoType → List Nat → DResult SprotoValue) (f : Field)
    (hft : f.field_type = .Double) (bits : List Nat) (hne : bits ≠ [])
    (hrange : ∀ b ∈ bits, b < 18446744073709551616)
    (hfit : 1 + bits.length * SIZEOF_INT64 < 4294967296) :
    ∃ L content,
      encode_integer_array f (bits.map SprotoValue.Double) =
        .ok (write_u32_le L ++ content) ∧
      content.length = L ∧ L < 4294967296 ∧ 0 < L ∧
      decode_array S recur f (write_u32_le L ++ content) =
        .ok (.Array (bits.map SprotoValue.Double)) := by
  have hdeq : (decide (f.field_type = FieldType.Double)) = true := by
    rw [hft]; rfl
  refine ⟨1 + bits.length * SIZEOF_INT64,
    8 :: bits.flatMap write_u64_le, ?_, ?_, hfit, by omega, ?_⟩
  · simp only [encode_integer_array, hdeq, if_true]
    rw [encode_double_collect_spec]
    simp only [bind, Except.bind, List.nil_append, if_true]
    simp [SIZEOF_INT64, List.append_assoc]
  · simp only [List.length_cons,
      flatMap_const_length write_u64_le 8 write_u64_le_length, SIZEOF_INT64]
    omega
  · have hclen : (8 :: bits.flatMap write_u64_le).length =
        1 + bits.length * SIZEOF_INT64 := by
      simp only [List.length_cons,
        flatMap_const_length write_u64_le 8 write_u64_le_length, SIZEOF_INT64]
      omega
    simp only [decode_array, hft]
    rw [region_read _ _ hfit]
    rw [if_neg (by omega : ¬ 1 + bits.length * SIZEOF_INT64 = 0)]
    rw [region_slice_nil _ _ hclen]
    simp only [decode_integer_array, List.isEmpty_cons, Bool.false_eq_true,
      if_false, List.getD_cons_zero, List.drop_one, List.tail_cons]
    rw [if_neg (by decide : ¬ ((8:Nat) ≠ SIZEOF_INT32 ∧ (8:Nat) ≠ SIZEOF_INT64))]
    have hbody : (bits.flatMap write_u64_le).length = 8 * bits.length := by
      rw [flatMap_const_length write_u64_le 8 write_u64_le_length]
    rw [if_neg (by rw [hbody]; omega :
      ¬ (bits.flatMap write_u64_le).length % 8 ≠ 0)]
    rw [hbody, show 8 * bits.length / 8 = bits.length from by omega, hdeq]
    rw [Except.ok.injEq]
    congr 1
    apply List.ext_getElem
    · simp
    · intro i hi1 hi2
      have hi : i < bits.length := by simpa using hi1
      simp only [List.getElem_map, List.getElem_range]
      have he : int_array_elem true 8 (bits.flatMap write_u64_le) i =
          .Double (bits.getD i 0) := double_elem8 bits hrange i hi
      rw [he]
      rw [List.getD_eq_getElem _ 0 hi]

theorem bool_array_roundtrip (S : Sproto)
    (recur : SprotoType → List Nat → DResult SprotoValue) (f : Field)
    (hft : f.field_type = .Boolean) (bs : List Bool) (hne : bs ≠ [])
    (hfit : bs.length < 4294967296) :
    ∃ L content,
      encode_boolean_array (bs.map SprotoValue.Boolean) =
        .ok (write_u32_le L ++ content) ∧
      content.length = L ∧ L < 4294967296 ∧ 0 < L ∧
      decode_array S recur f (write_u32_le L ++ content) =
        .ok (.Array (bs.map SprotoValue.Boolean)) := by
  refine ⟨bs.length, bs.map (fun b => if b then 1 else 0), ?_, by simp, hfit,
    List.length_pos.mpr hne, ?_⟩
  · simp only [encode_boolean_array]
    rw [encode_bool_collect_spec]
    simp only [bind, Except.bind, List.nil_append, List.length_map]
  · have hclen : (bs.map (fun b => if b then (1:Nat) else 0)).length = bs.length := by
      simp
    simp only [decode_array, hft]
    rw [region_read _ _ hfit]
    rw [if_neg (by have := List.length_pos.mpr hne; omega : ¬ bs.length = 0)]
    rw [region_slice_nil _ _ hclen]
    simp only [decode_boolean_array, Except.ok.injEq]
    congr 1
    rw [List.map_map]
    apply List.map_congr_left
    intro b _
    cases b <;> rfl


theorem str_array_collect (S : Sproto)
    (recur : SprotoType → SprotoValue → EResult (List Nat)) (f : Field)
    (hft : f.field_type = .String) :
    ∀ (ss : List (List Nat)) (inner : List Nat),
      encode_object_array_collect S recur f (ss.map SprotoValue.Str) inner =
        .ok (inner ++ ss.flatMap (fun s => write_u32_le s.length ++ s)) := by
  intro ss
  induction ss with
  | nil => intro inner; simp [encode_object_array_collect]
  | cons s rest ih =>
    intro inner
    simp only [List.map_cons, encode_object_array_collect, hft, bind, Except.bind]
    rw [ih]
    simp [List.append_assoc]

theorem bin_array_collect (S : Sproto)
    (recur : SprotoType → SprotoValue → EResult (List Nat)) (f : Field)
    (hft : f.field_type = .Binary) :
    ∀ (bs : List (List Nat)) (inner : List Nat),
      encode_object_array_collect S recur f (bs.map SprotoValue.Binary) inner =
        .ok (inner ++ bs.flatMap (fun b => write_u32_le b.length ++ b)) := by
  intro bs
  induction bs with
  | nil => intro inner; simp [encode_object_array_collect]
  | cons b rest ih =>
    intro inner
    simp only [List.map_cons, encode_object_array_collect, hft, bind, Except.bind]
    rw [ih]
    simp [List.append_assoc]

theorem obj_decode_step (S : Sproto)
    (recur : SprotoType → List Nat → DResult SprotoValue) (f : Field)
    (p B : List Nat) (hp : p.length < 4294967296) (fuelL : Nat)
    (acc : List SprotoValue) (v : SprotoValue)
    (hstep : (match f.field_type with
      | .String =>
        if utf8_valid p then .ok (.Str p)
        else .error (.InvalidUtf8 f.name)
      | .Binary => .ok (.Binary p)
      | .Struct idx =>
        match S.types_list[idx]? with
        | some sub => recur sub p
        | none => .error (.Panic "type index out of range")
      | _ => .error (.Panic "entered unreachable code")
      : DResult SprotoValue) = .ok v) :
    decode_object_array_loop S recur f (fuelL + 1)
      (write_u32_le p.length ++ (p ++ B)) acc =
    decode_object_array_loop S recur f fuelL B (acc ++ [v]) := by
  have hSL : SIZEOF_LENGTH = 4 := rfl
  have hlen : (write_u32_le p.length ++ (p ++ B)).length = 4 + p.length + B.length := by
    simp [write_u32_le_length]
    omega
  simp only [decode_object_array_loop]
  rw [if_neg (by
    intro h
    rw [List.isEmpty_iff] at h
    have := congrArg List.length h
    rw [hlen] at this
    simp at this)]
  rw [if_neg (by rw [hlen, hSL]; omega :
    ¬ (write_u32_le p.length ++ (p ++ B)).length < SIZEOF_LENGTH)]
  rw [region_read _ _ hp]
  rw [if_neg (by rw [hlen, hSL]; omega :
    ¬ (write_u32_le p.length ++ (p ++ B)).length < SIZEOF_LENGTH + p.length)]
  rw [region_slice _ _ _ rfl]
  rw [hstep]
  have hdrop : (write_u32_le p.length ++ (p ++ B)).drop (SIZEOF_LENGTH + p.length) =
      B := by
    rw [show SIZEOF_LENGTH + p.length = (write_u32_le p.length ++ p).length from by
      rw [hSL]; simp [write_u32_le_length]]
    rw [← List.append_assoc, List.drop_left]
  rw [hdrop]
  simp only [bind, Except.bind]

theorem str_array_decode_loop (S : Sproto)
    (recur : SprotoType → List Nat → DResult SprotoValue) (f : Field)
    (hft : f.field_type = .String) :
    ∀ (ss : List (List Nat)),
      (∀ s ∈ ss, utf8_valid s = true ∧ s.length < 4294967296) →
      ∀ (fuelL : Nat) (acc : List SprotoValue),
        (ss.flatMap (fun s => write_u32_le s.length ++ s)).length + 1 ≤ fuelL →
        decode_object_array_loop S recur f fuelL
          (ss.flatMap (fun s => write_u32_le s.length ++ s)) acc =
        .ok (acc ++ ss.map SprotoValue.Str) := by
  intro ss
  induction ss with
  | nil =>
    intro _ fuelL acc hfl
    obtain ⟨f1, rfl⟩ : ∃ f1, fuelL = f1 + 1 := ⟨fuelL - 1, by omega⟩
    simp [decode_object_array_loop]
  | cons s rest ih =>
    intro hall fuelL acc hfl
    have hs := hall s (by simp)
    have hlen : ((s :: rest).flatMap (fun s => write_u32_le s.length ++ s)).length =
        4 + s.length + (rest.flatMap (fun s => write_u32_le s.length ++ s)).length := by
      simp [write_u32_le_length]
      omega
    obtain ⟨f1, rfl⟩ : ∃ f1, fuelL = f1 + 1 := ⟨fuelL - 1, by omega⟩
    have hshape : (s :: rest).flatMap (fun s => write_u32_le s.length ++ s) =
        write_u32_le s.length ++
          (s ++ rest.flatMap (fun s => write_u32_le s.length ++ s)) := by
      simp [List.flatMap_cons, List.append_assoc]
    rw [hshape]
    rw [obj_decode_step S recur f s _ hs.2 f1 acc (.Str s)
      (by rw [hft]; rw [if_pos hs.1])]
    rw [ih (fun x hx => hall x (by simp [hx])) f1 (acc ++ [SprotoValue.Str s])
      (by rw [hlen] at hfl; omega)]
    simp [List.append_assoc]

theorem bin_array_decode_loop (S : Sproto)
    (recur : SprotoType → List Nat → DResult SprotoValue) (f : Field)
    (hft : f.field_type = .Binary) :
    ∀ (bs : List (List Nat)),
      (∀ b ∈ bs, b.length < 4294967296) →
      ∀ (fuelL : Nat) (acc : List SprotoValue),
        (bs.flatMap (fun b => write_u32_le b.length ++ b)).length + 1 ≤ fuelL →
        decode_object_array_loop S recur f fuelL
          (bs.flatMap (fun b => write_u32_le b.length ++ b)) acc =
        .ok (acc ++ bs.map SprotoValue.Binary) := by
  intro bs
  induction bs with
  | nil =>
    intro _ fuelL acc hfl
    obtain ⟨f1, rfl⟩ : ∃ f1, fuelL = f1 + 1 := ⟨fuelL - 1, by omega⟩
    simp [decode_object_array_loop]
  | cons b rest ih =>
    intro hall fuelL acc hfl
    have hb := hall b (by simp)
    have hlen : ((b :: rest).flatMap (fun b => write_u32_le b.length ++ b)).length =
        4 + b.length + (rest.flatMap (fun b => write_u32_le b.length ++ b)).length := by
      simp [write_u32_le_length]
      omega
    obtain ⟨f1, rfl⟩ : ∃ f1, fuelL = f1 + 1 := ⟨fuelL - 1, by omega⟩
    have hshape : (b :: rest).flatMap (fun b => write_u32_le b.length ++ b) =
        write_u32_le b.length ++
          (b ++ rest.flatMap (fun b => write_u32_le b.length ++ b)) := by
      simp [List.flatMap_cons, List.append_assoc]
    rw [hshape]
    rw [obj_decode_step S recur f b _ hb f1 acc (.Binary b) (by rw [hft])]
    rw [ih (fun x hx => hall x (by simp [hx])) f1 (acc ++ [SprotoValue.Binary b])
      (by rw [hlen] at hfl; omega)]
    simp [List.append_assoc]


theorem struct_array_rt (S : Sproto) (fuel df2 : Nat) (f : Field) (idx : Nat)
    (sub : SprotoType) (hft : f.field_type = .Struct idx)
    (hidx : S.types_list[idx]? = some sub)
    (hsub : sub ∈ S.types_list)
    (IH : ∀ sub2 v2, sub2 ∈ S.types_list → validAux fuel S sub2 v2 = true →
      size_fitsAux fuel S sub2 v2 = true →
      ∃ bs, encodeAux fuel S sub2 v2 = .ok bs ∧
        ∀ df, bs.length + 1 ≤ df →
          decodeAux df S sub2 bs = .ok (restrictAux fuel S sub2 v2)) :
    ∀ (elems : List SprotoValue) (inner : List Nat),
      (∀ e ∈ elems, validAux fuel S sub e = true ∧
        size_fitsAux fuel S sub e = true ∧
        object_payload_len (encodeAux fuel S) S f e < 4294967296) →
      ∃ B, encode_object_array_collect S (encodeAux fuel S) f elems inner =
          .ok (inner ++ B) ∧
        B.length = (elems.map (fun e =>
          SIZEOF_LENGTH + object_payload_len (encodeAux fuel S) S f e)).sum ∧
        ∀ (fuelL : Nat) (acc : List SprotoValue), B.length + 1 ≤ fuelL →
          B.length ≤ df2 →
          decode_object_array_loop S (decodeAux df2 S) f fuelL B acc =
            .ok (acc ++ elems.map (fun e => restrictAux fuel S sub e)) := by
  intro elems
  induction elems with
  | nil =>
    intro inner _
    refine ⟨[], by simp [encode_object_array_collect], by simp, ?_⟩
    intro fuelL acc hfl _
    obtain ⟨f1, rfl⟩ : ∃ f1, fuelL = f1 + 1 := ⟨fuelL - 1, by omega⟩
    simp [decode_object_array_loop]
  | cons e rest ih =>
    intro inner hall
    obtain ⟨hv, hfts, hpl⟩ := hall e (by simp)
    obtain ⟨bs, henc, hdec⟩ := IH sub e hsub hv hfts
    have hplen : object_payload_len (encodeAux fuel S) S f e = bs.length := by
      simp only [object_payload_len, hft, hidx, henc]
    obtain ⟨B2, henc2, hlen2, hdec2⟩ :=
      ih (inner ++ (write_u32_le bs.length ++ bs)) (fun x hx => hall x (by simp [hx]))
    refine ⟨write_u32_le bs.length ++ (bs ++ B2), ?_, ?_, ?_⟩
    · simp only [encode_object_array_collect, hft, hidx, henc, bind, Except.bind]
      rw [show inner ++ write_u32_le bs.length ++ bs =
        inner ++ (write_u32_le bs.length ++ bs) from by simp [List.append_assoc]]
      rw [henc2]
      simp [List.append_assoc]
    · simp only [List.length_append, write_u32_le_length, hlen2, List.map_cons,
        List.sum_cons, hplen, SIZEOF_LENGTH]
      omega
    · intro fuelL acc hfl hdf
      have hBlen : (write_u32_le bs.length ++ (bs ++ B2)).length =
          4 + bs.length + B2.length := by
        simp [write_u32_le_length]
        omega
      rw [hBlen] at hfl hdf
      obtain ⟨f1, rfl⟩ : ∃ f1, fuelL = f1 + 1 := ⟨fuelL - 1, by omega⟩
      have hpl2 : bs.length < 4294967296 := by rw [hplen] at hpl; exact hpl
      rw [obj_decode_step S (decodeAux df2 S) f bs B2 hpl2 f1 acc
        (restrictAux fuel S sub e)
        (by simp only [hft, hidx]; exact hdec df2 (by omega))]
      rw [hdec2 f1 (acc ++ [restrictAux fuel S sub e]) (by omega) (by omega)]
      simp [List.append_assoc]


theorem flatMap_region_length (ps : List (List Nat)) :
    (ps.flatMap (fun p => write_u32_le p.length ++ p)).length =
      (ps.map (fun p => SIZEOF_LENGTH + p.length)).sum := by
  induction ps with
  | nil => simp
  | cons p rest ih =>
    simp only [List.flatMap_cons, List.map_cons, List.sum_cons, List.length_append,
      write_u32_le_length, ih, SIZEOF_LENGTH]

theorem any_map_general {α β : Type} (f : α → β) (p : β → Bool) :
    ∀ l : List α, (l.map f).any p = l.any (fun a => p (f a)) := by
  intro l
  induction l with
  | nil => rfl
  | cons a r ih => simp [List.any_cons, ih]

theorem encode_array_ok (S : Sproto) (fuel : Nat) (f : Field)
    (elems : List SprotoValue)
    (IH : ∀ sub v2, sub ∈ S.types_list → validAux fuel S sub v2 = true →
      size_fitsAux fuel S sub v2 = true →
      ∃ bs, encodeAux fuel S sub v2 = .ok bs ∧
        ∀ df, bs.length + 1 ≤ df →
          decodeAux df S sub bs = .ok (restrictAux fuel S sub v2))
    (harr : f.is_array = true)
    (hvalid : valid_shape (validAux fuel S) S f (.Array elems) = true)
    (hfits : fits_shape (size_fitsAux fuel S) (encodeAux fuel S) S f
      (.Array elems) = true) :
    ∃ L content, encode_array S (encodeAux fuel S) f elems =
        .ok (write_u32_le L ++ content) ∧
      content.length = L ∧ L < 4294967296 ∧
      ∀ df2, content.length ≤ df2 →
        decode_array S (decodeAux df2 S) f (write_u32_le L ++ content) =
          .ok (restrict_one (restrictAux fuel S) S f (.Array elems)) := by
  simp only [valid_shape, harr, if_true, List.all_eq_true] at hvalid
  simp only [fits_shape, harr, if_true] at hfits
  have hro : restrict_one (restrictAux fuel S) S f (.Array elems) =
      (match f.field_type with
        | .Struct idx => .Array (elems.map
            (fun e => restrictAux fuel S (S.types_list.getD idx default) e))
        | _ => .Array elems) := by
    simp only [restrict_one, harr, if_true]
  by_cases hnil : elems = []
  · subst hnil
    refine ⟨0, [], by simp [encode_array], rfl, by omega, ?_⟩
    intro df2 _
    simp only [decode_array]
    rw [region_read 0 [] (by omega)]
    rw [if_pos rfl, hro]
    cases hft : f.field_type <;> simp
  · have hne : elems ≠ [] := hnil
    have hemp : elems.isEmpty = false := by
      cases helems : elems with
      | nil => exact absurd helems hnil
      | cons a r => rfl
    cases hft : f.field_type with
    | Integer =>
      simp only [hft] at hfits
      simp only [hft] at hvalid
      have hex : ∀ e ∈ elems, ∃ n : Int, e = SprotoValue.Integer n ∧
          (-9223372036854775808 ≤ n ∧ n < 9223372036854775808) := by
        intro e he
        have h1 := hvalid e he
        cases e <;> simp at h1
        case Integer n => exact ⟨n, rfl, h1⟩
      obtain ⟨ns, hnse, hnsr⟩ := exists_preimage_list SprotoValue.Integer _ elems hex
      subst hnse
      have hnsne : ns ≠ [] := by
        intro h
        rw [h] at hne
        simp at hne
      rw [any_map_general] at hfits
      simp only [List.length_map, decide_eq_true_eq] at hfits
      obtain ⟨L, content, henc, hclen, hlt, hpos, hdec⟩ :=
        int_array_roundtrip S (decodeAux 0 S) f hft ns hnsne hnsr hfits
      refine ⟨L, content, ?_, hclen, hlt, ?_⟩
      · simp only [encode_array, hemp, Bool.false_eq_true, if_false, hft]
        exact henc
      · intro df2 _
        obtain ⟨L2, content2, henc2, hclen2, _, _, hdec3⟩ :=
          int_array_roundtrip S (decodeAux df2 S) f hft ns hnsne hnsr hfits
        rw [henc] at henc2
        have hL : L2 = L ∧ content2 = content := by
          have h5 := henc2.symm
          rw [Except.ok.injEq] at h5
          have hlen5 := congrArg List.length h5
          simp only [List.length_append, write_u32_le_length] at hlen5
          constructor
          · omega
          · exact List.append_inj_right h5 (by simp [write_u32_le_length])
        rw [hL.1, hL.2] at hdec3
        rw [hdec3, hro]
        simp only [hft]
    | Double =>
      simp only [hft] at hfits
      simp only [hft] at hvalid
      have hex : ∀ e ∈ elems, ∃ b : Nat, e = SprotoValue.Double b ∧
          b < 18446744073709551616 := by
        intro e he
        have h1 := hvalid e he
        cases e <;> simp at h1
        case Double b => exact ⟨b, rfl, h1⟩
      obtain ⟨bits, hbe, hbr⟩ := exists_preimage_list SprotoValue.Double _ elems hex
      subst hbe
      have hbne : bits ≠ [] := by
        intro h
        rw [h] at hne
        simp at hne
      simp only [List.length_map, decide_eq_true_eq] at hfits
      obtain ⟨L, content, henc, hclen, hlt, hpos, hdec⟩ :=
        double_array_roundtrip S (decodeAux 0 S) f hft bits hbne hbr hfits
      refine ⟨L, content, ?_, hclen, hlt, ?_⟩
      · simp only [encode_array, hemp, Bool.false_eq_true, if_false, hft]
        exact henc
      · intro df2 _
        obtain ⟨L2, content2, henc2, hclen2, _, _, hdec3⟩ :=
          double_array_roundtrip S (decodeAux df2 S) f hft bits hbne hbr hfits
        rw [henc] at henc2
        have hL : L2 = L ∧ content2 = content := by
          have h5 := henc2.symm
          rw [Except.ok.injEq] at h5
          have hlen5 := congrArg List.length h5
          simp only [List.length_append, write_u32_le_length] at hlen5
          constructor
          · omega
          · exact List.append_inj_right h5 (by simp [write_u32_le_length])
        rw [hL.1, hL.2] at hdec3
        rw [hdec3, hro]
        simp only [hft]
    | Boolean =>
      simp only [hft] at hfits
      simp only [hft] at hvalid
      have hex : ∀ e ∈ elems, ∃ b : Bool, e = SprotoValue.Boolean b ∧ True := by
        intro e he
        have h1 := hvalid e he
        cases e <;> simp at h1
        case Boolean b => exact ⟨b, rfl, trivial⟩
      obtain ⟨bs, hbe, _⟩ := exists_preimage_list SprotoValue.Boolean _ elems hex
      subst hbe
      have hbne : bs ≠ [] := by
        intro h
        rw [h] at hne
        simp at hne
      simp only [List.length_map, decide_eq_true_eq] at hfits
      obtain ⟨L, content, henc, hclen, hlt, hpos, hdec⟩ :=
        bool_array_roundtrip S (decodeAux 0 S) f hft bs hbne hfits
      refine ⟨L, content, ?_, hclen, hlt, ?_⟩
      · simp only [encode_array, hemp, Bool.false_eq_true, if_false, hft]
        exact henc
      · intro df2 _
        obtain ⟨L2, content2, henc2, hclen2, _, _, hdec3⟩ :=
          bool_array_roundtrip S (decodeAux df2 S) f hft bs hbne hfits
        rw [henc] at henc2
        have hL : L2 = L ∧ content2 = content := by
          have h5 := henc2.symm
          rw [Except.ok.injEq] at h5
          have hlen5 := congrArg List.length h5
          simp only [List.length_append, write_u32_le_length] at hlen5
          constructor
          · omega
          · exact List.append_inj_right h5 (by simp [write_u32_le_length])
        rw [hL.1, hL.2] at hdec3
        rw [hdec3, hro]
        simp only [hft]
    | String =>
      simp only [hft] at hfits
      simp only [hft] at hvalid
      have hex : ∀ e ∈ elems, ∃ sv : List Nat, e = SprotoValue.Str sv ∧
          utf8_valid sv = true := by
        intro e he
        have h1 := hvalid e he
        cases e <;> simp at h1
        case Str sv => exact ⟨sv, rfl, by simpa using h1⟩
      obtain ⟨ss, hse, hsr⟩ := exists_preimage_list SprotoValue.Str _ elems hex
      subst hse
      have hsne : ss ≠ [] := by
        intro h
        rw [h] at hne
        simp at hne
      rw [Bool.and_eq_true, List.all_eq_true] at hfits
      have hpay : ∀ sv ∈ ss, sv.length < 4294967296 := by
        intro sv hsv
        have h1 := hfits.1 (SprotoValue.Str sv) (List.mem_map_of_mem _ hsv)
        rw [Bool.and_eq_true] at h1
        have h2 := h1.1
        simp only [object_payload_len, hft, decide_eq_true_eq] at h2
        exact h2
      have hsum : ((ss.map SprotoValue.Str).map (fun e =>
          SIZEOF_LENGTH + object_payload_len (encodeAux fuel S) S f e)).sum
          < 4294967296 := by
        have h5 := hfits.2
        simpa using h5
      have hsum2 : (ss.map (fun sv => SIZEOF_LENGTH + sv.length)).sum < 4294967296 := by
        rw [List.map_map] at hsum
        have heq : ((fun e => SIZEOF_LENGTH +
            object_payload_len (encodeAux fuel S) S f e) ∘ SprotoValue.Str) =
            (fun sv => SIZEOF_LENGTH + sv.length) := by
          funext sv
          simp only [Function.comp, object_payload_len, hft]
        rw [heq] at hsum
        exact hsum
      have hinner := flatMap_region_length ss
      have hinnerlt : (ss.flatMap (fun p => write_u32_le p.length ++ p)).length
          < 4294967296 := by rw [hinner]; exact hsum2
      have hinnerpos : 0 < (ss.flatMap (fun p => write_u32_le p.length ++ p)).length := by
        rw [hinner]
        cases hss : ss with
        | nil => exact absurd hss hsne
        | cons a r => simp [SIZEOF_LENGTH]
      refine ⟨(ss.flatMap (fun p => write_u32_le p.length ++ p)).length,
        ss.flatMap (fun p => write_u32_le p.length ++ p), ?_, rfl, hinnerlt, ?_⟩
      · simp only [encode_array, hemp, Bool.false_eq_true, if_false, hft,
          encode_object_array]
        rw [str_array_collect S (encodeAux fuel S) f hft]
        simp only [List.nil_append, bind, Except.bind]
      · intro df2 _
        simp only [decode_array, hft]
        rw [region_read _ _ hinnerlt]
        rw [if_neg (by omega)]
        rw [region_slice_nil _ _ rfl]
        rw [str_array_decode_loop S (decodeAux df2 S) f hft ss
          (fun sv hsv => ⟨(hsr sv hsv), hpay sv hsv⟩) _ [] (by omega)]
        rw [hro]
        simp only [hft, Except.map, List.nil_append]
    | Binary =>
      simp only [hft] at hfits
      simp only [hft] at hvalid
      have hex : ∀ e ∈ elems, ∃ bv : List Nat, e = SprotoValue.Binary bv ∧ True := by
        intro e he
        have h1 := hvalid e he
        cases e <;> simp at h1
        case Binary bv => exact ⟨bv, rfl, trivial⟩
      obtain ⟨bvs, hbe, _⟩ := exists_preimage_list SprotoValue.Binary _ elems hex
      subst hbe
      have hbne : bvs ≠ [] := by
        intro h
        rw [h] at hne
        simp at hne
      rw [Bool.and_eq_true, List.all_eq_true] at hfits
      have hpay : ∀ bv ∈ bvs, bv.length < 4294967296 := by
        intro bv hbv
        have h1 := hfits.1 (SprotoValue.Binary bv) (List.mem_map_of_mem _ hbv)
        rw [Bool.and_eq_true] at h1
        have h2 := h1.1
        simp only [object_payload_len, hft, decide_eq_true_eq] at h2
        exact h2
      have hsum : ((bvs.map SprotoValue.Binary).map (fun e =>
          SIZEOF_LENGTH + object_payload_len (encodeAux fuel S) S f e)).sum
          < 4294967296 := by
        have h5 := hfits.2
        simpa using h5
      have hsum2 : (bvs.map (fun bv => SIZEOF_LENGTH + bv.length)).sum < 4294967296 := by
        rw [List.map_map] at hsum
        have heq : ((fun e => SIZEOF_LENGTH +
            object_payload_len (encodeAux fuel S) S f e) ∘ SprotoValue.Binary) =
            (fun bv => SIZEOF_LENGTH + bv.length) := by
          funext bv
          simp only [Function.comp, object_payload_len, hft]
        rw [heq] at hsum
        exact hsum
      have hinner := flatMap_region_length bvs
      have hinnerlt : (bvs.flatMap (fun p => write_u32_le p.length ++ p)).length
          < 4294967296 := by rw [hinner]; exact hsum2
      have hinnerpos : 0 < (bvs.flatMap (fun p => write_u32_le p.length ++ p)).length := by
        rw [hinner]
        cases hbb : bvs with
        | nil => exact absurd hbb hbne
        | cons a r => simp [SIZEOF_LENGTH]
      refine ⟨(bvs.flatMap (fun p => write_u32_le p.length ++ p)).length,
        bvs.flatMap (fun p => write_u32_le p.length ++ p), ?_, rfl, hinnerlt, ?_⟩
      · simp only [encode_array, hemp, Bool.false_eq_true, if_false, hft,
          encode_object_array]
        rw [bin_array_collect S (encodeAux fuel S) f hft]
        simp only [List.nil_append, bind, Except.bind]
      · intro df2 _
        simp only [decode_array, hft]
        rw [region_read _ _ hinnerlt]
        rw [if_neg (by omega)]
        rw [region_slice_nil _ _ rfl]
        rw [bin_array_decode_loop S (decodeAux df2 S) f hft bvs hpay _ [] (by omega)]
        rw [hro]
        simp only [hft, Except.map, List.nil_append]
    | Struct idx =>
      simp only [hft] at hfits
      simp only [hft] at hvalid
      cases hidx : S.types_list[idx]? with
      | none =>
        obtain ⟨e0, he0⟩ := List.exists_mem_of_ne_nil elems hne
        have h1 := hvalid e0 he0
        simp only [hidx] at h1
        simp at h1
      | some sub =>
        have hsub : sub ∈ S.types_list := by
          have hlt2 : idx < S.types_list.length := by
            by_contra hge
            rw [List.getElem?_eq_none (by omega)] at hidx
            exact Option.noConfusion hidx
          rw [List.getElem?_eq_getElem hlt2] at hidx
          have hs2 : S.types_list[idx] = sub := Option.some.injEq _ _ |>.mp hidx
          rw [← hs2]
          exact List.getElem_mem hlt2
        rw [Bool.and_eq_true, List.all_eq_true] at hfits
        have hall : ∀ e ∈ elems, validAux fuel S sub e = true ∧
            size_fitsAux fuel S sub e = true ∧
            object_payload_len (encodeAux fuel S) S f e < 4294967296 := by
          intro e he
          have h1 := hvalid e he
          simp only [hidx] at h1
          have h2 := hfits.1 e he
          rw [Bool.and_eq_true] at h2
          have h3 := h2.2
          simp only [hidx] at h3
          exact ⟨h1, h3, by simpa using h2.1⟩
        have hsum : (elems.map (fun e =>
            SIZEOF_LENGTH + object_payload_len (encodeAux fuel S) S f e)).sum
            < 4294967296 := by
          have h5 := hfits.2
          simpa using h5
        have hgetd : S.types_list.getD idx default = sub := by
          simp [List.getD, hidx]
        obtain ⟨B, henc, hBlen, hBdec⟩ :=
          struct_array_rt S fuel 0 f idx sub hft hidx hsub IH elems [] hall
        have hBpos : 0 < B.length := by
          rw [hBlen]
          cases helems : elems with
          | nil => exact absurd helems hnil
          | cons a r => simp [SIZEOF_LENGTH]
        have hBlt : B.length < 4294967296 := by rw [hBlen]; exact hsum
        refine ⟨B.length, B, ?_, rfl, hBlt, ?_⟩
        · simp only [encode_array, hemp, Bool.false_eq_true, if_false, hft,
            encode_object_array]
          rw [henc]
          simp only [List.nil_append, bind, Except.bind]
        · intro df2 hdf2
          obtain ⟨B2, henc2, hB2len, hB2dec⟩ :=
            struct_array_rt S fuel df2 f idx sub hft hidx hsub IH elems [] hall
          have hBB : B2 = B := by
            rw [henc] at henc2
            rw [Except.ok.injEq] at henc2
            simpa using henc2.symm
          rw [hBB] at hB2dec
          simp only [decode_array, hft, hidx]
          rw [region_read _ _ hBlt]
          rw [if_neg (by omega)]
          rw [region_slice_nil _ _ rfl]
          rw [hB2dec (B.length + 1) [] (by omega) hdf2]
          rw [hro]
          simp only [hft, hgetd, Except.map, List.nil_append]


theorem decode_loop_skip_step (S : Sproto)
    (recur : SprotoType → List Nat → DResult SprotoValue) (t : SprotoType)
    (sv : Nat) (D : List Nat) (off : Nat) (rest : List Nat) (tag0 : Int)
    (result : List (String × SprotoValue)) (hodd : sv % 2 = 1) :
    decode_loop S recur t D (sv :: rest) off tag0 result =
      decode_loop S recur t D rest off (tag0 + 1 + ((sv / 2 : Nat) : Int)) result := by
  simp only [decode_loop]
  rw [if_pos hodd]

theorem decode_loop_inline_step (S : Sproto)
    (recur : SprotoType → List Nat → DResult SprotoValue) (t : SprotoType)
    (f : Field) (iv : Nat) (v : SprotoValue) (D : List Nat) (off : Nat)
    (rest : List Nat) (tag0 : Int) (result : List (String × SprotoValue))
    (htag0 : tag0 = (f.tag : Int) - 1) (htl : f.tag < 32768)
    (hiv2 : 2 ≤ iv) (hivev : iv % 2 = 0)
    (hfind : find_field_by_tag t f.tag = some f)
    (hdecv : decode_inline_value f (iv / 2 - 1) = .ok v)
    (hfresh : ∀ p ∈ result, p.1 ≠ f.name) :
    decode_loop S recur t D (iv :: rest) off tag0 result =
      decode_loop S recur t D rest off ((f.tag : Int))
        (result ++ [(f.name, v)]) := by
  simp only [decode_loop]
  rw [if_neg (by omega : ¬ iv % 2 = 1)]
  rw [if_neg (by omega : ¬ iv = 0)]
  rw [show (tag0 + 1).toNat % 65536 = f.tag from by omega]
  rw [hfind]
  simp only [bind, Except.bind, hdecv]
  rw [insertA_append result f.name v hfresh]
  rw [show tag0 + 1 = (f.tag : Int) from by omega]

theorem decode_loop_data_step (S : Sproto)
    (recur : SprotoType → List Nat → DResult SprotoValue) (t : SprotoType)
    (f : Field) (L : Nat) (content Δb2 : List Nat) (v : SprotoValue)
    (D pre : List Nat) (rest : List Nat) (tag0 : Int)
    (result : List (String × SprotoValue))
    (hD : D = pre ++ (write_u32_le L ++ (content ++ Δb2)))
    (hclen : content.length = L) (hL : L < 4294967296)
    (htag0 : tag0 = (f.tag : Int) - 1) (htl : f.tag < 32768)
    (hfind : find_field_by_tag t f.tag = some f)
    (hdecv : (if f.is_array then decode_array S recur f (write_u32_le L ++ content)
      else decode_field_from_data S recur f (write_u32_le L ++ content)) = .ok v)
    (hfresh : ∀ p ∈ result, p.1 ≠ f.name) :
    decode_loop S recur t D (0 :: rest) pre.length tag0 result =
      decode_loop S recur t D rest (pre ++ (write_u32_le L ++ content)).length
        ((f.tag : Int)) (result ++ [(f.name, v)]) := by
  have hSL : SIZEOF_LENGTH = 4 := rfl
  have hDlen : D.length = pre.length + 4 + L + Δb2.length := by
    rw [hD]
    simp [write_u32_le_length]
    omega
  simp only [decode_loop]
  rw [if_neg (by omega : ¬ (0:Nat) % 2 = 1)]
  rw [if_pos trivial]
  rw [if_neg (by rw [hSL]; omega : ¬ D.length < pre.length + SIZEOF_LENGTH)]
  have hdrop : D.drop pre.length = write_u32_le L ++ (content ++ Δb2) := by
    rw [hD, List.drop_left]
  rw [hdrop]
  rw [region_read _ _ hL]
  rw [if_neg (by rw [hSL]; omega : ¬ D.length < pre.length + SIZEOF_LENGTH + L)]
  rw [show (tag0 + 1).toNat % 65536 = f.tag from by omega]
  simp only [hfind]
  have htake : (write_u32_le L ++ (content ++ Δb2)).take (SIZEOF_LENGTH + L) =
      write_u32_le L ++ content := by
    rw [show SIZEOF_LENGTH + L = (write_u32_le L ++ content).length from by
      simp [write_u32_le_length, hclen, hSL]]
    rw [← List.append_assoc, List.take_left]
  rw [htake]
  rw [hdecv]
  simp only [bind, Except.bind]
  rw [insertA_append result f.name v hfresh]
  rw [show tag0 + 1 = (f.tag : Int) from by omega]
  rw [show pre.length + SIZEOF_LENGTH + L =
    (pre ++ (write_u32_le L ++ content)).length from by
    simp [write_u32_le_length, hclen, hSL]
    omega]


theorem encode_decode_loop_cons (S : Sproto) (t : SprotoType) (fuel df0 : Nat)
    (m : List (String × SprotoValue)) (f : Field) (rest : List Field)
    (index : Nat) (last : Int) (descs data : List Nat)
    (x : SprotoValue) (iv : Nat) (dbytes : List Nat)
    (hlk : lookupA m f.name = some x)
    (hlast : -1 ≤ last) (htgt : last < (f.tag : Int)) (htl : f.tag < 32768)
    (hivlt : iv < 65536)
    (hdist : ∀ g ∈ rest, g.name ≠ f.name)
    (hcap : index + countDesc m (f :: rest) last ≤ t.maxn)
    (hpay : encode_payload S (encodeAux fuel S) f x data =
      .ok (some (iv, data ++ dbytes)))
    (hstep : ∀ (D pre T rest0 : List Nat) (result : List (String × SprotoValue)),
      D = pre ++ (dbytes ++ T) → 1 ≤ pre.length → D.length ≤ df0 →
      (∀ p ∈ result, p.1 ≠ f.name) →
      decode_loop S (decodeAux df0 S) t D (iv :: rest0) pre.length
        ((f.tag : Int) - 1) result =
        decode_loop S (decodeAux df0 S) t D rest0 (pre ++ dbytes).length
          ((f.tag : Int))
          (result ++ [(f.name, restrict_one (restrictAux fuel S) S f x)]))
    (ihrest : ∀ (index2 : Nat) (descs2 data2 : List Nat),
      index2 + countDesc m rest ((f.tag : Int)) ≤ t.maxn →
      ∃ Δd Δb,
        encode_loop S (encodeAux fuel S) (SIZEOF_HEADER + t.maxn * SIZEOF_FIELD)
          rest m index2 ((f.tag : Int)) descs2 data2 =
          .ok (index2 + countDesc m rest ((f.tag : Int)), descs2 ++ Δd, data2 ++ Δb) ∧
        Δd.length = countDesc m rest ((f.tag : Int)) ∧
        (∀ y ∈ Δd, y < 65536) ∧
        ∀ (D pre : List Nat) (result : List (String × SprotoValue)),
          D = pre ++ Δb → 1 ≤ pre.length → D.length ≤ df0 →
          (∀ g ∈ rest, ∀ p ∈ result, p.1 ≠ g.name) →
          decode_loop S (decodeAux df0 S) t D Δd pre.length ((f.tag : Int)) result =
            .ok (result ++ restrict_fields (restrictAux fuel S) S rest m)) :
    ∃ Δd Δb,
      encode_loop S (encodeAux fuel S) (SIZEOF_HEADER + t.maxn * SIZEOF_FIELD)
        (f :: rest) m index last descs data =
        .ok (index + countDesc m (f :: rest) last, descs ++ Δd, data ++ Δb) ∧
      Δd.length = countDesc m (f :: rest) last ∧
      (∀ y ∈ Δd, y < 65536) ∧
      ∀ (D pre : List Nat) (result : List (String × SprotoValue)),
        D = pre ++ Δb → 1 ≤ pre.length → D.length ≤ df0 →
        (∀ g ∈ f :: rest, ∀ p ∈ result, p.1 ≠ g.name) →
        decode_loop S (decodeAux df0 S) t D Δd pre.length last result =
          .ok (result ++ restrict_fields (restrictAux fuel S) S (f :: rest) m) := by
  by_cases hgap : (0:Int) < (f.tag : Int) - last - 1
  · have hcd : countDesc m (f :: rest) last =
        2 + countDesc m rest ((f.tag : Int)) := by
      simp only [countDesc, hlk]
      rw [if_pos (by omega : last + 1 < (f.tag : Int))]
    have hc2 : index + 2 ≤ t.maxn := by rw [hcd] at hcap; omega
    have hsvodd : ((((f.tag : Int) - last - 1 - 1) * 2 + 1).toNat % 65536) % 2 = 1 := by omega
    have hsvlt : ((((f.tag : Int) - last - 1 - 1) * 2 + 1).toNat % 65536) < 65536 := by omega
    have hsvtag : last + 1 + (((((((f.tag : Int) - last - 1 - 1) * 2 + 1).toNat % 65536) / 2 : Nat)) : Int) = (f.tag : Int) - 1 := by
      omega
    have henc1 : encode_loop S (encodeAux fuel S)
        (SIZEOF_HEADER + t.maxn * SIZEOF_FIELD) (f :: rest) m index last descs data =
        encode_loop S (encodeAux fuel S) (SIZEOF_HEADER + t.maxn * SIZEOF_FIELD)
          rest m (index + 2) ((f.tag : Int))
          (descs ++ [(((f.tag : Int) - last - 1 - 1) * 2 + 1).toNat % 65536, iv]) (data ++ dbytes) := by
      simp only [encode_loop, hlk]
      rw [hpay]
      simp only [bind, Except.bind]
      rw [if_pos hgap]
      rw [if_neg (by simp only [SIZEOF_HEADER, SIZEOF_FIELD]; omega),
          if_neg (by simp only [SIZEOF_HEADER, SIZEOF_FIELD]; omega)]
    obtain ⟨Δd2, Δb2, hencR, hlen2, hlt2, hdecR⟩ :=
      ihrest (index + 2) (descs ++ [(((f.tag : Int) - last - 1 - 1) * 2 + 1).toNat % 65536, iv]) (data ++ dbytes) (by omega)
    refine ⟨((((f.tag : Int) - last - 1 - 1) * 2 + 1).toNat % 65536) :: iv :: Δd2, dbytes ++ Δb2, ?_, ?_, ?_, ?_⟩
    · rw [henc1, hencR, Except.ok.injEq, hcd, Prod.mk.injEq, Prod.mk.injEq]
      refine ⟨by omega, by simp [List.append_assoc], by simp [List.append_assoc]⟩
    · simp only [List.length_cons, hlen2, hcd]
      omega
    · intro y hy
      rcases List.mem_cons.mp hy with h | hy2
      · subst h; exact hsvlt
      rcases List.mem_cons.mp hy2 with h | hy3
      · subst h; exact hivlt
      · exact hlt2 y hy3
    · intro D pre result hD hpre hdf hfreshA
      rw [decode_loop_skip_step S (decodeAux df0 S) t ((((f.tag : Int) - last - 1 - 1) * 2 + 1).toNat % 65536) D pre.length
        (iv :: Δd2) last result hsvodd]
      rw [hsvtag]
      rw [hstep D pre Δb2 Δd2 result hD hpre hdf
        (fun p hp => hfreshA f (by simp) p hp)]
      rw [hdecR D (pre ++ dbytes)
        (result ++ [(f.name, restrict_one (restrictAux fuel S) S f x)])
        (by rw [hD]; simp [List.append_assoc])
        (by simp only [List.length_append]; omega) hdf
        (by
          intro g hg p hp
          rcases List.mem_append.mp hp with hp1 | hp2
          · exact hfreshA g (by simp [hg]) p hp1
          · have hpe : p = (f.name, restrict_one (restrictAux fuel S) S f x) := by
              simpa using hp2
            rw [hpe]
            exact Ne.symm (hdist g hg))]
      rw [Except.ok.injEq]
      simp only [restrict_fields, hlk]
      simp [List.append_assoc]
  · have hcd : countDesc m (f :: rest) last =
        1 + countDesc m rest ((f.tag : Int)) := by
      simp only [countDesc, hlk]
      rw [if_neg (by omega : ¬ last + 1 < (f.tag : Int))]
    have hc1 : index + 1 ≤ t.maxn := by rw [hcd] at hcap; omega
    have henc1 : encode_loop S (encodeAux fuel S)
        (SIZEOF_HEADER + t.maxn * SIZEOF_FIELD) (f :: rest) m index last descs data =
        encode_loop S (encodeAux fuel S) (SIZEOF_HEADER + t.maxn * SIZEOF_FIELD)
          rest m (index + 1) ((f.tag : Int))
          (descs ++ [iv]) (data ++ dbytes) := by
      simp only [encode_loop, hlk]
      rw [hpay]
      simp only [bind, Except.bind]
      rw [if_neg hgap]
      rw [if_neg (by simp only [SIZEOF_HEADER, SIZEOF_FIELD]; omega)]
    obtain ⟨Δd2, Δb2, hencR, hlen2, hlt2, hdecR⟩ :=
      ihrest (index + 1) (descs ++ [iv]) (data ++ dbytes) (by omega)
    refine ⟨iv :: Δd2, dbytes ++ Δb2, ?_, ?_, ?_, ?_⟩
    · rw [henc1, hencR, Except.ok.injEq, hcd, Prod.mk.injEq, Prod.mk.injEq]
      refine ⟨by omega, by simp [List.append_assoc], by simp [List.append_assoc]⟩
    · simp only [List.length_cons, hlen2, hcd]
      omega
    · intro y hy
      rcases List.mem_cons.mp hy with h | hy2
      · subst h; exact hivlt
      · exact hlt2 y hy2
    · intro D pre result hD hpre hdf hfreshA
      rw [show last = (f.tag : Int) - 1 from by omega]
      rw [hstep D pre Δb2 Δd2 result hD hpre hdf
        (fun p hp => hfreshA f (by simp) p hp)]
      rw [hdecR D (pre ++ dbytes)
        (result ++ [(f.name, restrict_one (restrictAux fuel S) S f x)])
        (by rw [hD]; simp [List.append_assoc])
        (by simp only [List.length_append]; omega) hdf
        (by
          intro g hg p hp
          rcases List.mem_append.mp hp with hp1 | hp2
          · exact hfreshA g (by simp [hg]) p hp1
          · have hpe : p = (f.name, restrict_one (restrictAux fuel S) S f x) := by
              simpa using hp2
            rw [hpe]
            exact Ne.symm (hdist g hg))]
      rw [Except.ok.injEq]
      simp only [restrict_fields, hlk]
      simp [List.append_assoc]


theorem encode_decode_loop (S : Sproto) (t : SprotoType) (fuel df0 : Nat)
    (m : List (String × SprotoValue))
    (IH : ∀ sub v2, sub ∈ S.types_list → validAux fuel S sub v2 = true →
      size_fitsAux fuel S sub v2 = true →
      ∃ bs, encodeAux fuel S sub v2 = .ok bs ∧
        ∀ df, bs.length + 1 ≤ df →
          decodeAux df S sub bs = .ok (restrictAux fuel S sub v2)) :
    ∀ (fs : List Field) (index : Nat) (last : Int) (descs data : List Nat),
      sorted_by_tag fs = true →
      names_unique fs = true →
      (-1 : Int) ≤ last →
      (∀ f ∈ fs, last < (f.tag : Int) ∧ f.tag < 32768) →
      (∀ f ∈ fs, ∀ x, lookupA m f.name = some x →
        valid_shape (validAux fuel S) S f x = true ∧
        fits_shape (size_fitsAux fuel S) (encodeAux fuel S) S f x = true) →
      (∀ f ∈ fs, find_field_by_tag t f.tag = some f) →
      index + countDesc m fs last ≤ t.maxn →
      ∃ Δd Δb,
        encode_loop S (encodeAux fuel S) (SIZEOF_HEADER + t.maxn * SIZEOF_FIELD)
          fs m index last descs data =
          .ok (index + countDesc m fs last, descs ++ Δd, data ++ Δb) ∧
        Δd.length = countDesc m fs last ∧
        (∀ y ∈ Δd, y < 65536) ∧
        ∀ (D pre : List Nat) (result : List (String × SprotoValue)),
          D = pre ++ Δb → 1 ≤ pre.length → D.length ≤ df0 →
          (∀ g ∈ fs, ∀ p ∈ result, p.1 ≠ g.name) →
          decode_loop S (decodeAux df0 S) t D Δd pre.length last result =
            .ok (result ++ restrict_fields (restrictAux fuel S) S fs m) := by
  intro fs
  induction fs with
  | nil =>
    intro index last descs data _ _ _ _ _ _ _
    refine ⟨[], [], ?_, by simp [countDesc], by simp, ?_⟩
    · simp [encode_loop, countDesc]
    · intro D pre result hD hpre hdf hfresh
      simp [decode_loop, restrict_fields]
  | cons f rest ih =>
    intro index last descs data hsorted hnames hlast htags hpres hfind hcap
    have hp := (sorted_by_tag_pairwise (f :: rest)).mp hsorted
    have hsr : sorted_by_tag rest = true :=
      (sorted_by_tag_pairwise rest).mpr (List.Pairwise.of_cons hp)
    have hnames2 : names_unique rest = true ∧ ∀ g ∈ rest, g.name ≠ f.name := by
      simp only [names_unique, Bool.and_eq_true, List.all_eq_true] at hnames
      exact ⟨hnames.2, fun g hg => by simpa using hnames.1 g hg⟩
    have htagf := htags f (by simp)
    have htagsr : ∀ g ∈ rest, (f.tag : Int) < (g.tag : Int) ∧ g.tag < 32768 := by
      intro g hg
      have h1 := List.rel_of_pairwise_cons hp hg
      exact ⟨by exact_mod_cast h1, (htags g (by simp [hg])).2⟩
    cases hlk : lookupA m f.name with
    | none =>
      have hcd : countDesc m (f :: rest) last = countDesc m rest last := by
        simp only [countDesc, hlk]
      obtain ⟨Δd, Δb, he, hl, hlt, hd⟩ := ih index last descs data hsr hnames2.1 hlast
        (fun g hg => ⟨by have h2 := htagsr g hg; omega, (htagsr g hg).2⟩)
        (fun g hg y hy => hpres g (by simp [hg]) y hy)
        (fun g hg => hfind g (by simp [hg]))
        (by rw [hcd] at hcap; exact hcap)
      refine ⟨Δd, Δb, ?_, by rw [hcd]; exact hl, hlt, ?_⟩
      · rw [hcd]
        simp only [encode_loop, hlk]
        exact he
      · intro D pre result hD hpre hdf hfresh
        rw [hd D pre result hD hpre hdf (fun g hg p hp => hfresh g (by simp [hg]) p hp)]
        rw [Except.ok.injEq]
        simp only [restrict_fields, hlk]
    | some x =>
      obtain ⟨hvx, hfx⟩ := hpres f (by simp) x hlk
      have hfindf := hfind f (by simp)
      have ihrest : ∀ (index2 : Nat) (descs2 data2 : List Nat),
          index2 + countDesc m rest ((f.tag : Int)) ≤ t.maxn →
          ∃ Δd Δb,
            encode_loop S (encodeAux fuel S) (SIZEOF_HEADER + t.maxn * SIZEOF_FIELD)
              rest m index2 ((f.tag : Int)) descs2 data2 =
              .ok (index2 + countDesc m rest ((f.tag : Int)),
                descs2 ++ Δd, data2 ++ Δb) ∧
            Δd.length = countDesc m rest ((f.tag : Int)) ∧
            (∀ y ∈ Δd, y < 65536) ∧
            ∀ (D pre : List Nat) (result : List (String × SprotoValue)),
              D = pre ++ Δb → 1 ≤ pre.length → D.length ≤ df0 →
              (∀ g ∈ rest, ∀ p ∈ result, p.1 ≠ g.name) →
              decode_loop S (decodeAux df0 S) t D Δd pre.length ((f.tag : Int))
                result =
                .ok (result ++ restrict_fields (restrictAux fuel S) S rest m) :=
        fun index2 descs2 data2 hcap2 =>
          ih index2 ((f.tag : Int)) descs2 data2 hsr hnames2.1 (by omega)
            htagsr
            (fun g hg y hy => hpres g (by simp [hg]) y hy)
            (fun g hg => hfind g (by simp [hg]))
            hcap2
      by_cases harr : f.is_array = true
      · have hxarr : ∃ elems, x = .Array elems := by
          simp only [valid_shape, harr, if_true] at hvx
          cases x with
          | Array a => exact ⟨a, rfl⟩
          | Integer n => simp at hvx
          | Boolean b => simp at hvx
          | Str sv => simp at hvx
          | Binary bv => simp at hvx
          | Double dv => simp at hvx
          | Struct mv => simp at hvx
        obtain ⟨elems, rfl⟩ := hxarr
        obtain ⟨L, content, hencA, hclen, hLlt, hdecA⟩ :=
          encode_array_ok S fuel f elems IH harr hvx hfx
        have hpay : encode_payload S (encodeAux fuel S) f (.Array elems) data =
            .ok (some (0, data ++ (write_u32_le L ++ content))) := by
          simp only [encode_payload, harr, if_true, hencA, Except.map]
          rw [if_neg (by simp [write_u32_le])]
        have hstep : ∀ (D pre T rest0 : List Nat)
            (result : List (String × SprotoValue)),
            D = pre ++ ((write_u32_le L ++ content) ++ T) → 1 ≤ pre.length →
            D.length ≤ df0 →
            (∀ p ∈ result, p.1 ≠ f.name) →
            decode_loop S (decodeAux df0 S) t D (0 :: rest0) pre.length
              ((f.tag : Int) - 1) result =
              decode_loop S (decodeAux df0 S) t D rest0
                (pre ++ (write_u32_le L ++ content)).length ((f.tag : Int))
                (result ++ [(f.name,
                  restrict_one (restrictAux fuel S) S f (.Array elems))]) := by
          intro D pre T rest0 result hD hpre hdf hfresh
          have hDlen : D.length = pre.length + (4 + content.length + T.length) := by
            rw [hD]
            simp [write_u32_le_length]
            omega
          exact decode_loop_data_step S (decodeAux df0 S) t f L content T
            (restrict_one (restrictAux fuel S) S f (.Array elems)) D pre rest0
            ((f.tag : Int) - 1) result (by rw [hD]; simp [List.append_assoc])
            hclen hLlt rfl htagf.2 hfindf
            (by rw [if_pos harr]; exact hdecA df0 (by omega)) hfresh
        exact encode_decode_loop_cons S t fuel df0 m f rest index last descs data
          (.Array elems) 0 (write_u32_le L ++ content) hlk hlast htagf.1 htagf.2
          (by omega) hnames2.2 hcap hpay hstep ihrest
      · have harr2 : f.is_array = false := by simpa using harr
        rcases encode_field_ok S fuel f x IH harr2 hvx hfx with
          ⟨iv, hencI, hiv2, hivlt, hivev, hdecI⟩ |
          ⟨L, content, hencD, hclen, hLlt, hdecD⟩
        · have hpay : encode_payload S (encodeAux fuel S) f x data =
              .ok (some (iv, data ++ [])) := by
            simp only [encode_payload, harr2, Bool.false_eq_true, if_false,
              hencI, Except.map]
            simp
          have hstep : ∀ (D pre T rest0 : List Nat)
              (result : List (String × SprotoValue)),
              D = pre ++ ([] ++ T) → 1 ≤ pre.length → D.length ≤ df0 →
              (∀ p ∈ result, p.1 ≠ f.name) →
              decode_loop S (decodeAux df0 S) t D (iv :: rest0) pre.length
                ((f.tag : Int) - 1) result =
                decode_loop S (decodeAux df0 S) t D rest0 (pre ++ []).length
                  ((f.tag : Int))
                  (result ++ [(f.name, restrict_one (restrictAux fuel S) S f x)]) := by
            intro D pre T rest0 result hD hpre hdf hfresh
            have h1 := decode_loop_inline_step S (decodeAux df0 S) t f iv
              (restrict_one (restrictAux fuel S) S f x) D pre.length rest0
              ((f.tag : Int) - 1) result rfl htagf.2 hiv2 hivev hfindf hdecI hfresh
            rw [h1]
            rw [List.append_nil]
          exact encode_decode_loop_cons S t fuel df0 m f rest index last descs data
            x iv [] hlk hlast htagf.1 htagf.2 hivlt hnames2.2 hcap hpay hstep ihrest
        · have hpay : encode_payload S (encodeAux fuel S) f x data =
              .ok (some (0, data ++ (write_u32_le L ++ content))) := by
            simp only [encode_payload, harr2, Bool.false_eq_true, if_false,
              hencD, Except.map]
          have hstep : ∀ (D pre T rest0 : List Nat)
              (result : List (String × SprotoValue)),
              D = pre ++ ((write_u32_le L ++ content) ++ T) → 1 ≤ pre.length →
              D.length ≤ df0 →
              (∀ p ∈ result, p.1 ≠ f.name) →
              decode_loop S (decodeAux df0 S) t D (0 :: rest0) pre.length
                ((f.tag : Int) - 1) result =
                decode_loop S (decodeAux df0 S) t D rest0
                  (pre ++ (write_u32_le L ++ content)).length ((f.tag : Int))
                  (result ++ [(f.name,
                    restrict_one (restrictAux fuel S) S f x)]) := by
            intro D pre T rest0 result hD hpre hdf hfresh
            have hDlen : D.length = pre.length + (4 + content.length + T.length) := by
              rw [hD]
              simp [write_u32_le_length]
              omega
            exact decode_loop_data_step S (decodeAux df0 S) t f L content T
              (restrict_one (restrictAux fuel S) S f x) D pre rest0
              ((f.tag : Int) - 1) result (by rw [hD]; simp [List.append_assoc])
              hclen hLlt rfl htagf.2 hfindf
              (by rw [if_neg (by simp [harr2] : ¬ f.is_array = true)]
                  exact hdecD df0 (by omega)) hfresh
          exact encode_decode_loop_cons S t fuel df0 m f rest index last descs data
            x 0 (write_u32_le L ++ content) hlk hlast htagf.1 htagf.2
            (by omega) hnames2.2 hcap hpay hstep ihrest


theorem encode_decode_ok (S : Sproto) (hwf : wf_schema S = true)
    (hskip : tags_in_skip_range S = true) :
    ∀ (fuel : Nat) (t : SprotoType) (v : SprotoValue),
      t ∈ S.types_list →
      validAux fuel S t v = true →
      size_fitsAux fuel S t v = true →
      ∃ bs, encodeAux fuel S t v = .ok bs ∧
        ∀ df, bs.length + 1 ≤ df →
          decodeAux df S t bs = .ok (restrictAux fuel S t v) := by
  intro fuel
  induction fuel with
  | zero =>
    intro t v _ hv _
    simp [validAux] at hv
  | succ fuel ihf =>
    intro t v ht hv hf
    have hwt := wf_type_of_mem S t hwf ht
    obtain ⟨hsorted, hnames, hbase, hmaxn, htag65⟩ := wf_type_parts S t hwt
    have htag32 := tags_lt_of_mem S t hskip ht
    cases v with
    | Integer n => simp [validAux] at hv
    | Boolean b => simp [validAux] at hv
    | Str sv => simp [validAux] at hv
    | Binary bv => simp [validAux] at hv
    | Double dv => simp [validAux] at hv
    | Array av => simp [validAux] at hv
    | Struct m =>
      simp only [validAux, List.all_eq_true] at hv
      simp only [size_fitsAux, List.all_eq_true] at hf
      have hpres : ∀ f ∈ t.fields, ∀ x, lookupA m f.name = some x →
          valid_shape (validAux fuel S) S f x = true ∧
          fits_shape (size_fitsAux fuel S) (encodeAux fuel S) S f x = true := by
        intro f hfm x hx
        have h1 := hv f hfm
        have h2 := hf f hfm
        simp only [hx] at h1 h2
        exact ⟨h1, h2⟩
      have hfind : ∀ f ∈ t.fields, find_field_by_tag t f.tag = some f := by
        intro f hfm
        rw [find_field_by_tag_spec t hsorted hbase]
        exact find?_of_mem_sorted t.fields
          ((sorted_by_tag_pairwise t.fields).mp hsorted) f hfm
      have hmx : t.maxn = t.fields.length + gap_count t.fields (-1) := by
        rw [hmaxn, maxn_eq]
      have hcd := countDesc_le m t.fields (-1)
      have hcap : 0 + countDesc m t.fields (-1) ≤ t.maxn := by
        rw [hmx]
        omega
      have hm32 : (t.fields.length : Int) + gap_count t.fields (-1) ≤ 32768 := by
        have h3 := len_gap_le t.fields (-1) hsorted (by omega)
          (fun f hfm => ⟨by omega, htag32 f hfm⟩)
        omega
      have hcnt65 : countDesc m t.fields (-1) < 65536 := by omega
      have htags2 : ∀ f ∈ t.fields, (-1 : Int) < (f.tag : Int) ∧ f.tag < 32768 :=
        fun f hfm => ⟨by omega, htag32 f hfm⟩
      have IH2 : ∀ sub v2, sub ∈ S.types_list → validAux fuel S sub v2 = true →
          size_fitsAux fuel S sub v2 = true →
          ∃ bs, encodeAux fuel S sub v2 = .ok bs ∧
            ∀ df, bs.length + 1 ≤ df →
              decodeAux df S sub bs = .ok (restrictAux fuel S sub v2) :=
        fun sub v2 hm hv2 hf2 => ihf sub v2 hm hv2 hf2
      obtain ⟨Δd, Δb, henc0, hlen0, hlt0, _⟩ :=
        encode_decode_loop S t fuel 0 m IH2 t.fields 0 (-1) [] []
          hsorted hnames (by omega) htags2 hpres hfind hcap
      have hblen : (write_u16_le (countDesc m t.fields (-1)) ++
          Δd.flatMap write_u16_le ++ Δb).length =
          2 + 2 * countDesc m t.fields (-1) + Δb.length := by
        simp only [List.length_append, write_u16_le_length,
          flatMap_const_length write_u16_le 2 write_u16_le_length, hlen0]
      have hread : read_u16_le (write_u16_le (countDesc m t.fields (-1)) ++
          Δd.flatMap write_u16_le ++ Δb) = countDesc m t.fields (-1) := by
        rw [List.append_assoc, read_u16_le_write]
        omega
      have hdescs : (List.range (countDesc m t.fields (-1))).map
          (fun i => read_u16_le ((write_u16_le (countDesc m t.fields (-1)) ++
            Δd.flatMap write_u16_le ++ Δb).drop (SIZEOF_HEADER + SIZEOF_FIELD * i))) =
          Δd := by
        apply List.ext_getElem
        · simp [hlen0]
        · intro i hi1 hi2
          have hi : i < countDesc m t.fields (-1) := by simpa using hi1
          simp only [List.getElem_map, List.getElem_range]
          rw [show SIZEOF_HEADER + SIZEOF_FIELD * i =
            (write_u16_le (countDesc m t.fields (-1))).length + 2 * i from by
            simp only [SIZEOF_HEADER, SIZEOF_FIELD, write_u16_le_length]]
          rw [read_u16_flatMap Δd i (write_u16_le (countDesc m t.fields (-1))) Δb
            (by omega) hlt0]
          rw [List.getD_eq_getElem Δd 0 (by omega)]
      refine ⟨write_u16_le (countDesc m t.fields (-1)) ++
        Δd.flatMap write_u16_le ++ Δb, ?_, ?_⟩
      · simp only [encodeAux]
        rw [henc0]
        simp only [bind, Except.bind, Nat.zero_add, List.nil_append]
      · intro df hdf
        obtain ⟨df0, rfl⟩ : ∃ df0, df = df0 + 1 := ⟨df - 1, by omega⟩
        obtain ⟨Δd2, Δb2, henc2, hlen2, hlt2, hdec2⟩ :=
          encode_decode_loop S t fuel df0 m IH2 t.fields 0 (-1) [] []
            hsorted hnames (by omega) htags2 hpres hfind hcap
        have hdd : Δd2 = Δd ∧ Δb2 = Δb := by
          rw [henc0] at henc2
          rw [Except.ok.injEq, Prod.mk.injEq, Prod.mk.injEq] at henc2
          obtain ⟨_, h4, h5⟩ := henc2
          exact ⟨by simpa using h4.symm, by simpa using h5.symm⟩
        rw [hdd.1, hdd.2] at hdec2
        simp only [decodeAux]
        rw [hread]
        rw [if_neg (by rw [hblen]; simp only [SIZEOF_HEADER]; omega)]
        rw [if_neg (by rw [hblen]; simp only [SIZEOF_HEADER, SIZEOF_FIELD]; omega)]
        rw [hdescs]
        rw [show SIZEOF_HEADER + countDesc m t.fields (-1) * SIZEOF_FIELD =
          (write_u16_le (countDesc m t.fields (-1)) ++
            Δd.flatMap write_u16_le).length from by
          simp only [SIZEOF_HEADER, SIZEOF_FIELD, List.length_append,
            write_u16_le_length,
            flatMap_const_length write_u16_le 2 write_u16_le_length, hlen0]
          omega]
        rw [hdec2 (write_u16_le (countDesc m t.fields (-1)) ++
            Δd.flatMap write_u16_le ++ Δb)
          (write_u16_le (countDesc m t.fields (-1)) ++ Δd.flatMap write_u16_le) []
          (by simp [List.append_assoc])
          (by simp only [List.length_append, write_u16_le_length]; omega)
          (by rw [hblen] at hdf; rw [hblen]; omega)
          (by intro g hg p hp; simp at hp)]
        simp only [Except.map, List.nil_append, restrictAux]


/-- C1 (amended): for a well-formed schema whose field tags all lie
below 0x8000 (so that every skip descriptor fits its u16), every type
T of S and every struct value v valid for T whose length-prefixed
regions all fit their u32 prefixes, encode succeeds and decode of the
encoding returns v restricted to the fields of T present in v; fields
absent from v stay absent.  The original claim, without the tag
bound, is refuted by claim_C1_cex. -/
theorem claim_C1 (S : Sproto) (t : SprotoType) (v : SprotoValue) (fuel : Nat)
    (hwf : wf_schema S = true)
    (ht : t ∈ S.types_list)
    (hskip : tags_in_skip_range S = true)
    (hvalid : validAux fuel S t v = true)
    (hfits : size_fitsAux fuel S t v = true) :
    ∃ bs, encodeAux fuel S t v = .ok bs ∧
      decode S t bs = .ok (restrictAux fuel S t v) := by
  obtain ⟨bs, henc, hdec⟩ := encode_decode_ok S hwf hskip fuel t v ht hvalid hfits
  exact ⟨bs, henc, hdec (bs.length + 1) (le_refl _)⟩

/-- C1 counterexample: in the schema whose only type Big has a single
Integer field f with tag 0x8001, the valid value {f: 5} encodes
successfully, but the skip descriptor (2 * 0x8001 - 1) overflows its
u16, so the decoder skips past tag 0x8001 and returns the empty
struct instead of the encoded field: the claimed round trip fails
for a well-formed schema and a valid value. -/
theorem claim_C1_cex :
    wf_schema exBigTagS = true ∧
    exBigTagT ∈ exBigTagS.types_list ∧
    validAux 1 exBigTagS exBigTagT exBigV = true ∧
    size_fitsAux 1 exBigTagS exBigTagT exBigV = true ∧
    encodeAux 1 exBigTagS exBigTagT exBigV = .ok [2, 0, 1, 0, 12, 0] ∧
    decode exBigTagS exBigTagT [2, 0, 1, 0, 12, 0] = .ok (.Struct []) ∧
    restrictAux 1 exBigTagS exBigTagT exBigV = .Struct [("f", .Integer 5)] ∧
    SprotoValue.Struct [("f", SprotoValue.Integer 5)] ≠ SprotoValue.Struct [] :=
  ⟨by decide, by decide, by decide, by decide, rfl, rfl, rfl, by simp⟩

/-- C1 witness: the Person example of the specification round-trips. -/
theorem claim_C1_witness :
    wf_schema exPersonS = true ∧ exPersonT ∈ exPersonS.types_list ∧
    tags_in_skip_range exPersonS = true ∧
    validAux 2 exPersonS exPersonT exAliceV = true ∧
    size_fitsAux 2 exPersonS exPersonT exAliceV = true ∧
    ∃ bs, encodeAux 2 exPersonS exPersonT exAliceV = .ok bs ∧
      decode exPersonS exPersonT bs =
        .ok (restrictAux 2 exPersonS exPersonT exAliceV) :=
  ⟨by decide, by decide, by decide, by decide, by decide,
    claim_C1 exPersonS exPersonT exAliceV 2 (by decide) (by decide) (by decide)
      (by decide) (by decide)⟩


theorem mem_of_getElemOpt (l : List SprotoType) (i : Nat) (a : SprotoType)
    (h : l[i]? = some a) : a ∈ l := by
  have hlt : i < l.length := by
    by_contra hge
    rw [List.getElem?_eq_none (by omega)] at h
    exact Option.noConfusion h
  rw [List.getElem?_eq_getElem hlt] at h
  have h2 : l[i] = a := Option.some.injEq _ _ |>.mp h
  rw [← h2]
  exact List.getElem_mem hlt

theorem lookupA_restrict_none (recur : SprotoType → SprotoValue → SprotoValue)
    (S : Sproto) :
    ∀ (fs : List Field) (m : List (String × SprotoValue)) (nm : String),
      (∀ g ∈ fs, g.name ≠ nm) →
      lookupA (restrict_fields recur S fs m) nm = none := by
  intro fs
  induction fs with
  | nil => intro m nm _; rfl
  | cons g rest ih =>
    intro m nm hne
    cases hlk : lookupA m g.name with
    | none =>
      simp only [restrict_fields, hlk]
      exact ih m nm (fun y hy => hne y (by simp [hy]))
    | some x =>
      simp only [restrict_fields, hlk, lookupA]
      rw [if_neg (hne g (by simp))]
      exact ih m nm (fun y hy => hne y (by simp [hy]))

theorem lookupA_restrict_fields (recur : SprotoType → SprotoValue → SprotoValue)
    (S : Sproto) :
    ∀ (fs : List Field) (m : List (String × SprotoValue)) (f : Field),
      f ∈ fs → names_unique fs = true →
      lookupA (restrict_fields recur S fs m) f.name =
        (lookupA m f.name).map (fun x => restrict_one recur S f x) := by
  intro fs
  induction fs with
  | nil => intro m f hf _; simp at hf
  | cons g rest ih =>
    intro m f hf hnu
    have hnu2 : names_unique rest = true ∧ ∀ y ∈ rest, y.name ≠ g.name := by
      simp only [names_unique, Bool.and_eq_true, List.all_eq_true] at hnu
      exact ⟨hnu.2, fun y hy => by simpa using hnu.1 y hy⟩
    rcases List.mem_cons.mp hf with rfl | hfr
    · cases hlk : lookupA m f.name with
      | none =>
        simp only [restrict_fields, hlk]
        rw [lookupA_restrict_none recur S rest m f.name hnu2.2]
        rfl
      | some x =>
        simp only [restrict_fields, hlk, lookupA]
        rw [if_pos trivial]
        rfl
    · have hgne : f.name ≠ g.name := hnu2.2 f hfr
      cases hlk : lookupA m g.name with
      | none =>
        simp only [restrict_fields, hlk]
        exact ih m f hfr hnu2.1
      | some x =>
        simp only [restrict_fields, hlk, lookupA]
        rw [if_neg (fun h => hgne h.symm)]
        exact ih m f hfr hnu2.1

theorem encode_object_collect_restrict (S : Sproto) (fuel : Nat) (f : Field)
    (idx : Nat) (sub : SprotoType) (hft : f.field_type = .Struct idx)
    (hidx : S.types_list[idx]? = some sub)
    (IH1 : ∀ v2, validAux fuel S sub v2 = true →
      encodeAux fuel S sub (restrictAux fuel S sub v2) = encodeAux fuel S sub v2) :
    ∀ (elems : List SprotoValue) (inner : List Nat),
      (∀ e ∈ elems, validAux fuel S sub e = true) →
      encode_object_array_collect S (encodeAux fuel S) f
        (elems.map (fun e => restrictAux fuel S sub e)) inner =
      encode_object_array_collect S (encodeAux fuel S) f elems inner := by
  intro elems
  induction elems with
  | nil => intro inner _; rfl
  | cons e rest ih =>
    intro inner hall
    simp only [List.map_cons, encode_object_array_collect, hft, hidx]
    rw [IH1 e (hall e (by simp))]
    cases henc : encodeAux fuel S sub e with
    | error err => simp [bind, Except.bind, henc]
    | ok bs =>
      simp only [henc, bind, Except.bind]
      exact ih _ (fun y hy => hall y (by simp [hy]))

theorem encode_payload_restrict (S : Sproto) (fuel : Nat) (f : Field)
    (x : SprotoValue)
    (hvalid : valid_shape (validAux fuel S) S f x = true)
    (IHt : ∀ sub v2, sub ∈ S.types_list → validAux fuel S sub v2 = true →
      encodeAux fuel S sub (restrictAux fuel S sub v2) = encodeAux fuel S sub v2)
    (data : List Nat) :
    encode_payload S (encodeAux fuel S) f
      (restrict_one (restrictAux fuel S) S f x) data =
    encode_payload S (encodeAux fuel S) f x data := by
  by_cases harr : f.is_array = true
  · cases x with
    | Array elems =>
      simp only [valid_shape, harr, if_true, List.all_eq_true] at hvalid
      cases hft : f.field_type with
      | Struct idx =>
        cases hidx : S.types_list[idx]? with
        | none =>
          cases elems with
          | nil => simp [restrict_one, harr, hft]
          | cons e0 er =>
            have h1 := hvalid e0 (by simp)
            simp only [hft, hidx] at h1
            simp at h1
        | some sub =>
          have hmem := mem_of_getElemOpt _ _ _ hidx
          have helemv : ∀ e ∈ elems, validAux fuel S sub e = true := by
            intro e he
            have h1 := hvalid e he
            simp only [hft, hidx] at h1
            exact h1
          have hgetd : S.types_list.getD idx default = sub := by
            simp [List.getD, hidx]
          simp only [restrict_one, harr, if_true, hft, hgetd]
          simp only [encode_payload, harr, if_true]
          have harreq : encode_array S (encodeAux fuel S) f
              (elems.map (fun e => restrictAux fuel S sub e)) =
              encode_array S (encodeAux fuel S) f elems := by
            simp only [encode_array, hft]
            cases elems with
            | nil => rfl
            | cons e0 er =>
              simp only [List.map_cons, List.isEmpty_cons, Bool.false_eq_true,
                if_false]
              simp only [encode_object_array]
              rw [show restrictAux fuel S sub e0 ::
                  List.map (fun e => restrictAux fuel S sub e) er =
                  (e0 :: er).map (fun e => restrictAux fuel S sub e) from by simp]
              rw [encode_object_collect_restrict S fuel f idx sub hft hidx
                (fun v2 hv2 => IHt sub v2 hmem hv2) (e0 :: er) [] helemv]
          rw [harreq]
      | Integer => simp only [restrict_one, harr, if_true, hft]
      | Boolean => simp only [restrict_one, harr, if_true, hft]
      | Double => simp only [restrict_one, harr, if_true, hft]
      | String => simp only [restrict_one, harr, if_true, hft]
      | Binary => simp only [restrict_one, harr, if_true, hft]
    | Integer n => simp [valid_shape, harr] at hvalid
    | Boolean b => simp [valid_shape, harr] at hvalid
    | Str sv => simp [valid_shape, harr] at hvalid
    | Binary bv => simp [valid_shape, harr] at hvalid
    | Double dv => simp [valid_shape, harr] at hvalid
    | Struct mv => simp [valid_shape, harr] at hvalid
  · have harr2 : f.is_array = false := by simpa using harr
    cases hft : f.field_type with
    | Struct idx =>
      simp only [valid_shape, harr2, Bool.false_eq_true, if_false, hft] at hvalid
      cases hidx : S.types_list[idx]? with
      | none =>
        simp only [hidx] at hvalid
        simp at hvalid
      | some sub =>
        simp only [hidx] at hvalid
        have hmem := mem_of_getElemOpt _ _ _ hidx
        have hgetd : S.types_list.getD idx default = sub := by
          simp [List.getD, hidx]
        simp only [restrict_one, harr2, Bool.false_eq_true, if_false, hft, hgetd]
        simp only [encode_payload, harr2, Bool.false_eq_true, if_false]
        simp only [encode_field, hft, hidx]
        rw [IHt sub x hmem hvalid]
    | Integer => simp only [restrict_one, harr2, Bool.false_eq_true, if_false, hft]
    | Boolean => simp only [restrict_one, harr2, Bool.false_eq_true, if_false, hft]
    | Double => simp only [restrict_one, harr2, Bool.false_eq_true, if_false, hft]
    | String => simp only [restrict_one, harr2, Bool.false_eq_true, if_false, hft]
    | Binary => simp only [restrict_one, harr2, Bool.false_eq_true, if_false, hft]

theorem encode_loop_restrict (S : Sproto) (fuel : Nat)
    (m mr : List (String × SprotoValue)) (hsz : Nat)
    (IHt : ∀ sub v2, sub ∈ S.types_list → validAux fuel S sub v2 = true →
      encodeAux fuel S sub (restrictAux fuel S sub v2) = encodeAux fuel S sub v2) :
    ∀ (fs : List Field) (index : Nat) (last : Int) (descs data : List Nat),
      (∀ f ∈ fs, lookupA mr f.name =
        (lookupA m f.name).map (fun x => restrict_one (restrictAux fuel S) S f x)) →
      (∀ f ∈ fs, ∀ x, lookupA m f.name = some x →
        valid_shape (validAux fuel S) S f x = true) →
      encode_loop S (encodeAux fuel S) hsz fs mr index last descs data =
        encode_loop S (encodeAux fuel S) hsz fs m index last descs data := by
  intro fs
  induction fs with
  | nil => intro _ _ _ _ _ _; rfl
  | cons f rest ih =>
    intro index last descs data hmap hval
    have hm := hmap f (by simp)
    cases hlk : lookupA m f.name with
    | none =>
      rw [hlk] at hm
      simp only [Option.map] at hm
      simp only [encode_loop, hlk, hm]
      exact ih index last descs data (fun g hg => hmap g (by simp [hg]))
        (fun g hg y hy => hval g (by simp [hg]) y hy)
    | some x =>
      rw [hlk] at hm
      simp only [Option.map] at hm
      simp only [encode_loop, hlk, hm]
      rw [encode_payload_restrict S fuel f x (hval f (by simp) x hlk) IHt data]
      cases hpay : encode_payload S (encodeAux fuel S) f x data with
      | error err => simp [bind, Except.bind, hpay]
      | ok payload =>
        cases payload with
        | none =>
          simp only [hpay, bind, Except.bind]
          exact ih index last descs data (fun g hg => hmap g (by simp [hg]))
            (fun g hg y hy => hval g (by simp [hg]) y hy)
        | some p =>
          obtain ⟨ivv, data1⟩ := p
          simp only [hpay, bind, Except.bind]
          by_cases hb : (0:Int) < (f.tag : Int) - last - 1
          · rw [if_pos hb, if_pos hb]
            by_cases hc1 : hsz < SIZEOF_HEADER + SIZEOF_FIELD * index + SIZEOF_FIELD
            · rw [if_pos hc1, if_pos hc1]
            · rw [if_neg hc1, if_neg hc1]
              by_cases hc2 : hsz <
                  SIZEOF_HEADER + SIZEOF_FIELD * (index + 1) + SIZEOF_FIELD
              · rw [if_pos hc2, if_pos hc2]
              · rw [if_neg hc2, if_neg hc2]
                exact ih (index + 2) ((f.tag : Int)) _ data1
                  (fun g hg => hmap g (by simp [hg]))
                  (fun g hg y hy => hval g (by simp [hg]) y hy)
          · rw [if_neg hb, if_neg hb]
            by_cases hc1 : hsz < SIZEOF_HEADER + SIZEOF_FIELD * index + SIZEOF_FIELD
            · rw [if_pos hc1, if_pos hc1]
            · rw [if_neg hc1, if_neg hc1]
              exact ih (index + 1) ((f.tag : Int)) _ data1
                (fun g hg => hmap g (by simp [hg]))
                (fun g hg y hy => hval g (by simp [hg]) y hy)

theorem encode_restrictAux (S : Sproto) (hwf : wf_schema S = true) :
    ∀ (fuel : Nat) (t : SprotoType) (v : SprotoValue),
      t ∈ S.types_list → validAux fuel S t v = true →
      encodeAux fuel S t (restrictAux fuel S t v) = encodeAux fuel S t v := by
  intro fuel
  induction fuel with
  | zero => intro t v _ hv; simp [validAux] at hv
  | succ fuel ihf =>
    intro t v ht hv
    cases v with
    | Struct m =>
      have hwt := wf_type_of_mem S t hwf ht
      obtain ⟨hsorted, hnames, _, _, _⟩ := wf_type_parts S t hwt
      simp only [validAux, List.all_eq_true] at hv
      simp only [restrictAux, encodeAux]
      rw [encode_loop_restrict S fuel m
        (restrict_fields (restrictAux fuel S) S t.fields m)
        (SIZEOF_HEADER + t.maxn * SIZEOF_FIELD)
        (fun sub v2 hm hv2 => ihf sub v2 hm hv2) t.fields 0 (-1) [] []
        (fun f hf => lookupA_restrict_fields (restrictAux fuel S) S t.fields m f
          hf hnames)
        (fun f hf y hy => by
          have h1 := hv f hf
          simp only [hy] at h1
          exact h1)]
    | Integer n => rfl
    | Boolean b => rfl
    | Str sv => rfl
    | Binary bv => rfl
    | Double dv => rfl
    | Array av => rfl

/-- C3 (amended): the decoder is canonical on the image of the
encoder: for every well-formed schema with tags below 0x8000, type T
and valid value v with fitting sizes, the encoded bytes decode
successfully and re-encoding the decoded value yields exactly the
same bytes.  The original claim, over every byte sequence the decoder
accepts, is refuted by claim_C3_cex. -/
theorem claim_C3 (S : Sproto) (t : SprotoType) (v : SprotoValue) (fuel : Nat)
    (hwf : wf_schema S = true)
    (ht : t ∈ S.types_list)
    (hskip : tags_in_skip_range S = true)
    (hvalid : validAux fuel S t v = true)
    (hfits : size_fitsAux fuel S t v = true) :
    ∃ bs, encodeAux fuel S t v = .ok bs ∧
      ∃ w, decode S t bs = .ok w ∧ encodeAux fuel S t w = .ok bs := by
  obtain ⟨bs, henc, hdec⟩ := encode_decode_ok S hwf hskip fuel t v ht hvalid hfits
  refine ⟨bs, henc, restrictAux fuel S t v, hdec (bs.length + 1) (le_refl _), ?_⟩
  rw [encode_restrictAux S hwf fuel t v ht hvalid]
  exact henc

/-- C3 counterexample: the decoder accepts non-canonical byte
sequences.  For the type with a single boolean field b at tag 0, the
bytes [1,0, 6,0] (inline descriptor payload 2, boolean true) decode
successfully, but the decoded value re-encodes to [1,0, 4,0] (inline
descriptor payload 1), which differs from the accepted input. -/
theorem claim_C3_cex :
    wf_schema exBoolS = true ∧
    tags_in_skip_range exBoolS = true ∧
    decode exBoolS exBoolT [1, 0, 6, 0] =
      .ok (.Struct [("b", .Boolean true)]) ∧
    encodeAux 1 exBoolS exBoolT (.Struct [("b", .Boolean true)]) =
      .ok [1, 0, 4, 0] ∧
    ([1, 0, 4, 0] : List Nat) ≠ [1, 0, 6, 0] :=
  ⟨by decide, by decide, rfl, rfl, by decide⟩

/-- C3 witness: the Person example encodes, decodes, and re-encodes
to the same bytes. -/
theorem claim_C3_witness :
    wf_schema exPersonS = true ∧ exPersonT ∈ exPersonS.types_list ∧
    tags_in_skip_range exPersonS = true ∧
    validAux 2 exPersonS exPersonT exAliceV = true ∧
    size_fitsAux 2 exPersonS exPersonT exAliceV = true ∧
    ∃ bs, encodeAux 2 exPersonS exPersonT exAliceV = .ok bs ∧
      ∃ w, decode exPersonS exPersonT bs = .ok w ∧
        encodeAux 2 exPersonS exPersonT w = .ok bs :=
  ⟨by decide, by decide, by decide, by decide, by decide,
    claim_C3 exPersonS exPersonT exAliceV 2 (by decide) (by decide) (by decide)
      (by decide) (by decide)⟩

end Sproto2P
